import Mathlib

/-!
Shallow embedding of the `ni` virtual machine (github.com/nanolsn/ni).

The repository contains several generations of the same crates.  The
claims under verification cite:
  * the standalone codec crates `src/encoder/src/encoder.rs` and
    `src/decoder/src/decoder.rs` (operand wire format),
  * the standalone executor crate `src/executor/src/executor/mod.rs`
    with `src/executor/src/memory.rs` and `src/executor/src/primary.rs`,
  * the data-model copies `src/common/src/operations.rs` (enum `BinOp`
    with a single shared offset) and `src/src/encoder/encoder.rs`.

The `common` crate version used by the standalone executor/encoder/decoder
crates is absent from the sources (only its users are present); its data
types are reconstructed below from those users and their unit tests, and
marked `Modelled from the spec:` where the spec had to fill a gap.

Machine integers are modelled as `Nat` bit patterns with explicit
`% 2^w` at the operations that Rust declares wrapping.  Rust `debug`
overflow panics (e.g. `n_bytes as u8 - 1` in the encoder) are modelled
as `Option.none`.  IEEE-754 *arithmetic* is kept abstract behind a
`FloatOps` record of bit-pattern functions (theorems about floats
quantify over it); IEEE bit-level predicates (NaN / infinity / equality
with zero) are defined exactly.
-/

namespace Ni

/-- `UWord` is `u32` in the cited crates (`pub type UWord = u32;`). -/
def wordBytes : Nat := 4

def wordBits : Nat := 32

/-- `2^32`, the modulus of `UWord` arithmetic. -/
def U32 : Nat := 2 ^ 32

/-- `UWord::wrapping_add` and friends reduce modulo `2^32`. -/
def wrap32 (n : Nat) : Nat := n % U32

/-- `Memory::HEAP_BASE = 1 << (32 / 2)` from `memory.rs`. -/
def HEAP_BASE : Nat := 2 ^ 16

/-- Little-endian byte list of length `n` for the value `v`
(`to_le_bytes` restricted to `n` bytes). -/
def leBytes (n v : Nat) : List Nat :=
  (List.range n).map fun i => v / 256 ^ i % 256

/-- Read a little-endian byte list back into a `Nat`
(`from_le_bytes`, zero-padded). -/
def leToNat : List Nat → Nat
  | [] => 0
  | b :: bs => b + 256 * leToNat bs

theorem leBytes_length (n v : Nat) : (leBytes n v).length = n := by
  simp [leBytes]

theorem leBytes_succ (n v : Nat) :
    leBytes (n + 1) v = v % 256 :: leBytes n (v / 256) := by
  simp only [leBytes, List.range_succ_eq_map, List.map_cons, List.map_map]
  refine congrArg₂ _ (by simp) ?_
  refine List.map_congr_left fun i _ => ?_
  simp only [Function.comp_apply, Nat.pow_succ]
  rw [Nat.div_div_eq_div_mul, Nat.mul_comm 256 (256 ^ i)]

theorem leToNat_leBytes (n v : Nat) (h : v < 256 ^ n) :
    leToNat (leBytes n v) = v := by
  induction n generalizing v with
  | zero => simp [leBytes, leToNat]; omega
  | succ n ih =>
    rw [leBytes_succ, leToNat, ih (v / 256) (by
      rw [Nat.pow_succ, Nat.mul_comm] at h
      exact Nat.div_lt_of_lt_mul h)]
    omega

theorem leToNat_lt (bs : List Nat) (h : ∀ b ∈ bs, b < 256) :
    leToNat bs < 256 ^ bs.length := by
  induction bs with
  | nil => simp [leToNat]
  | cons b bs ih =>
    have hb : b < 256 := h b (by simp)
    have := ih fun x hx => h x (by simp [hx])
    simp only [leToNat, List.length_cons, Nat.pow_succ]
    calc b + 256 * leToNat bs < 256 + 256 * leToNat bs := by omega
    _ = 256 * (leToNat bs + 1) := by ring
    _ ≤ 256 * 256 ^ bs.length := by
        have : leToNat bs + 1 ≤ 256 ^ bs.length := this
        exact Nat.mul_le_mul_left _ this
    _ = 256 ^ bs.length * 256 := by ring

theorem leBytes_mem_lt (n v : Nat) : ∀ b ∈ leBytes n v, b < 256 := by
  intro b hb
  simp only [leBytes, List.mem_map] at hb
  obtain ⟨i, _, rfl⟩ := hb
  exact Nat.mod_lt _ (by omega)

end Ni

namespace Ni

/-- `UndefinedOperation` from `operations.rs`. -/
inductive UndefinedOperation where
  | OpType | Kind | Variant | ArithmeticMode | ParameterMode
deriving DecidableEq

/-- `Operand` of the generation shared by the standalone executor,
encoder and decoder crates: `Loc`, `Ind`, `Ret`, `Val`, `Ref`, `Emp`
(the executor's exhaustive `get_val` match has no `Glb` arm).
Payloads are `UWord` (u32) bit patterns. -/
inductive Operand where
  | Loc (v : Nat)
  | Ind (v : Nat)
  | Ret (v : Nat)
  | Val (v : Nat)
  | Ref (v : Nat)
  | Emp
deriving DecidableEq

namespace Operand

/-- `Operand::get`. -/
def get : Operand → Option Nat
  | .Loc v | .Ind v | .Ret v | .Val v | .Ref v => some v
  | .Emp => none

/-- Modelled from the spec: kind tags of section 6.3 (`Loc=0, Ind=1,
Ret=2, Val=3, Ref=4, Emp=6`), restricted to the kinds this `Operand`
has; `Emp = 6` is pinned by the encoder crate's `encode_emp` test
(`0b0110_0000`) and tag 5 (`Glb` in later generations) is unused. -/
def asByte : Operand → Nat
  | .Loc _ => 0
  | .Ind _ => 1
  | .Ret _ => 2
  | .Val _ => 3
  | .Ref _ => 4
  | .Emp => 6

/-- Modelled from the spec: `Operand::new` inverse of `asByte`;
tag 5 is not constructible in this generation and is rejected. -/
def new (v : Nat) : Nat → Except UndefinedOperation Operand
  | 0 => .ok (.Loc v)
  | 1 => .ok (.Ind v)
  | 2 => .ok (.Ret v)
  | 3 => .ok (.Val v)
  | 4 => .ok (.Ref v)
  | 6 => .ok .Emp
  | _ => .error .Kind

/-- `Operand::map`. -/
def map (f : Nat → Nat) : Operand → Operand
  | .Loc v => .Loc (f v)
  | .Ind v => .Ind (f v)
  | .Ret v => .Ret (f v)
  | .Val v => .Val (f v)
  | .Ref v => .Ref (f v)
  | .Emp => .Emp

/-- `matches!(self, Operand::Loc(_))`. -/
def isLoc : Operand → Bool
  | .Loc _ => true
  | _ => false

end Operand

/-- `UnOp` of the struct generation (`x` plus optional offset),
as used by `Executor::read_un_operand` and the standalone codec. -/
structure UnOp where
  x : Operand
  xOffset : Option Operand := none
deriving DecidableEq

/-- `BinOp` of the struct generation: two operands, each with its own
optional offset, as used by `Executor::read_bin_operands` and the
standalone codec crates. -/
structure BinOp where
  x : Operand
  y : Operand
  xOffset : Option Operand := none
  yOffset : Option Operand := none
deriving DecidableEq

/-- `OpType` (numeric type tag). -/
inductive OpType where
  | U8 | I8 | U16 | I16 | U32 | I32 | U64 | I64 | Uw | Iw | F32 | F64
deriving DecidableEq

namespace OpType

/-- `OpType::new` (tags 10 and 12 reserved). -/
def new : Nat → Except UndefinedOperation OpType
  | 0 => .ok .U8
  | 1 => .ok .I8
  | 2 => .ok .U16
  | 3 => .ok .I16
  | 4 => .ok .U32
  | 5 => .ok .I32
  | 6 => .ok .U64
  | 7 => .ok .I64
  | 8 => .ok .Uw
  | 9 => .ok .Iw
  | 11 => .ok .F32
  | 13 => .ok .F64
  | _ => .error .OpType

/-- `OpType::as_byte`. -/
def asByte : OpType → Nat
  | .U8 => 0
  | .I8 => 1
  | .U16 => 2
  | .I16 => 3
  | .U32 => 4
  | .I32 => 5
  | .U64 => 6
  | .I64 => 7
  | .Uw => 8
  | .Iw => 9
  | .F32 => 11
  | .F64 => 13

end OpType

/-- `ArithmeticMode`. -/
inductive ArithmeticMode where
  | Wrap | Sat | Wide | Hand
deriving DecidableEq

/-- `ArithmeticMode::new`. -/
def ArithmeticMode.new : Nat → Except UndefinedOperation ArithmeticMode
  | 0 => .ok .Wrap
  | 1 => .ok .Sat
  | 2 => .ok .Wide
  | 3 => .ok .Hand
  | _ => .error .ArithmeticMode

/-- `ArithmeticMode::as_byte`. -/
def ArithmeticMode.asByte : ArithmeticMode → Nat
  | .Wrap => 0
  | .Sat => 1
  | .Wide => 2
  | .Hand => 3

/-- `ParameterMode` (`Set` / `Emp` / `Zer`). -/
inductive ParameterMode where
  | Set | Emp | Zer
deriving DecidableEq

/-- `ParameterMode::new`. -/
def ParameterMode.new : Nat → Except UndefinedOperation ParameterMode
  | 0 => .ok .Set
  | 1 => .ok .Emp
  | 2 => .ok .Zer
  | _ => .error .ParameterMode

/-- `ParameterMode::as_byte`. -/
def ParameterMode.asByte : ParameterMode → Nat
  | .Set => 0
  | .Emp => 1
  | .Zer => 2

/-- `Variant` (offset-presence pattern, 2 bits).  The decoder crate's
generation names the first constructor `NoOffset`; the codes agree. -/
inductive Variant where
  | None | First | Second | Both
deriving DecidableEq

/-- `Variant::new`. -/
def Variant.new : Nat → Except UndefinedOperation Variant
  | 0 => .ok .None
  | 1 => .ok .First
  | 2 => .ok .Second
  | 3 => .ok .Both
  | _ => .error .Variant

/-- `Variant::as_byte`. -/
def Variant.asByte : Variant → Nat
  | .None => 0
  | .First => 1
  | .Second => 2
  | .Both => 3

/-- `UnOp::variant` (struct generation: offset present or not). -/
def UnOp.variant (u : UnOp) : Variant :=
  match u.xOffset with
  | none => .None
  | some _ => .First

/-- `BinOp::variant` (struct generation). -/
def BinOp.variant (b : BinOp) : Variant :=
  match b.xOffset, b.yOffset with
  | none, none => .None
  | some _, none => .First
  | none, some _ => .Second
  | some _, some _ => .Both

/-- `Op` of the executor / encoder crate generation: the executor's
`execute` matches exactly these constructors (`Ret` is field-less; no
`In`/`Out`/`Fls`/bulk-memory ops in this generation). -/
inductive Op where
  | Nop
  | End (x : Operand)
  | Slp (x : Operand)
  | Set (b : BinOp) (t : OpType)
  | Cnv (x y : Operand) (t u : OpType)
  | Add (b : BinOp) (t : OpType) (m : ArithmeticMode)
  | Sub (b : BinOp) (t : OpType) (m : ArithmeticMode)
  | Mul (b : BinOp) (t : OpType) (m : ArithmeticMode)
  | Div (b : BinOp) (t : OpType)
  | Mod (b : BinOp) (t : OpType)
  | Shl (x y : Operand) (t : OpType)
  | Shr (x y : Operand) (t : OpType)
  | And (b : BinOp) (t : OpType)
  | Or (b : BinOp) (t : OpType)
  | Xor (b : BinOp) (t : OpType)
  | Not (u : UnOp) (t : OpType)
  | Neg (u : UnOp) (t : OpType) (m : ArithmeticMode)
  | Inc (u : UnOp) (t : OpType) (m : ArithmeticMode)
  | Dec (u : UnOp) (t : OpType) (m : ArithmeticMode)
  | Go (x : Operand)
  | Ift (u : UnOp) (t : OpType)
  | Iff (u : UnOp) (t : OpType)
  | Ife (b : BinOp) (t : OpType)
  | Ifl (b : BinOp) (t : OpType)
  | Ifg (b : BinOp) (t : OpType)
  | Ine (b : BinOp) (t : OpType)
  | Inl (b : BinOp) (t : OpType)
  | Ing (b : BinOp) (t : OpType)
  | Ifa (b : BinOp) (t : OpType)
  | Ifo (b : BinOp) (t : OpType)
  | Ifx (b : BinOp) (t : OpType)
  | Ina (b : BinOp) (t : OpType)
  | Ino (b : BinOp) (t : OpType)
  | Inx (b : BinOp) (t : OpType)
  | App (x : Operand)
  | Par (u : UnOp) (t : OpType) (m : ParameterMode)
  | Clf (x : Operand)
  | Ret
deriving DecidableEq

/-- `Op::is_conditional`, following `src/common/src/operations.rs`
restricted to this generation's constructors (that file additionally
lists `Cmp`, which this `Op` does not have). -/
def Op.isConditional : Op → Bool
  | .Ift _ _ | .Iff _ _
  | .Ife _ _ | .Ifl _ _ | .Ifg _ _
  | .Ine _ _ | .Inl _ _ | .Ing _ _
  | .Ifa _ _ | .Ifo _ _ | .Ifx _ _
  | .Ina _ _ | .Ino _ _ | .Inx _ _ => true
  | _ => false

end Ni

namespace Ni

deriving instance DecidableEq for Except

/-- `DecodeError` of the decoder crate (`ReadError` is an io error and
cannot arise from an in-memory byte list; `sliceFault` models the Rust
panic of `buf[..n_bytes]` when the meta byte announces more value bytes
than `size_of::<UWord>()`). -/
inductive DecodeError where
  | UnexpectedEnd
  | UnknownOpCode
  | UndefinedOperation (u : UndefinedOperation)
  | IncorrectVariant
  | sliceFault
deriving DecidableEq

/-- Number of little-endian value bytes the encoder keeps:
`bytes.iter().rev().skip_while(|b| b == 0).count()`. -/
def nBytesKept (bs : List Nat) : Nat :=
  (bs.reverse.dropWhile (· == 0)).length

/-- `impl Encode for Operand` from `src/encoder/src/encoder.rs`
(lines 200-234).  `none` models the `debug` panic of
`n_bytes as u8 - 1` when the value is `0` and the operand is not a
short-form `Loc` (then `n_bytes = 0` and the subtraction underflows). -/
def encodeOperand (o : Operand) : Option (List Nat) :=
  match o.get with
  | some v =>
    let bytes := leBytes 4 v
    if v ≤ 0x7F ∧ o.isLoc then
      some [v % 256]
    else
      let n := nBytesKept bytes
      if n = 0 then
        none
      else
        some ((0x80 ||| (o.asByte <<< 4) ||| (n - 1)) :: bytes.take n)
  | none => some [o.asByte <<< 4]

/-- `impl Decode<()> for Operand` from `src/decoder/src/decoder.rs`
(lines 351-378), over a byte list; returns the decoded operand and the
unconsumed rest of the stream. -/
def decodeOperand : List Nat → Except DecodeError (Operand × List Nat)
  | [] => .error .UnexpectedEnd
  | meta :: rest =>
    if meta &&& 0x80 = 0 then
      .ok (.Loc (meta &&& 0x7F), rest)
    else
      let n := (meta &&& 0x0F) + 1
      if 4 < n then
        .error .sliceFault
      else if rest.length < n then
        .error .UnexpectedEnd
      else
        let value := leToNat (rest.take n)
        let kind := (meta &&& 0x70) >>> 4
        match Operand.new value kind with
        | .ok o => .ok (o, rest.drop n)
        | .error e => .error (.UndefinedOperation e)

/-- `impl Encode for BinOp` from `src/encoder/src/encoder.rs`
(lines 328-348): `x`, `y`, then `x_offset` and `y_offset` when present. -/
def encodeBinOp (b : BinOp) : Option (List Nat) := do
  let ex ← encodeOperand b.x
  let ey ← encodeOperand b.y
  let eox ← match b.xOffset with
    | some o => encodeOperand o
    | none => some []
  let eoy ← match b.yOffset with
    | some o => encodeOperand o
    | none => some []
  some (ex ++ ey ++ eox ++ eoy)

/-- `impl Decode<Variant> for BinOp` from `src/decoder/src/decoder.rs`
(lines 246-264): decode `x` and `y`, then by variant zero, one or two
offset operands, the first being the x offset and the second the
y offset. -/
def decodeBinOpWith (var : Variant) (input : List Nat) :
    Except DecodeError (BinOp × List Nat) := do
  let (x, r1) ← decodeOperand input
  let (y, r2) ← decodeOperand r1
  let b : BinOp := { x := x, y := y }
  match var with
  | .None => .ok (b, r2)
  | .First => do
    let (o, r3) ← decodeOperand r2
    .ok ({ b with xOffset := some o }, r3)
  | .Second => do
    let (o, r3) ← decodeOperand r2
    .ok ({ b with yOffset := some o }, r3)
  | .Both => do
    let (ox, r3) ← decodeOperand r2
    let (oy, r4) ← decodeOperand r3
    .ok ({ b with xOffset := some ox, yOffset := some oy }, r4)

/-- `impl Decode<Variant> for UnOp` from `src/decoder/src/decoder.rs`
(lines 266-281); variants `Second`/`Both` are an incorrect variant. -/
def decodeUnOpWith (var : Variant) (input : List Nat) :
    Except DecodeError (UnOp × List Nat) := do
  let (x, r1) ← decodeOperand input
  match var with
  | .None => .ok ({ x := x }, r1)
  | .First => do
    let (o, r2) ← decodeOperand r1
    .ok ({ x := x, xOffset := some o }, r2)
  | _ => .error .IncorrectVariant

/-- `BinOp` of the canonical data-model copy
`src/common/src/operations.rs` (lines 164-207): an enum whose `Both`
variant carries a single shared offset operand. -/
inductive BinOpE where
  | None (x y : Operand)
  | First (x y : Operand) (offset : Operand)
  | Second (x y : Operand) (offset : Operand)
  | Both (x y : Operand) (offset : Operand)
deriving DecidableEq

/-- `BinOp::variant` of the enum generation. -/
def BinOpE.variant : BinOpE → Variant
  | .None _ _ => .None
  | .First _ _ _ => .First
  | .Second _ _ _ => .Second
  | .Both _ _ _ => .Both

/-- `impl Encode for BinOp` from `src/src/encoder/encoder.rs`
(lines 352-375), the encoder paired with the enum `BinOp`: it emits
`x`, `y`, and then the single `offset` when the variant has one —
also for `Both`. -/
def encodeBinOpE (b : BinOpE) : Option (List Nat) := do
  let (x, y, off) := match b with
    | .None x y => (x, y, Option.none)
    | .First x y o => (x, y, some o)
    | .Second x y o => (x, y, some o)
    | .Both x y o => (x, y, some o)
  let ex ← encodeOperand x
  let ey ← encodeOperand y
  let eo ← match off with
    | some o => encodeOperand o
    | none => some []
  some (ex ++ ey ++ eo)

end Ni

namespace Ni

theorem leBytes4 (v : Nat) :
    leBytes 4 v =
      [v % 256, v / 256 % 256, v / 256 ^ 2 % 256, v / 256 ^ 3 % 256] := by
  simp [leBytes, List.range_succ]

/-- The encoder keeps exactly the minimal little-endian prefix:
if `256^k ≤ v < 256^(k+1)` then `k+1` bytes survive the
trailing-zero strip. -/
theorem nBytesKept_leBytes (v k : Nat) (hk : k ≤ 3)
    (h1 : 256 ^ k ≤ v) (h2 : v < 256 ^ (k + 1)) :
    nBytesKept (leBytes 4 v) = k + 1 := by
  interval_cases k <;>
    norm_num at h1 h2 <;>
    simp only [nBytesKept, leBytes4, List.reverse_cons, List.reverse_nil,
      List.nil_append, List.cons_append, List.dropWhile]
  · have g3 : (v / 16777216 % 256 == 0) = true := by simp; omega
    have g2 : (v / 65536 % 256 == 0) = true := by simp; omega
    have g1 : (v / 256 % 256 == 0) = true := by simp; omega
    have g0 : (v % 256 == 0) = false := by simp; omega
    simp [g3, g2, g1, g0]
  · have g3 : (v / 16777216 % 256 == 0) = true := by simp; omega
    have g2 : (v / 65536 % 256 == 0) = true := by simp; omega
    have g1 : (v / 256 % 256 == 0) = false := by simp; omega
    simp [g3, g2, g1]
  · have g3 : (v / 16777216 % 256 == 0) = true := by simp; omega
    have g2 : (v / 65536 % 256 == 0) = false := by simp; omega
    simp [g3, g2]
  · have g3 : (v / 16777216 % 256 == 0) = false := by simp; omega
    simp [g3]

/-- Reading back the kept prefix restores the value. -/
theorem leToNat_take_leBytes (v k : Nat) (hk : k ≤ 3)
    (h2 : v < 256 ^ (k + 1)) :
    leToNat ((leBytes 4 v).take (k + 1)) = v := by
  interval_cases k <;>
    norm_num at h2 <;>
    simp only [leBytes4, List.take_cons, List.take_zero, List.take_nil,
      leToNat] <;>
    omega

/-- Operands whose encoding the Rust encoder produces without panicking
and which are not the ill-fated `Emp`: any `Loc`, and any other valued
kind with a nonzero value (all within `u32`). -/
def Operand.encodable : Operand → Bool
  | .Emp => false
  | .Loc v => v < 2 ^ 32
  | .Ind v | .Ret v | .Val v | .Ref v => 1 ≤ v && v < 2 ^ 32

theorem meta_fields (kind k : Nat) (hkind : kind ≤ 6) (hk : k ≤ 3) :
    ¬((0x80 ||| kind <<< 4 ||| k) &&& 0x80 = 0) ∧
      (0x80 ||| kind <<< 4 ||| k) &&& 0x0F = k ∧
      ((0x80 ||| kind <<< 4 ||| k) &&& 0x70) >>> 4 = kind := by
  interval_cases kind <;> interval_cases k <;> decide

theorem short_fields (v : Nat) (h : v ≤ 127) :
    v &&& 0x80 = 0 ∧ v &&& 0x7F = v := by
  interval_cases v <;> decide

/-- Long-form operands round-trip: encoding with the stripped minimal
payload and decoding through the meta byte restores the operand. -/
theorem encode_long_decode (o : Operand) (v : Nat) (hg : o.get = some v)
    (hshort : ¬(v ≤ 127 ∧ o.isLoc = true)) (h1 : 1 ≤ v) (h2 : v < 2 ^ 32)
    (hnew : Operand.new v o.asByte = .ok o) (rest : List Nat) :
    ∃ k ≤ 3, 256 ^ k ≤ v ∧ v < 256 ^ (k + 1) ∧
      encodeOperand o =
        some ((0x80 ||| o.asByte <<< 4 ||| k) :: (leBytes 4 v).take (k + 1)) ∧
      decodeOperand
          (((0x80 ||| o.asByte <<< 4 ||| k) :: (leBytes 4 v).take (k + 1))
            ++ rest) =
        .ok (o, rest) := by
  have hkind : o.asByte ≤ 6 := by cases o <;> simp [Operand.asByte]
  obtain ⟨k, hk, hlo, hhi⟩ : ∃ k, k ≤ 3 ∧ 256 ^ k ≤ v ∧ v < 256 ^ (k + 1) := by
    rcases Nat.lt_or_ge v 256 with h | h
    · exact ⟨0, by norm_num, by simpa using h1, by simpa using h⟩
    rcases Nat.lt_or_ge v 65536 with h' | h'
    · exact ⟨1, by norm_num, by simpa using h, by simpa using h'⟩
    rcases Nat.lt_or_ge v 16777216 with h'' | h''
    · exact ⟨2, by norm_num, by simpa using h', by simpa using h''⟩
    · exact ⟨3, by norm_num, by simpa using h'', by
        have : (256 : Nat) ^ 4 = 2 ^ 32 := by norm_num
        omega⟩
  have hn := nBytesKept_leBytes v k hk hlo hhi
  have hval := leToNat_take_leBytes v k hk hhi
  have hplen : ((leBytes 4 v).take (k + 1)).length = k + 1 := by
    simp [leBytes_length]
    omega
  have hmeta := meta_fields o.asByte k hkind hk
  refine ⟨k, hk, hlo, hhi, ?_, ?_⟩
  · simp only [encodeOperand, hg, hshort, if_false, hn]
    simp
  · simp only [decodeOperand, List.cons_append]
    rw [if_neg hmeta.1, hmeta.2.1, hmeta.2.2]
    have h4 : ¬ (4 < k + 1) := by omega
    rw [if_neg h4]
    have hlen : ¬ (((leBytes 4 v).take (k + 1) ++ rest).length < k + 1) := by
      simp [hplen]
    rw [if_neg hlen]
    rw [List.take_append_of_le_length (by simp [hplen]),
      List.take_take, min_self, hval, hnew, List.drop_left' hplen]

/-- Round trip of the operand codec on all encodable operands. -/
theorem operand_roundtrip_aux (o : Operand) (h : o.encodable = true)
    (rest : List Nat) :
    ∃ enc, encodeOperand o = some enc ∧
      decodeOperand (enc ++ rest) = .ok (o, rest) := by
  cases o with
  | Emp => simp [Operand.encodable] at h
  | Loc v =>
    simp only [Operand.encodable, decide_eq_true_eq] at h
    rcases Nat.lt_or_ge v 128 with hs | hs
    · refine ⟨[v % 256], ?_, ?_⟩
      · simp [encodeOperand, Operand.get, Operand.isLoc]
        omega
      · have hv : v % 256 = v := Nat.mod_eq_of_lt (by omega)
        have hf := short_fields v (by omega)
        simp [decodeOperand, hv, hf.1, hf.2]
    · obtain ⟨k, _, _, _, henc, hdec⟩ :=
        encode_long_decode (.Loc v) v rfl (by simp; omega) (by omega) h
          rfl rest
      exact ⟨_, henc, hdec⟩
  | Ind v =>
    simp only [Operand.encodable, Bool.and_eq_true, decide_eq_true_eq] at h
    obtain ⟨k, _, _, _, henc, hdec⟩ :=
      encode_long_decode (.Ind v) v rfl (by simp [Operand.isLoc]) h.1 h.2
        rfl rest
    exact ⟨_, henc, hdec⟩
  | Ret v =>
    simp only [Operand.encodable, Bool.and_eq_true, decide_eq_true_eq] at h
    obtain ⟨k, _, _, _, henc, hdec⟩ :=
      encode_long_decode (.Ret v) v rfl (by simp [Operand.isLoc]) h.1 h.2
        rfl rest
    exact ⟨_, henc, hdec⟩
  | Val v =>
    simp only [Operand.encodable, Bool.and_eq_true, decide_eq_true_eq] at h
    obtain ⟨k, _, _, _, henc, hdec⟩ :=
      encode_long_decode (.Val v) v rfl (by simp [Operand.isLoc]) h.1 h.2
        rfl rest
    exact ⟨_, henc, hdec⟩
  | Ref v =>
    simp only [Operand.encodable, Bool.and_eq_true, decide_eq_true_eq] at h
    obtain ⟨k, _, _, _, henc, hdec⟩ :=
      encode_long_decode (.Ref v) v rfl (by simp [Operand.isLoc]) h.1 h.2
        rfl rest
    exact ⟨_, henc, hdec⟩

theorem operand_new_asByte (o : Operand) (v : Nat) (hg : o.get = some v) :
    Operand.new v o.asByte = .ok o := by
  cases o <;> simp_all [Operand.new, Operand.asByte, Operand.get]

/-- C1 (amended).  Codec round-trip at the operand layer: for every
operand that is a `Loc`, or any other valued kind with a nonzero value,
encoding and then decoding the produced byte stream yields the same
operand and consumes exactly its encoding.  (As stated the claim is
false: `Emp` encodes to `0x60` without the long-form bit and decodes as
`Loc(96)`, and a non-`Loc` operand with value `0` makes the encoder's
`n_bytes as u8 - 1` underflow; moreover the encoder and decoder crates
in this snapshot define different instruction types — field-less `Ret`
versus `Ret(UnOp, OpType)` plus `In`/`Out`/`Fls` — so the inverse
property is only statable operand by operand.) -/
theorem c1_operand_codec_roundtrip (o : Operand) (h : o.encodable = true)
    (rest : List Nat) :
    ∃ enc, encodeOperand o = some enc ∧
      decodeOperand (enc ++ rest) = .ok (o, rest) :=
  operand_roundtrip_aux o h rest

/-- C1 counterexample: the constructible operand `Emp` does not round
trip — its encoding is the single byte `0x60`, which the decoder reads
as the short form `Loc(96)`. -/
theorem c1_counterexample :
    encodeOperand .Emp = some [0x60] ∧
      decodeOperand [0x60] = .ok (.Loc 96, []) ∧ Operand.Loc 96 ≠ .Emp :=
  ⟨by decide, by rfl, by decide⟩

theorem c1_witness :
    (Operand.Val 256).encodable = true ∧
      ∃ enc, encodeOperand (.Val 256) = some enc ∧
        decodeOperand (enc ++ [7]) = .ok (.Val 256, [7]) :=
  ⟨by decide, c1_operand_codec_roundtrip (.Val 256) (by decide) [7]⟩

/-- C8 (amended).  Short-form boundary: `Loc(n)` with `n ≤ 0x7F`
encodes as the single byte `n`; `Loc(0x80)` encodes as `[0x80, 0x80]`;
the encoder chooses the short form exactly when the kind is `Loc` and
the value is at most `0x7F`; otherwise, for a *nonzero* value it emits
the smallest long form, keeping exactly the minimal little-endian
prefix (trailing zero bytes stripped).  (As stated the claim is false:
for a non-`Loc` operand with value `0` the encoder does not emit a long
form but underflows `n_bytes as u8 - 1`, and `Emp` is emitted as the
bare kind byte `0x60` without the long-form marker.) -/
theorem c8_short_form_boundary :
    (∀ v : Nat, v ≤ 0x7F → encodeOperand (.Loc v) = some [v]) ∧
      encodeOperand (.Loc 0x80) = some [0x80, 0x80] ∧
      (∀ o : Operand, ∀ v : Nat, o.get = some v → v < 2 ^ 32 →
        ¬(v ≤ 0x7F ∧ o.isLoc = true) → 1 ≤ v →
        ∃ k ≤ 3, 256 ^ k ≤ v ∧ v < 256 ^ (k + 1) ∧
          encodeOperand o =
            some ((0x80 ||| o.asByte <<< 4 ||| k) ::
              (leBytes 4 v).take (k + 1))) ∧
      (∀ o : Operand, ∀ v : Nat, o.get = some v → o.isLoc = false →
        v = 0 → encodeOperand o = none) ∧
      encodeOperand .Emp = some [0x60] := by
  refine ⟨?_, by decide, ?_, ?_, by decide⟩
  · intro v hv
    have : v % 256 = v := Nat.mod_eq_of_lt (by omega)
    simp [encodeOperand, Operand.get, Operand.isLoc, hv, this]
  · intro o v hg hlt hshort hnz
    obtain ⟨k, hk, hlo, hhi, henc, _⟩ :=
      encode_long_decode o v hg hshort hnz hlt (operand_new_asByte o v hg) []
    exact ⟨k, hk, hlo, hhi, henc⟩
  · intro o v hg hloc hzero
    subst hzero
    cases o <;> simp_all [encodeOperand, Operand.get, Operand.isLoc] <;> decide

/-- C8 counterexample: `Val(0)` is not emitted as a long form at all;
the encoder's byte-count subtraction underflows (a `debug` panic),
modelled as `none`. -/
theorem c8_counterexample : encodeOperand (.Val 0) = none := by decide

theorem c8_witness :
    encodeOperand (.Loc 0x33) = some [0x33] ∧
      encodeOperand (.Loc 0x80) = some [0x80, 0x80] :=
  ⟨c8_short_form_boundary.1 0x33 (by decide), c8_short_form_boundary.2.1⟩

/-- C6 (amended).  In the standalone codec crates (struct `BinOp` with
independent `x_offset` / `y_offset` fields), the operand stream of a
`BinOp` is `x`, `y`, then zero, one or two offset operands in the order
(x offset, y offset) according to the variant, and the decoder reading
with the encoded variant restores the same `BinOp`.  (As stated the
claim is false for the cited canonical data model: the enum `BinOp` of
`src/common/src/operations.rs` gives `Both` a *single shared* offset and
its encoder `src/src/encoder/encoder.rs` emits only that one offset
after `x` and `y`.) -/
theorem c6_binop_offset_layout (b : BinOp) (rest : List Nat)
    (hx : b.x.encodable = true) (hy : b.y.encodable = true)
    (hox : ∀ o, b.xOffset = some o → o.encodable = true)
    (hoy : ∀ o, b.yOffset = some o → o.encodable = true) :
    (∃ enc, encodeBinOp b = some enc ∧
      decodeBinOpWith b.variant (enc ++ rest) = .ok (b, rest)) ∧
    (∀ ox oy, b.xOffset = some ox → b.yOffset = some oy →
      ∃ ex ey eox eoy,
        encodeOperand b.x = some ex ∧ encodeOperand b.y = some ey ∧
        encodeOperand ox = some eox ∧ encodeOperand oy = some eoy ∧
        encodeBinOp b = some (ex ++ ey ++ eox ++ eoy)) := by
  obtain ⟨bx, by', bxo, byo⟩ := b
  cases bxo <;> cases byo
  case none.none =>
    obtain ⟨ey, hey, hdy⟩ := operand_roundtrip_aux by' hy rest
    obtain ⟨ex, hex, hdx⟩ := operand_roundtrip_aux bx hx (ey ++ rest)
    refine ⟨⟨ex ++ ey, ?_, ?_⟩, by simp⟩
    · simp [encodeBinOp, hex, hey]
    · simp [BinOp.variant, decodeBinOpWith, List.append_assoc, Bind.bind,
        Except.bind, hdx, hdy]
  case some.none ox =>
    have hxo := hox ox rfl
    obtain ⟨eo, heo, hdo⟩ := operand_roundtrip_aux ox hxo rest
    obtain ⟨ey, hey, hdy⟩ := operand_roundtrip_aux by' hy (eo ++ rest)
    obtain ⟨ex, hex, hdx⟩ := operand_roundtrip_aux bx hx (ey ++ (eo ++ rest))
    refine ⟨⟨ex ++ ey ++ eo, ?_, ?_⟩, by simp⟩
    · simp [encodeBinOp, hex, hey, heo]
    · simp [BinOp.variant, decodeBinOpWith, List.append_assoc, Bind.bind,
        Except.bind, hdx, hdy, hdo]
  case none.some oy =>
    have hyo := hoy oy rfl
    obtain ⟨eo, heo, hdo⟩ := operand_roundtrip_aux oy hyo rest
    obtain ⟨ey, hey, hdy⟩ := operand_roundtrip_aux by' hy (eo ++ rest)
    obtain ⟨ex, hex, hdx⟩ := operand_roundtrip_aux bx hx (ey ++ (eo ++ rest))
    refine ⟨⟨ex ++ ey ++ eo, ?_, ?_⟩, by simp⟩
    · simp [encodeBinOp, hex, hey, heo]
    · simp [BinOp.variant, decodeBinOpWith, List.append_assoc, Bind.bind,
        Except.bind, hdx, hdy, hdo]
  case some.some ox oy =>
    have hxo := hox ox rfl
    have hyo := hoy oy rfl
    obtain ⟨eoy, heoy, hdoy⟩ := operand_roundtrip_aux oy hyo rest
    obtain ⟨eox, heox, hdox⟩ := operand_roundtrip_aux ox hxo (eoy ++ rest)
    obtain ⟨ey, hey, hdy⟩ :=
      operand_roundtrip_aux by' hy (eox ++ (eoy ++ rest))
    obtain ⟨ex, hex, hdx⟩ :=
      operand_roundtrip_aux bx hx (ey ++ (eox ++ (eoy ++ rest)))
    refine ⟨⟨ex ++ ey ++ eox ++ eoy, ?_, ?_⟩, ?_⟩
    · simp [encodeBinOp, hex, hey, heox, heoy]
    · simp [BinOp.variant, decodeBinOpWith, List.append_assoc, Bind.bind,
        Except.bind, hdx, hdy, hdox, hdoy]
    · intro ox' oy' hox' hoy'
      cases hox'
      cases hoy'
      exact ⟨ex, ey, eox, eoy, hex, hey, heox, heoy, by
        simp [encodeBinOp, hex, hey, heox, heoy]⟩

/-- C6 counterexample: under the cited canonical data model the encoded
stream of a `Both` bin-op carries only one offset operand after `x` and
`y` — `Both{x: Loc(1), y: Loc(2), offset: Loc(3)}` encodes to the three
bytes `[1, 2, 3]`, and the cited decoder, which expects two offsets for
variant `Both`, fails on that stream with `UnexpectedEnd`. -/
theorem c6_counterexample :
    encodeBinOpE (.Both (.Loc 1) (.Loc 2) (.Loc 3)) = some [1, 2, 3] ∧
      decodeBinOpWith .Both [1, 2, 3] = .error .UnexpectedEnd :=
  ⟨by rfl, by rfl⟩

theorem c6_witness :
    ∃ enc,
      encodeBinOp ⟨.Loc 1, .Loc 2, some (.Loc 3), some (.Loc 4)⟩ =
        some enc ∧
      decodeBinOpWith
          (BinOp.variant ⟨.Loc 1, .Loc 2, some (.Loc 3), some (.Loc 4)⟩)
          (enc ++ []) =
        .ok (⟨.Loc 1, .Loc 2, some (.Loc 3), some (.Loc 4)⟩, []) :=
  (c6_binop_offset_layout ⟨.Loc 1, .Loc 2, some (.Loc 3), some (.Loc 4)⟩ []
    (by decide) (by decide)
    (fun o ho => by cases ho; decide)
    (fun o ho => by cases ho; decide)).1


/-- Value types of the `Primary` specializations the executor
dispatches to: fixed-width integers (by byte size and signedness,
covering `u8..i128` and the word types `UWord = u32`, `IWord = i32`),
and the two float types. -/
inductive VTy where
  | int (bytes : Nat) (signed : Bool)
  | f32
  | f64
deriving DecidableEq

/-- `T::SIZE = size_of::<T>()`. -/
def VTy.size : VTy → Nat
  | .int n _ => n
  | .f32 => 4
  | .f64 => 8

def VTy.isFloat : VTy → Bool
  | .int _ _ => false
  | _ => true

/-- The `Primary` type each `OpType` arm of the executor's per-op
match dispatches to (`Uw`/`Iw` are the 32-bit word types). -/
def OpType.valTy : OpType → VTy
  | .U8 => .int 1 false
  | .I8 => .int 1 true
  | .U16 => .int 2 false
  | .I16 => .int 2 true
  | .U32 => .int 4 false
  | .I32 => .int 4 true
  | .U64 => .int 8 false
  | .I64 => .int 8 true
  | .Uw => .int 4 false
  | .Iw => .int 4 true
  | .F32 => .f32
  | .F64 => .f64

/-- The second (wide) type parameter of the same dispatch:
`u8→u16, …, u64→u128, i64→i128`, while `Uw→UWord` and `Iw→IWord`
(the word types are *not* widened), and floats stay themselves. -/
def OpType.wideTy : OpType → VTy
  | .U8 => .int 2 false
  | .I8 => .int 2 true
  | .U16 => .int 4 false
  | .I16 => .int 4 true
  | .U32 => .int 8 false
  | .I32 => .int 8 true
  | .U64 => .int 16 false
  | .I64 => .int 16 true
  | .Uw => .int 4 false
  | .Iw => .int 4 true
  | .F32 => .f32
  | .F64 => .f64

def OpType.isIntType (t : OpType) : Bool := !t.valTy.isFloat

/-- The signed (two's-complement) or unsigned reading of an `n`-byte
bit pattern. -/
def intToZ (n : Nat) (sg : Bool) (p : Nat) : Int :=
  if sg ∧ 2 ^ (8 * n - 1) ≤ p then (p : Int) - 2 ^ (8 * n) else p

/-- Bit pattern (wrapping) encoding of an integer into `n` bytes. -/
def intEncode (n : Nat) (z : Int) : Nat := (z % (2 ^ (8 * n))).toNat

def intMinZ (n : Nat) (sg : Bool) : Int :=
  if sg then -(2 ^ (8 * n - 1)) else 0

def intMaxZ (n : Nat) (sg : Bool) : Int :=
  if sg then 2 ^ (8 * n - 1) - 1 else 2 ^ (8 * n) - 1

/-- The binary ops covered by the `impl_exec_bin` macro. -/
inductive BOp where
  | add | sub | mul
deriving DecidableEq

def BOp.onZ : BOp → Int → Int → Int
  | .add => (· + ·)
  | .sub => (· - ·)
  | .mul => (· * ·)

/-- IEEE-754 bit-level predicates and the abstract float operations.
`bin32`/`bin64` stand for the IEEE `+`, `-`, `*` (`wrapping`,
`saturating` and `checked` all perform the plain IEEE operation for
floats), `div`/`rem` for IEEE division/remainder, `neg` for negation,
and `cast src dst` for the numeric casts that involve a *finite* float
(`v as Self`).  The executor model is parameterised by this record;
nothing in the model inspects it except where `primary.rs` calls the
corresponding Rust float primitive. -/
structure FloatOps where
  bin32 : BOp → Nat → Nat → Nat
  bin64 : BOp → Nat → Nat → Nat
  div32 : Nat → Nat → Nat
  div64 : Nat → Nat → Nat
  rem32 : Nat → Nat → Nat
  rem64 : Nat → Nat → Nat
  neg32 : Nat → Nat
  neg64 : Nat → Nat
  cast : VTy → VTy → Nat → Nat

/-- A concrete (arbitrary) instance used only to instantiate witnesses;
theorems about float behaviour quantify over all `FloatOps`. -/
def dummyFloatOps : FloatOps where
  bin32 := fun _ _ _ => 0
  bin64 := fun _ _ _ => 0
  div32 := fun _ _ => 0
  div64 := fun _ _ => 0
  rem32 := fun _ _ => 0
  rem64 := fun _ _ => 0
  neg32 := fun _ => 0
  neg64 := fun _ => 0
  cast := fun _ _ _ => 0

/-- `f32::is_nan` on the bit pattern. -/
def isNan32 (p : Nat) : Bool :=
  (p >>> 23) &&& 0xFF = 0xFF ∧ p &&& 0x7FFFFF ≠ 0

/-- `f32::is_infinite` on the bit pattern. -/
def isInf32 (p : Nat) : Bool :=
  (p >>> 23) &&& 0xFF = 0xFF ∧ p &&& 0x7FFFFF = 0

/-- `f64::is_nan` on the bit pattern. -/
def isNan64 (p : Nat) : Bool :=
  (p >>> 52) &&& 0x7FF = 0x7FF ∧ p &&& 0xFFFFFFFFFFFFF ≠ 0

/-- `f64::is_infinite` on the bit pattern. -/
def isInf64 (p : Nat) : Bool :=
  (p >>> 52) &&& 0x7FF = 0x7FF ∧ p &&& 0xFFFFFFFFFFFFF = 0

/-- `x == T::zero()` — for the integer types pattern equality with `0`,
for the floats IEEE equality with `+0.0`, which holds exactly for the
two zero bit patterns (`NaN == 0.0` is false, everything else differs
numerically). -/
def primIsZero : VTy → Nat → Bool
  | .int _ _, p => p = 0
  | .f32, p => p = 0 ∨ p = 2 ^ 31
  | .f64, p => p = 0 ∨ p = 2 ^ 63

/-- `T::zero()` (bit pattern). -/
def primZero (_ : VTy) : Nat := 0

/-- `T::one()` (bit pattern; note the float patterns of `1.0`). -/
def primOne : VTy → Nat
  | .int _ _ => 1
  | .f32 => 0x3F800000
  | .f64 => 0x3FF0000000000000

/-- `T::from_word(w)`: the little-endian bytes of the `u32` word,
zero-padded or truncated to the target size, reinterpreted. -/
def primFromWord (t : VTy) (w : Nat) : Nat := w % 2 ^ (8 * min t.size 4)

/-- `x.wrapping(y)` of the `Add`/`Sub`/`Mul` traits. -/
def primWrapBin (F : FloatOps) (t : VTy) (k : BOp) (x y : Nat) : Nat :=
  match t with
  | .int n sg => intEncode n (k.onZ (intToZ n sg x) (intToZ n sg y))
  | .f32 => F.bin32 k x y
  | .f64 => F.bin64 k x y

/-- `x.saturating(y)`: clamp for integers, the IEEE op for floats. -/
def primSatBin (F : FloatOps) (t : VTy) (k : BOp) (x y : Nat) : Nat :=
  match t with
  | .int n sg =>
    intEncode n
      (max (intMinZ n sg) (min (intMaxZ n sg) (k.onZ (intToZ n sg x) (intToZ n sg y))))
  | .f32 => F.bin32 k x y
  | .f64 => F.bin64 k x y

/-- `x.checked(y)`: `none` exactly on integer overflow; floats always
produce the IEEE result. -/
def primCheckedBin (F : FloatOps) (t : VTy) (k : BOp) (x y : Nat) :
    Option Nat :=
  match t with
  | .int n sg =>
    let z := k.onZ (intToZ n sg x) (intToZ n sg y)
    if intMinZ n sg ≤ z ∧ z ≤ intMaxZ n sg then some (intEncode n z)
    else none
  | .f32 => some (F.bin32 k x y)
  | .f64 => some (F.bin64 k x y)

/-- `U::from(T)` used by the `Wide` mode: zero/sign extension between
the dispatch pair's integer types; identity on floats. -/
def primExtend (t u : VTy) (p : Nat) : Nat :=
  match t, u with
  | .int n sg, .int m _ => intEncode m (intToZ n sg p)
  | _, _ => p

/-- `Div::wrapping` (`wrapping_div`: Rust truncating division; the
`MIN / -1` case wraps through the pattern encoding). -/
def primWrapDiv (F : FloatOps) (t : VTy) (x y : Nat) : Nat :=
  match t with
  | .int n sg => intEncode n (Int.tdiv (intToZ n sg x) (intToZ n sg y))
  | .f32 => F.div32 x y
  | .f64 => F.div64 x y

/-- `Rem::wrapping` (`wrapping_rem`, with the sign of the dividend). -/
def primWrapRem (F : FloatOps) (t : VTy) (x y : Nat) : Nat :=
  match t with
  | .int n sg => intEncode n (Int.tmod (intToZ n sg x) (intToZ n sg y))
  | .f32 => F.rem32 x y
  | .f64 => F.rem64 x y

/-- The unary ops covered by `impl_exec_un` (`Neg`, and `Inc`/`Dec`
derived from `add one`/`sub one`). -/
inductive UOp where
  | neg | inc | dec
deriving DecidableEq

def UOp.onZ : UOp → Int → Int
  | .neg => (- ·)
  | .inc => (· + 1)
  | .dec => (· - 1)

/-- `wrapping` of `Neg`/`Inc`/`Dec`; on floats `Inc`/`Dec` go through
`Add`/`Sub` with `one()` and `Neg` is IEEE negation. -/
def primWrapUn (F : FloatOps) (t : VTy) (k : UOp) (x : Nat) : Nat :=
  match t with
  | .int n sg => intEncode n (k.onZ (intToZ n sg x))
  | .f32 =>
    match k with
    | .neg => F.neg32 x
    | .inc => F.bin32 .add x (primOne .f32)
    | .dec => F.bin32 .sub x (primOne .f32)
  | .f64 =>
    match k with
    | .neg => F.neg64 x
    | .inc => F.bin64 .add x (primOne .f64)
    | .dec => F.bin64 .sub x (primOne .f64)

/-- `saturating` of `Neg`/`Inc`/`Dec`.  Note `primary.rs` implements
the *saturating* integer `Neg` as `wrapping_neg`. -/
def primSatUn (F : FloatOps) (t : VTy) (k : UOp) (x : Nat) : Nat :=
  match t, k with
  | .int n sg, .neg => intEncode n ((- 1 : Int) * intToZ n sg x)
  | .int n sg, k =>
    intEncode n (max (intMinZ n sg) (min (intMaxZ n sg) (k.onZ (intToZ n sg x))))
  | t, k => primWrapUn F t k x

/-- `checked` of `Neg`/`Inc`/`Dec`: `none` exactly on integer
overflow. -/
def primCheckedUn (F : FloatOps) (t : VTy) (k : UOp) (x : Nat) :
    Option Nat :=
  match t with
  | .int n sg =>
    let z := k.onZ (intToZ n sg x)
    if intMinZ n sg ≤ z ∧ z ≤ intMaxZ n sg then some (intEncode n z)
    else none
  | t => some (primWrapUn F t k x)

/-- `Shl::wrapping` (`wrapping_shl`: count masked by the bit width;
patterns shift as bit patterns). -/
def primWrapShl (t : VTy) (p r : Nat) : Nat :=
  match t with
  | .int n _ => p * 2 ^ (r % (8 * n)) % 2 ^ (8 * n)
  | _ => p

/-- `Shr::wrapping` (`wrapping_shr`: logical for unsigned, arithmetic
for signed). -/
def primWrapShr (t : VTy) (p r : Nat) : Nat :=
  match t with
  | .int n sg => intEncode n (Int.fdiv (intToZ n sg p) (2 ^ (r % (8 * n))))
  | _ => p

/-- Bitwise `&`, `|`, `^`, `!` on the bit patterns. -/
inductive BitOp where
  | and | or | xor
deriving DecidableEq

def primBit (k : BitOp) (t : VTy) (x y : Nat) : Nat :=
  match t with
  | .int _ _ =>
    match k with
    | .and => x &&& y
    | .or => x ||| y
    | .xor => x ^^^ y
  | _ => x

def primNot (t : VTy) (x : Nat) : Nat :=
  match t with
  | .int n _ => 2 ^ (8 * n) - 1 - x % 2 ^ (8 * n)
  | _ => x

/-- `U::convert(v)` of the `Convert<T>` impls: integer-to-integer
truncation/extension is exact; a NaN or infinite float source converts
to zero for *every* destination (`impl_convert_f`, including the float
destinations); all remaining float-involved casts are the abstract
IEEE cast. -/
def primConvert (F : FloatOps) (src dst : VTy) (p : Nat) : Nat :=
  match src, dst with
  | .int n sg, .int m _ => intEncode m (intToZ n sg p)
  | .f32, d => if isNan32 p ∨ isInf32 p then primZero d else F.cast .f32 d p
  | .f64, d => if isNan64 p ∨ isInf64 p then primZero d else F.cast .f64 d p
  | .int n sg, d => F.cast (.int n sg) d p

end Ni

namespace Ni

/-- `MemoryError` from `memory.rs` (the misspelled `RageUnderflow`
variant is unused by the code). -/
inductive MemoryError where
  | PageOverflow (name : String)
  | RageUnderflow (name : String)
  | SegmentationFault (ptr size : Nat)
  | WrongRange
deriving DecidableEq

/-- `MemoryPage`: a byte vector with a soft limit and a name. -/
structure MemPage where
  bytes : List Nat
  limit : Nat
  name : String
deriving DecidableEq

/-- `MemoryPage::expand`: zero-extend by `size`, or page overflow.
(`saturating_add` at `usize::MAX` cannot saturate for realisable
lengths and is plain addition here.) -/
def pageExpand (p : MemPage) (size : Nat) : Except MemoryError MemPage :=
  if p.limit < p.bytes.length + size then .error (.PageOverflow p.name)
  else .ok { p with bytes := p.bytes ++ List.replicate size 0 }

/-- `MemoryPage::narrow`: drop `size` bytes from the end; note the
source reports `PageOverflow` when the page is too short. -/
def pageNarrow (p : MemPage) (size : Nat) : Except MemoryError MemPage :=
  if p.bytes.length < size then .error (.PageOverflow p.name)
  else .ok { p with bytes := p.bytes.take (p.bytes.length - size) }

/-- `MemoryPage::get`: the slice `ptr .. ptr.wrapping_add(size)`, or a
segmentation fault when the (wrapped) range is not inside the page. -/
def pageGet (p : MemPage) (ptr size : Nat) : Except MemoryError (List Nat) :=
  if wrap32 (ptr + size) < ptr ∨ p.bytes.length < wrap32 (ptr + size) then
    .error (.SegmentationFault ptr size)
  else .ok ((p.bytes.drop ptr).take (wrap32 (ptr + size) - ptr))

/-- `MemoryPage::get_mut` followed by `copy_from_slice`: overwrite the
range `ptr .. ptr + bs.length` with `bs`. -/
def pageSetBytes (p : MemPage) (ptr : Nat) (bs : List Nat) :
    Except MemoryError MemPage :=
  if wrap32 (ptr + bs.length) < ptr ∨
      p.bytes.length < wrap32 (ptr + bs.length) then
    .error (.SegmentationFault ptr bs.length)
  else
    .ok { p with bytes := p.bytes.take ptr ++ bs ++
            p.bytes.drop (wrap32 (ptr + bs.length)) }

/-- `Memory`: the stack and heap pages behind one address space. -/
structure Memory where
  stack : MemPage
  heap : MemPage
deriving DecidableEq

/-- `Memory::slice`: addresses below `HEAP_BASE` read the stack page,
the rest the heap page at `ptr - HEAP_BASE`. -/
def memSlice (m : Memory) (ptr size : Nat) : Except MemoryError (List Nat) :=
  if ptr < HEAP_BASE then pageGet m.stack ptr size
  else pageGet m.heap (ptr - HEAP_BASE) size

/-- `Memory::slice_mut` + write. -/
def memSetBytes (m : Memory) (ptr : Nat) (bs : List Nat) :
    Except MemoryError Memory :=
  if ptr < HEAP_BASE then
    (pageSetBytes m.stack ptr bs).map fun st => { m with stack := st }
  else
    (pageSetBytes m.heap (ptr - HEAP_BASE) bs).map fun hp =>
      { m with heap := hp }

/-- `Memory::get::<T>`: typed little-endian load (`T::from_slice`). -/
def memGet (t : VTy) (m : Memory) (ptr : Nat) : Except MemoryError Nat :=
  (memSlice m ptr t.size).map leToNat

/-- `Memory::set::<T>`: typed little-endian store (`T::to_bytes`). -/
def memSet (t : VTy) (m : Memory) (ptr : Nat) (v : Nat) :
    Except MemoryError Memory :=
  memSetBytes m ptr (leBytes t.size v)

/-- `Function`: a frame size and an instruction sequence. -/
structure Func where
  frameSize : Nat
  program : List Op
deriving DecidableEq

/-- `FunctionCall` (stack frame). -/
structure FunctionCall where
  function : Func
  baseAddress : Nat
  retAddress : Nat
  retProgramCounter : Nat
deriving DecidableEq

/-- `ExecutionError`. -/
inductive ExecutionError where
  | EndOfProgram
  | MemoryError (e : MemoryError)
  | IncorrectOperation (op : Op)
  | UnknownFunction
  | OperationOverflow
  | DivisionByZero
deriving DecidableEq

/-- `ExecutionSuccess`. -/
inductive ExecutionSuccess where
  | Ok
  | End (w : Nat)
  | Sleep (w : Nat)
deriving DecidableEq

/-- `Executor` state (`&mut self` of the Rust methods).  Frames store
their `Function` by value; the Rust code stores a shared reference into
the immutable `functions` table, which is observationally the same. -/
structure State where
  functions : List Func
  memory : Memory
  programCounter : Nat
  callStack : List FunctionCall
  preparedCall : Bool
  parameterPtr : Nat
deriving DecidableEq

/-- `Executor::current_call`: the frame below the top while a prepared
call is pending (`len().wrapping_sub(2)` yields an out-of-range index
for stacks shorter than 2), else the top frame. -/
def currentCall (s : State) : Except ExecutionError FunctionCall :=
  let c :=
    if s.preparedCall then
      if 2 ≤ s.callStack.length then s.callStack.get? (s.callStack.length - 2)
      else none
    else s.callStack.getLast?
  match c with
  | some fr => .ok fr
  | none => .error .EndOfProgram

/-- `Executor::current_op`. -/
def currentOp (s : State) : Except ExecutionError Op := do
  let c ← currentCall s
  match c.function.program.get? s.programCounter with
  | some op => .ok op
  | none => .error .EndOfProgram

/-- The word type `UWord` as a `Primary` dispatch target. -/
def uwTy : VTy := .int 4 false

/-- `Executor::get_val::<T>` (a `&self` read). -/
def getVal (t : VTy) (s : State) : Operand → Except ExecutionError Nat
  | .Loc loc => do
    let c ← currentCall s
    (memGet t s.memory (wrap32 (c.baseAddress + loc))).mapError .MemoryError
  | .Ind ptr => do
    let c ← currentCall s
    let addr ← (memGet uwTy s.memory (wrap32 (c.baseAddress + ptr))).mapError
      .MemoryError
    (memGet t s.memory addr).mapError .MemoryError
  | .Ret r => do
    let c ← currentCall s
    (memGet t s.memory (wrap32 (c.retAddress + r))).mapError .MemoryError
  | .Val v => .ok (primFromWord t v)
  | .Ref v => do
    let c ← currentCall s
    .ok (primFromWord t (wrap32 (c.baseAddress + v)))
  | .Emp => do
    let op ← currentOp s
    .error (.IncorrectOperation op)

/-- `Executor::set_val::<T>`: returns the updated memory; `Val`, `Ref`
and `Emp` destinations are incorrect operations. -/
def setVal (t : VTy) (s : State) (o : Operand) (v : Nat) :
    Except ExecutionError Memory :=
  match o with
  | .Loc loc => do
    let c ← currentCall s
    (memSet t s.memory (wrap32 (c.baseAddress + loc)) v).mapError .MemoryError
  | .Ind ptr => do
    let c ← currentCall s
    let addr ← (memGet uwTy s.memory (wrap32 (c.baseAddress + ptr))).mapError
      .MemoryError
    (memSet t s.memory addr v).mapError .MemoryError
  | .Ret r => do
    let c ← currentCall s
    (memSet t s.memory (wrap32 (c.retAddress + r)) v).mapError .MemoryError
  | _ => do
    let op ← currentOp s
    .error (.IncorrectOperation op)

/-- `Executor::make_offset`: resolve the offset as a `UWord` and add it
(wrapping) onto the base operand's payload. -/
def makeOffset (s : State) (a offset : Operand) :
    Except ExecutionError Operand := do
  let off ← getVal uwTy s offset
  .ok (a.map fun v => wrap32 (v + off))

/-- `Executor::read_un_operand`. -/
def readUnOperand (s : State) (un : UnOp) : Except ExecutionError Operand :=
  match un.xOffset with
  | some o => makeOffset s un.x o
  | none => .ok un.x

/-- `Executor::read_bin_operands`. -/
def readBinOperands (s : State) (bin : BinOp) :
    Except ExecutionError (Operand × Operand) := do
  let l ← match bin.xOffset with
    | some o => makeOffset s bin.x o
    | none => .ok bin.x
  let r ← match bin.yOffset with
    | some o => makeOffset s bin.y o
    | none => .ok bin.y
  .ok (l, r)

/-- `Executor::get_un::<T>`. -/
def getUn (t : VTy) (s : State) (un : UnOp) : Except ExecutionError Nat := do
  let l ← readUnOperand s un
  getVal t s l

/-- `Executor::update_un::<T, U>`. -/
def updateUn (t u : VTy) (s : State) (un : UnOp) (f : Nat → Nat) :
    Except ExecutionError Memory := do
  let l ← readUnOperand s un
  let x ← getVal t s l
  setVal u s l (f x)

/-- `Executor::update_bin::<T, U>`. -/
def updateBin (t u : VTy) (s : State) (bin : BinOp) (f : Nat → Nat → Nat) :
    Except ExecutionError Memory := do
  let (l, r) ← readBinOperands s bin
  let x ← getVal t s l
  let y ← getVal t s r
  setVal u s l (f x y)

end Ni

namespace Ni

/-- Result shape of the Rust `&mut self` methods: a `Result` together
with the (possibly mutated) executor state — mutations persist even
when an error is returned. -/
abbrev ExecResult (α : Type) := Except ExecutionError α × State

/-- Commit a memory update onto the state (errors leave it intact). -/
def applyMem (s : State) : Except ExecutionError Memory → ExecResult Unit
  | .error e => (.error e, s)
  | .ok m => (.ok (), { s with memory := m })

/-- `update_bin` with the `Hand`-mode closure of `impl_exec_bin`: on a
`checked` failure write `T::zero()` and record the overflow flag. -/
def updateBinChecked (t : VTy) (s : State) (bin : BinOp)
    (cf : Nat → Nat → Option Nat) :
    Except ExecutionError (Memory × Bool) := do
  let (l, r) ← readBinOperands s bin
  let x ← getVal t s l
  let y ← getVal t s r
  match cf x y with
  | some v => do
    let m ← setVal t s l v
    .ok (m, false)
  | none => do
    let m ← setVal t s l (primZero t)
    .ok (m, true)

/-- `update_un` with the `Hand`-mode closure of `impl_exec_un`. -/
def updateUnChecked (t : VTy) (s : State) (un : UnOp)
    (cf : Nat → Option Nat) : Except ExecutionError (Memory × Bool) := do
  let l ← readUnOperand s un
  let x ← getVal t s l
  match cf x with
  | some v => do
    let m ← setVal t s l v
    .ok (m, false)
  | none => do
    let m ← setVal t s l (primZero t)
    .ok (m, true)

/-- The `impl_exec_bin` macro body (`exec_add`, `exec_sub`,
`exec_mul`), dispatching the arithmetic mode.  In `Hand` mode the
destination write happens first and `OperationOverflow` is returned
afterwards. -/
def execBinArith (F : FloatOps) (k : BOp) (t u : VTy) (s : State)
    (bin : BinOp) (mode : ArithmeticMode) : ExecResult Unit :=
  match mode with
  | .Wrap => applyMem s (updateBin t t s bin (primWrapBin F t k))
  | .Sat => applyMem s (updateBin t t s bin (primSatBin F t k))
  | .Wide =>
    applyMem s (updateBin t u s bin fun x y =>
      primWrapBin F u k (primExtend t u x) (primExtend t u y))
  | .Hand =>
    match updateBinChecked t s bin (primCheckedBin F t k) with
    | .error e => (.error e, s)
    | .ok (m, ovf) =>
      let s' := { s with memory := m }
      if ovf then (.error .OperationOverflow, s') else (.ok (), s')

/-- The `impl_exec_un` macro body (`exec_neg`, `exec_inc`,
`exec_dec`). -/
def execUnArith (F : FloatOps) (k : UOp) (t u : VTy) (s : State)
    (un : UnOp) (mode : ArithmeticMode) : ExecResult Unit :=
  match mode with
  | .Wrap => applyMem s (updateUn t t s un (primWrapUn F t k))
  | .Sat => applyMem s (updateUn t t s un (primSatUn F t k))
  | .Wide =>
    applyMem s (updateUn t u s un fun x =>
      primWrapUn F u k (primExtend t u x))
  | .Hand =>
    match updateUnChecked t s un (primCheckedUn F t k) with
    | .error e => (.error e, s)
    | .ok (m, ovf) =>
      let s' := { s with memory := m }
      if ovf then (.error .OperationOverflow, s') else (.ok (), s')

/-- `Executor::update_bin_division`: read both operands; when the
divisor equals `T::zero()` write `T::zero()` into the destination and
return `DivisionByZero` (taking precedence over a write error),
otherwise store `f x y`. -/
def updateBinDivision (t : VTy) (s : State) (bin : BinOp)
    (f : Nat → Nat → Nat) : ExecResult Unit :=
  match readBinOperands s bin with
  | .error e => (.error e, s)
  | .ok (l, r) =>
    match getVal t s l with
    | .error e => (.error e, s)
    | .ok x =>
      match getVal t s r with
      | .error e => (.error e, s)
      | .ok y =>
        if primIsZero t y then
          match setVal t s l (primZero t) with
          | .ok m => (.error .DivisionByZero, { s with memory := m })
          | .error _ => (.error .DivisionByZero, s)
        else
          match setVal t s l (f x y) with
          | .ok m => (.ok (), { s with memory := m })
          | .error e => (.error e, s)

/-- `Executor::exec_shl` / `exec_shr`: the shift count is read as a
`u8` from the `y` operand. -/
def execShift (t : VTy) (s : State) (x y : Operand)
    (f : VTy → Nat → Nat → Nat) : ExecResult Unit :=
  match getVal t s x with
  | .error e => (.error e, s)
  | .ok xv =>
    match getVal (.int 1 false) s y with
    | .error e => (.error e, s)
    | .ok yv => applyMem s (setVal t s x (f t xv yv))

/-- `Executor::app`: push the frame (base = current stack length),
mark the call prepared, then zero-expand the stack by the frame size;
on page overflow the frame stays pushed. -/
def appStep (s : State) (functionId : Nat) : ExecResult Unit :=
  match s.functions.get? functionId with
  | none => (.error .UnknownFunction, s)
  | some f =>
    let s1 := { s with
      callStack := s.callStack ++
        [{ function := f, baseAddress := s.memory.stack.bytes.length,
           retAddress := 0, retProgramCounter := 0 }],
      preparedCall := true }
    match pageExpand s1.memory.stack f.frameSize with
    | .error e => (.error (.MemoryError e), s1)
    | .ok st => (.ok (), { s1 with memory := { s1.memory with stack := st } })

/-- `Executor::clf`: fix up the top (prepared) frame's return address
and return pc, clear the prepared flag, reset pc and parameter
pointer. -/
def clfStep (s : State) (retAddress : Nat) : ExecResult Unit :=
  match s.callStack.getLast? with
  | none => (.error .EndOfProgram, s)
  | some fr =>
    let fr' : FunctionCall :=
      { fr with retAddress := retAddress,
                retProgramCounter := wrap32 (s.programCounter + 1) }
    (.ok (), { s with callStack := s.callStack.dropLast ++ [fr'],
                      preparedCall := false, programCounter := 0,
                      parameterPtr := 0 })

/-- `Executor::ret`: pop the top frame, restore its return pc, narrow
the stack by its frame size (the pop and the pc restore persist even
if the narrow fails). -/
def retStep (s : State) : ExecResult Unit :=
  match s.callStack.getLast? with
  | none => (.error .EndOfProgram, s)
  | some fr =>
    let s1 := { s with callStack := s.callStack.dropLast,
                       programCounter := fr.retProgramCounter }
    match pageNarrow s1.memory.stack fr.function.frameSize with
    | .error e => (.error (.MemoryError e), s1)
    | .ok st => (.ok (), { s1 with memory := { s1.memory with stack := st } })

/-- `Executor::exec_par`: the destination is
`Loc(parameter_ptr + frame_size)` where `frame_size` is the *current
call's* (the caller's, while a call is prepared); the parameter pointer
advances by `T::SIZE` in every mode, before the mode dispatch. -/
def execPar (t : VTy) (s : State) (un : UnOp)
    (mode : ParameterMode) : ExecResult Unit :=
  match currentCall s with
  | .error e => (.error e, s)
  | .ok c =>
    let parameterLoc := wrap32 (s.parameterPtr + c.function.frameSize)
    let s1 := { s with parameterPtr := wrap32 (s.parameterPtr + t.size) }
    match mode with
    | .Set =>
      match getUn t s1 un with
      | .error e => (.error e, s1)
      | .ok v => applyMem s1 (setVal t s1 (.Loc parameterLoc) v)
    | .Emp => (.ok (), s1)
    | .Zer => applyMem s1 (setVal t s1 (.Loc parameterLoc) (primZero t))

/-- One iteration bound for `pass_condition` (see `passCondition`). -/
def passConditionAux (s : State) : Nat → ExecResult Unit
  | 0 => (.error .EndOfProgram, s)
  | fuel + 1 =>
    let s' := { s with programCounter := wrap32 (s.programCounter + 1) }
    match currentOp s' with
    | .error e => (.error e, s')
    | .ok op =>
      if op.isConditional then passConditionAux s' fuel
      else
        (.ok (), { s' with programCounter := wrap32 (s'.programCounter + 1) })

/-- `Executor::pass_condition`: advance pc past the current conditional
chain — repeatedly step while the instruction at pc is conditional,
then once more past the first non-conditional.  The loop is bounded by
`program length + 2` iterations: pc increases by one per iteration
(wrapping at `2^32`, where Rust's non-wrapping `+=` can only panic in
debug builds) and `current_op` fails once pc passes the program length,
which in Rust is below `2^32`. -/
def passCondition (s : State) : ExecResult Unit :=
  let fuel :=
    match currentCall s with
    | .ok c => c.function.program.length + 2
    | .error _ => 1
  passConditionAux s fuel

end Ni

namespace Ni

/-- IEEE `<` on `f32` bit patterns: false when a NaN is involved, the
two zeros are equal, otherwise sign, then magnitude (which for finite
and infinite floats of one sign orders exactly as the pattern). -/
def fLt32 (x y : Nat) : Bool :=
  if isNan32 x || isNan32 y then false
  else
    let sx := x >>> 31
    let sy := y >>> 31
    let mx := x &&& 0x7FFFFFFF
    let my := y &&& 0x7FFFFFFF
    if sx == sy then (if sx == 0 then mx < my else my < mx)
    else if sx == 1 then !(mx == 0 && my == 0)
    else false

/-- IEEE `<` on `f64` bit patterns. -/
def fLt64 (x y : Nat) : Bool :=
  if isNan64 x || isNan64 y then false
  else
    let sx := x >>> 63
    let sy := y >>> 63
    let mx := x &&& 0x7FFFFFFFFFFFFFFF
    let my := y &&& 0x7FFFFFFFFFFFFFFF
    if sx == sy then (if sx == 0 then mx < my else my < mx)
    else if sx == 1 then !(mx == 0 && my == 0)
    else false

/-- `x == y` of the dispatched `Primary` type: pattern equality on
integers, IEEE equality on floats (never true for NaN; `±0` equal). -/
def primEq : VTy → Nat → Nat → Bool
  | .int _ _, x, y => x == y
  | .f32, x, y =>
    !isNan32 x && !isNan32 y &&
      (x == y || ((x &&& 0x7FFFFFFF) == 0 && (y &&& 0x7FFFFFFF) == 0))
  | .f64, x, y =>
    !isNan64 x && !isNan64 y &&
      (x == y ||
        ((x &&& 0x7FFFFFFFFFFFFFFF) == 0 && (y &&& 0x7FFFFFFFFFFFFFFF) == 0))

/-- `x < y` of the dispatched type. -/
def primLt : VTy → Nat → Nat → Bool
  | .int n sg, x, y => decide (intToZ n sg x < intToZ n sg y)
  | .f32, x, y => fLt32 x y
  | .f64, x, y => fLt64 x y

/-- `x >= y` (IEEE: false when NaN is involved). -/
def primGe (t : VTy) (x y : Nat) : Bool :=
  match t with
  | .int n sg => decide (intToZ n sg y ≤ intToZ n sg x)
  | _ => primEq t x y || primLt t y x

/-- `x <= y`. -/
def primLe (t : VTy) (x y : Nat) : Bool :=
  match t with
  | .int n sg => decide (intToZ n sg x ≤ intToZ n sg y)
  | _ => primEq t x y || primLt t x y

/-- `Executor::exec_ife` and friends: read the two operands (with
offsets) and compare. -/
def execCmp (t : VTy) (s : State) (bin : BinOp)
    (cmp : VTy → Nat → Nat → Bool) : Except ExecutionError Bool := do
  let (l, r) ← readBinOperands s bin
  let x ← getVal t s l
  let y ← getVal t s r
  .ok (cmp t x y)

/-- `Executor::exec_ifa` family: bitwise combine and test against
zero. -/
def execBitTest (t : VTy) (s : State) (bin : BinOp) (k : BitOp)
    (zero : Bool) : Except ExecutionError Bool := do
  let (l, r) ← readBinOperands s bin
  let x ← getVal t s l
  let y ← getVal t s r
  .ok (if zero then primBit k t x y == 0 else primBit k t x y != 0)

/-- Advance the program counter by one (the shared tail of `execute`
for fall-through instructions). -/
def adv (s : State) : State :=
  { s with programCounter := wrap32 (s.programCounter + 1) }

/-- Wrap a fall-through sub-step: successes advance pc, errors do not. -/
def finish : ExecResult Unit → ExecResult ExecutionSuccess
  | (.ok (), s) => (.ok .Ok, adv s)
  | (.error e, s) => (.error e, s)

/-- Shared conditional tail: a true predicate falls through (pc + 1), a
false one skips the conditional chain via `pass_condition` and returns
early. -/
def condResult (s : State) (r : Except ExecutionError Bool) :
    ExecResult ExecutionSuccess :=
  match r with
  | .error e => (.error e, s)
  | .ok true => (.ok .Ok, adv s)
  | .ok false =>
    match passCondition s with
    | (.ok (), s') => (.ok .Ok, s')
    | (.error e, s') => (.error e, s')

/-- `Executor::exec_cnv`. -/
def execCnv (F : FloatOps) (tf tu : VTy) (s : State) (x y : Operand) :
    ExecResult Unit :=
  match getVal tf s y with
  | .error e => (.error e, s)
  | .ok v => applyMem s (setVal tu s x (primConvert F tf tu v))

/-- `Executor::execute`: fetch the instruction at the current frame's
pc and dispatch.  The per-opcode twelve-way numeric-type matches of the
source are expressed through `OpType.valTy` / `OpType.wideTy`, which
tabulate exactly the type pairs of those matches. -/
def execute (F : FloatOps) (s : State) : ExecResult ExecutionSuccess :=
  match currentOp s with
  | .error e => (.error e, s)
  | .ok op =>
    match op with
    | .Nop => (.ok .Ok, adv s)
    | .End x =>
      match getVal uwTy s x with
      | .error e => (.error e, s)
      | .ok v => (.ok (.End v), adv s)
    | .Slp x =>
      match getVal uwTy s x with
      | .error e => (.error e, s)
      | .ok v => (.ok (.Sleep v), adv s)
    | .Set bin ot =>
      finish (applyMem s (updateBin ot.valTy ot.valTy s bin fun _ y => y))
    | .Cnv x y t u => finish (execCnv F t.valTy u.valTy s x y)
    | .Add bin ot mode => finish (execBinArith F .add ot.valTy ot.wideTy s bin mode)
    | .Sub bin ot mode => finish (execBinArith F .sub ot.valTy ot.wideTy s bin mode)
    | .Mul bin ot mode => finish (execBinArith F .mul ot.valTy ot.wideTy s bin mode)
    | .Div bin ot => finish (updateBinDivision ot.valTy s bin (primWrapDiv F ot.valTy))
    | .Mod bin ot => finish (updateBinDivision ot.valTy s bin (primWrapRem F ot.valTy))
    | .Shl x y ot =>
      if ot.valTy.isFloat then (.error (.IncorrectOperation op), s)
      else finish (execShift ot.valTy s x y primWrapShl)
    | .Shr x y ot =>
      if ot.valTy.isFloat then (.error (.IncorrectOperation op), s)
      else finish (execShift ot.valTy s x y primWrapShr)
    | .And bin ot =>
      if ot.valTy.isFloat then (.error (.IncorrectOperation op), s)
      else finish (applyMem s (updateBin ot.valTy ot.valTy s bin (primBit .and ot.valTy)))
    | .Or bin ot =>
      if ot.valTy.isFloat then (.error (.IncorrectOperation op), s)
      else finish (applyMem s (updateBin ot.valTy ot.valTy s bin (primBit .or ot.valTy)))
    | .Xor bin ot =>
      if ot.valTy.isFloat then (.error (.IncorrectOperation op), s)
      else finish (applyMem s (updateBin ot.valTy ot.valTy s bin (primBit .xor ot.valTy)))
    | .Not un ot =>
      if ot.valTy.isFloat then (.error (.IncorrectOperation op), s)
      else finish (applyMem s (updateUn ot.valTy ot.valTy s un (primNot ot.valTy)))
    | .Neg un ot mode => finish (execUnArith F .neg ot.valTy ot.wideTy s un mode)
    | .Inc un ot mode => finish (execUnArith F .inc ot.valTy ot.wideTy s un mode)
    | .Dec un ot mode => finish (execUnArith F .dec ot.valTy ot.wideTy s un mode)
    | .Go x =>
      match getVal uwTy s x with
      | .error e => (.error e, s)
      | .ok v => (.ok .Ok, { s with programCounter := v })
    | .Ift un ot =>
      condResult s (do
        let v ← getUn ot.valTy s un
        .ok (!primIsZero ot.valTy v))
    | .Iff un ot =>
      condResult s (do
        let v ← getUn ot.valTy s un
        .ok (primIsZero ot.valTy v))
    | .Ife bin ot => condResult s (execCmp ot.valTy s bin primEq)
    | .Ifl bin ot => condResult s (execCmp ot.valTy s bin primLt)
    | .Ifg bin ot => condResult s (execCmp ot.valTy s bin fun t x y => primLt t y x)
    | .Ine bin ot => condResult s (execCmp ot.valTy s bin fun t x y => !primEq t x y)
    | .Inl bin ot => condResult s (execCmp ot.valTy s bin primGe)
    | .Ing bin ot => condResult s (execCmp ot.valTy s bin primLe)
    | .Ifa bin ot =>
      if ot.valTy.isFloat then (.error (.IncorrectOperation op), s)
      else condResult s (execBitTest ot.valTy s bin .and false)
    | .Ifo bin ot =>
      if ot.valTy.isFloat then (.error (.IncorrectOperation op), s)
      else condResult s (execBitTest ot.valTy s bin .or false)
    | .Ifx bin ot =>
      if ot.valTy.isFloat then (.error (.IncorrectOperation op), s)
      else condResult s (execBitTest ot.valTy s bin .xor false)
    | .Ina bin ot =>
      if ot.valTy.isFloat then (.error (.IncorrectOperation op), s)
      else condResult s (execBitTest ot.valTy s bin .and true)
    | .Ino bin ot =>
      if ot.valTy.isFloat then (.error (.IncorrectOperation op), s)
      else condResult s (execBitTest ot.valTy s bin .or true)
    | .Inx bin ot =>
      if ot.valTy.isFloat then (.error (.IncorrectOperation op), s)
      else condResult s (execBitTest ot.valTy s bin .xor true)
    | .App x =>
      match getVal uwTy s x with
      | .error e => (.error e, s)
      | .ok fid => finish (appStep s fid)
    | .Par un ot mode => finish (execPar ot.valTy s un mode)
    | .Clf x =>
      match getVal uwTy s x with
      | .error e => (.error e, s)
      | .ok ra =>
        match clfStep s ra with
        | (.ok (), s') => (.ok .Ok, s')
        | (.error e, s') => (.error e, s')
    | .Ret =>
      match retStep s with
      | (.ok (), s') => (.ok .Ok, s')
      | (.error e, s') => (.error e, s')

end Ni

namespace Ni

theorem wrap32_eq_of_lt {n : Nat} (h : n < U32) : wrap32 n = n :=
  Nat.mod_eq_of_lt h

/-- If the checked range passes (`ptr ≤ e` for the wrapped end) and
the added size is below `2^32`, no wrap actually happened. -/
theorem wrap32_add_eq (ptr size : Nat) (hsz : size < U32)
    (hge : ptr ≤ wrap32 (ptr + size)) : wrap32 (ptr + size) = ptr + size := by
  simp only [wrap32, U32] at *
  omega

/-- Successful `pageSetBytes` with a realisable write size preserves
the page length (and limit and name). -/
theorem pageSetBytes_ok (p p' : MemPage) (ptr : Nat) (bs : List Nat)
    (hsz : bs.length < U32) (h : pageSetBytes p ptr bs = .ok p') :
    p'.bytes.length = p.bytes.length ∧ p'.limit = p.limit ∧
      p'.name = p.name := by
  simp only [pageSetBytes] at h
  by_cases hg : wrap32 (ptr + bs.length) < ptr ∨
      p.bytes.length < wrap32 (ptr + bs.length)
  · rw [if_pos hg] at h
    exact Except.noConfusion h
  · rw [if_neg hg] at h
    push_neg at hg
    simp only [Except.ok.injEq] at h
    subst h
    have he := wrap32_add_eq ptr bs.length hsz hg.1
    have hle := hg.2
    rw [he] at hle
    simp only [List.length_append, List.length_take, List.length_drop, he]
    constructor
    · omega
    · simp

/-- Successful typed stores preserve page lengths, limits and names of
both pages. -/
theorem memSet_ok_shape (t : VTy) (m m' : Memory) (ptr v : Nat)
    (hsz : t.size < U32) (h : memSet t m ptr v = .ok m') :
    m'.stack.bytes.length = m.stack.bytes.length ∧
      m'.heap.bytes.length = m.heap.bytes.length ∧
      m'.stack.limit = m.stack.limit ∧ m'.heap.limit = m.heap.limit ∧
      m'.stack.name = m.stack.name ∧ m'.heap.name = m.heap.name := by
  simp only [memSet, memSetBytes] at h
  by_cases hp : ptr < HEAP_BASE
  · rw [if_pos hp] at h
    cases hps : pageSetBytes m.stack ptr (leBytes t.size v) with
    | error e =>
      rw [hps] at h
      simp only [Except.map] at h
      exact Except.noConfusion h
    | ok st =>
      rw [hps] at h
      simp only [Except.map, Except.ok.injEq] at h
      subst h
      have := pageSetBytes_ok _ _ _ _ (by simpa [leBytes_length]) hps
      simp_all
  · rw [if_neg hp] at h
    cases hps : pageSetBytes m.heap (ptr - HEAP_BASE) (leBytes t.size v) with
    | error e =>
      rw [hps] at h
      simp only [Except.map] at h
      exact Except.noConfusion h
    | ok hpg =>
      rw [hps] at h
      simp only [Except.map, Except.ok.injEq] at h
      subst h
      have := pageSetBytes_ok _ _ _ _ (by simpa [leBytes_length]) hps
      simp_all

/-- Typed load from the stack page with an in-range pointer. -/
theorem memGet_stack (t : VTy) (m : Memory) (ptr : Nat)
    (h1 : ptr + t.size ≤ m.stack.bytes.length)
    (h2 : m.stack.bytes.length < HEAP_BASE) :
    memGet t m ptr = .ok (leToNat ((m.stack.bytes.drop ptr).take t.size)) := by
  have hp : ptr < HEAP_BASE := by
    simp only [HEAP_BASE] at h2 ⊢
    omega
  have hw : wrap32 (ptr + t.size) = ptr + t.size := by
    refine wrap32_eq_of_lt ?_
    simp only [HEAP_BASE] at h2
    simp only [U32]
    omega
  unfold memGet memSlice pageGet
  rw [if_pos hp]
  have hcond : ¬(wrap32 (ptr + t.size) < ptr ∨
      m.stack.bytes.length < wrap32 (ptr + t.size)) := by
    rw [hw]
    omega
  rw [if_neg hcond, hw]
  simp only [Except.map]
  rw [Nat.add_sub_cancel_left]

/-- Typed store to the stack page with an in-range pointer. -/
theorem memSet_stack (t : VTy) (m : Memory) (ptr v : Nat)
    (h1 : ptr + t.size ≤ m.stack.bytes.length)
    (h2 : m.stack.bytes.length < HEAP_BASE) :
    memSet t m ptr v =
      .ok ⟨⟨m.stack.bytes.take ptr ++ leBytes t.size v ++
            m.stack.bytes.drop (ptr + t.size),
            m.stack.limit, m.stack.name⟩, m.heap⟩ := by
  have hp : ptr < HEAP_BASE := by
    simp only [HEAP_BASE] at h2 ⊢
    omega
  have hw : wrap32 (ptr + t.size) = ptr + t.size := by
    refine wrap32_eq_of_lt ?_
    simp only [HEAP_BASE] at h2
    simp only [U32]
    omega
  unfold memSet memSetBytes pageSetBytes
  rw [if_pos hp]
  simp only [leBytes_length]
  rw [hw]
  rw [if_neg (by omega)]
  simp [Except.map]

/-- Signedness of a value type (floats are irrelevant here). -/
def VTy.signed : VTy → Bool
  | .int _ sg => sg
  | _ => false

/-- The integer reading of a pattern at a value type. -/
def vIntToZ (t : VTy) (p : Nat) : Int := intToZ t.size t.signed p

theorem intEncode_lt (n : Nat) (z : Int) : intEncode n z < 2 ^ (8 * n) := by
  simp only [intEncode]
  have h1 : z % ((2 : Int) ^ (8 * n)) < (2 : Int) ^ (8 * n) :=
    Int.emod_lt_of_pos z (by positivity)
  have h0 : (0 : Int) ≤ z % ((2 : Int) ^ (8 * n)) :=
    Int.emod_nonneg z (by positivity)
  have hc : ((2 : Int) ^ (8 * n)) = ((2 ^ (8 * n) : Nat) : Int) := by
    push_cast
    ring
  omega

theorem intEncode_cast (n : Nat) (z : Int) :
    (intEncode n z : Int) = z % (2 : Int) ^ (8 * n) := by
  simp only [intEncode]
  rw [Int.toNat_of_nonneg (Int.emod_nonneg z (by positivity))]

theorem intToZ_mod (n : Nat) (sg : Bool) (p : Nat) :
    intToZ n sg p % (2 : Int) ^ (8 * n) = (p : Int) % (2 : Int) ^ (8 * n) := by
  simp only [intToZ]
  split
  · conv_rhs => rw [show ((p : Int)) = ((p : Int) - 2 ^ (8 * n)) + 2 ^ (8 * n) * 1 by ring]
    rw [Int.add_mul_emod_self_left]
  · rfl

theorem intToZ_intEncode (n : Nat) (sg : Bool) (z : Int) :
    intToZ n sg (intEncode n z) % (2 : Int) ^ (8 * n) =
      z % (2 : Int) ^ (8 * n) := by
  rw [intToZ_mod, intEncode_cast, Int.emod_emod_of_dvd z (dvd_refl _)]

theorem half_pow (n : Nat) (hn : 1 ≤ n) :
    (2 : Int) ^ (8 * n - 1) + 2 ^ (8 * n - 1) = 2 ^ (8 * n) := by
  have h : 8 * n - 1 + 1 = 8 * n := by omega
  calc (2 : Int) ^ (8 * n - 1) + 2 ^ (8 * n - 1)
      = 2 ^ (8 * n - 1) * 2 := by ring
    _ = 2 ^ (8 * n - 1 + 1) := by rw [pow_succ]
    _ = 2 ^ (8 * n) := by rw [h]

theorem half_pow_nat (n : Nat) (hn : 1 ≤ n) :
    (2 : Nat) ^ (8 * n - 1) + 2 ^ (8 * n - 1) = 2 ^ (8 * n) := by
  have h : 8 * n - 1 + 1 = 8 * n := by omega
  calc (2 : Nat) ^ (8 * n - 1) + 2 ^ (8 * n - 1)
      = 2 ^ (8 * n - 1) * 2 := by ring
    _ = 2 ^ (8 * n - 1 + 1) := by rw [pow_succ]
    _ = 2 ^ (8 * n) := by rw [h]

theorem cast_two_pow (k : Nat) :
    ((2 : Int) ^ k) = ((2 ^ k : Nat) : Int) := by
  push_cast
  ring

/-- Values in the representable range encode and decode exactly. -/
theorem intToZ_intEncode_exact (n : Nat) (sg : Bool) (z : Int)
    (hn : 1 ≤ n) (hlo : intMinZ n sg ≤ z) (hhi : z ≤ intMaxZ n sg) :
    intToZ n sg (intEncode n z) = z := by
  have hB : (0 : Int) < 2 ^ (8 * n) := by positivity
  have hhalf := half_pow n hn
  have hhalfN := half_pow_nat n hn
  have hc := cast_two_pow (8 * n)
  have hch := cast_two_pow (8 * n - 1)
  cases sg with
  | false =>
    simp only [intMinZ, intMaxZ, Bool.false_eq_true, if_false] at hlo hhi
    have hz : z % (2 : Int) ^ (8 * n) = z := Int.emod_eq_of_lt hlo (by omega)
    have henc := intEncode_cast n z
    rw [hz] at henc
    simp only [intToZ, Bool.false_eq_true, false_and, if_false]
    omega
  | true =>
    simp only [intMinZ, intMaxZ, if_true] at hlo hhi
    rcases le_or_lt 0 z with hz0 | hz0
    · have hz : z % (2 : Int) ^ (8 * n) = z := Int.emod_eq_of_lt hz0 (by omega)
      have henc := intEncode_cast n z
      rw [hz] at henc
      simp only [intToZ]
      rw [if_neg (by
        rintro ⟨-, hge⟩
        omega)]
      omega
    · have hz : z % (2 : Int) ^ (8 * n) = z + 2 ^ (8 * n) := by
        conv_lhs => rw [show z = (z + 2 ^ (8 * n)) + 2 ^ (8 * n) * (-1) by ring]
        rw [Int.add_mul_emod_self_left]
        exact Int.emod_eq_of_lt (by omega) (by omega)
      have henc := intEncode_cast n z
      rw [hz] at henc
      simp only [intToZ]
      rw [if_pos (by
        refine ⟨by trivial, ?_⟩
        omega)]
      omega

end Ni

namespace Ni

theorem pow256 (n : Nat) : (256 : Nat) ^ n = 2 ^ (8 * n) := by
  rw [show (256 : Nat) = 2 ^ 8 from rfl, ← pow_mul]

/-- A one-frame state: a single function, its frame at stack base 0,
nothing prepared. -/
def canonS (prog : List Op) (fsize : Nat) (bs : List Nat) : State :=
  { functions := [⟨fsize, prog⟩]
    memory := ⟨⟨bs, 65535, "stack"⟩, ⟨[], 65536, "heap"⟩⟩
    programCounter := 0
    callStack := [⟨⟨fsize, prog⟩, 0, 0, 0⟩]
    preparedCall := false
    parameterPtr := 0 }

theorem canonS_currentCall (p : List Op) (f : Nat) (bs : List Nat) :
    currentCall (canonS p f bs) = .ok ⟨⟨f, p⟩, 0, 0, 0⟩ := rfl

theorem canonS_currentOp (op : Op) (rest : List Op) (f : Nat)
    (bs : List Nat) : currentOp (canonS (op :: rest) f bs) = .ok op := rfl

theorem getVal_loc_canon (t : VTy) (p : List Op) (f loc : Nat)
    (bs : List Nat) (h1 : loc + t.size ≤ bs.length)
    (h2 : bs.length < HEAP_BASE) :
    getVal t (canonS p f bs) (.Loc loc) =
      .ok (leToNat ((bs.drop loc).take t.size)) := by
  have hloc : wrap32 (0 + loc) = loc := by
    rw [Nat.zero_add]
    refine wrap32_eq_of_lt ?_
    simp only [HEAP_BASE] at h2
    simp only [U32]
    omega
  simp only [getVal, canonS_currentCall, Except.bind, Bind.bind, hloc]
  rw [memGet_stack t _ loc h1 h2]
  rfl

theorem setVal_loc_canon (t : VTy) (p : List Op) (f loc v : Nat)
    (bs : List Nat) (h1 : loc + t.size ≤ bs.length)
    (h2 : bs.length < HEAP_BASE) :
    setVal t (canonS p f bs) (.Loc loc) v =
      .ok ⟨⟨bs.take loc ++ leBytes t.size v ++ bs.drop (loc + t.size),
        65535, "stack"⟩, ⟨[], 65536, "heap"⟩⟩ := by
  have hloc : wrap32 (0 + loc) = loc := by
    rw [Nat.zero_add]
    refine wrap32_eq_of_lt ?_
    simp only [HEAP_BASE] at h2
    simp only [U32]
    omega
  simp only [setVal, canonS_currentCall, Except.bind, Bind.bind, hloc]
  rw [memSet_stack t _ loc v h1 h2]
  rfl

/-- The canonical two-operand layout: `x` at `Loc 0`, `y` at
`Loc t.size`, both as `t`-sized little-endian patterns. -/
def binXY (t : VTy) : BinOp := ⟨.Loc 0, .Loc t.size, none, none⟩

def arithBytes (t : VTy) (x y : Nat) : List Nat :=
  leBytes t.size x ++ leBytes t.size y

theorem arithBytes_length (t : VTy) (x y : Nat) :
    (arithBytes t x y).length = 2 * t.size := by
  simp [arithBytes, leBytes_length]
  omega

theorem arithBytes_get_x (t : VTy) (x y : Nat) (hx : x < 2 ^ (8 * t.size)) :
    leToNat (((arithBytes t x y).drop 0).take t.size) = x := by
  simp only [arithBytes, List.drop_zero]
  rw [List.take_left' (leBytes_length _ _)]
  exact leToNat_leBytes _ _ (by rw [pow256]; exact hx)

theorem arithBytes_get_y (t : VTy) (x y : Nat) (hy : y < 2 ^ (8 * t.size)) :
    leToNat (((arithBytes t x y).drop t.size).take t.size) = y := by
  simp only [arithBytes]
  rw [List.drop_left' (leBytes_length _ _),
    List.take_of_length_le (by rw [leBytes_length])]
  exact leToNat_leBytes _ _ (by rw [pow256]; exact hy)

/-- `update_bin` on the canonical layout: reads `x` and `y`, writes
`f x y` as a `u`-pattern at address `0`. -/
theorem updateBin_canon (t u : VTy) (p : List Op) (fz : Nat)
    (x y : Nat) (f : Nat → Nat → Nat)
    (hx : x < 2 ^ (8 * t.size)) (hy : y < 2 ^ (8 * t.size))
    (hu : u.size ≤ 2 * t.size) (htb : t.size ≤ 16) :
    updateBin t u (canonS p fz (arithBytes t x y)) (binXY t) f =
      .ok ⟨⟨leBytes u.size (f x y) ++ (arithBytes t x y).drop u.size,
        65535, "stack"⟩, ⟨[], 65536, "heap"⟩⟩ := by
  have hlen := arithBytes_length t x y
  have hsm : (arithBytes t x y).length < HEAP_BASE := by
    simp only [HEAP_BASE]
    omega
  have hrb : readBinOperands (canonS p fz (arithBytes t x y)) (binXY t) =
      .ok (.Loc 0, .Loc t.size) := rfl
  simp only [updateBin, hrb, Except.bind, Bind.bind]
  rw [getVal_loc_canon t p fz 0 _ (by omega) hsm]
  simp only
  rw [getVal_loc_canon t p fz t.size _ (by omega) hsm]
  simp only
  rw [setVal_loc_canon u p fz 0 _ _ (by omega) hsm]
  rw [arithBytes_get_x t x y hx, arithBytes_get_y t x y hy]
  simp

end Ni

namespace Ni

/-- The `Add`/`Sub`/`Mul` constructor family. -/
def mkArith : BOp → BinOp → OpType → ArithmeticMode → Op
  | .add, b, t, m => .Add b t m
  | .sub, b, t, m => .Sub b t m
  | .mul, b, t, m => .Mul b t m

/-- Canonical state executing one arithmetic instruction over `x` at
`Loc 0` and `y` at `Loc t.size`. -/
def arithS (aop : BOp) (ot : OpType) (mode : ArithmeticMode)
    (x y : Nat) : State :=
  canonS [mkArith aop (binXY ot.valTy) ot mode] (2 * ot.valTy.size)
    (arithBytes ot.valTy x y)

theorem execute_arithS (F : FloatOps) (aop : BOp) (ot : OpType)
    (mode : ArithmeticMode) (x y : Nat) :
    execute F (arithS aop ot mode x y) =
      finish (execBinArith F aop ot.valTy ot.wideTy
        (arithS aop ot mode x y) (binXY ot.valTy) mode) := by
  cases aop <;> rfl

theorem updateBinChecked_canon (t : VTy) (p : List Op) (fz x y : Nat)
    (cf : Nat → Nat → Option Nat)
    (hx : x < 2 ^ (8 * t.size)) (hy : y < 2 ^ (8 * t.size))
    (htb : t.size ≤ 16) :
    updateBinChecked t (canonS p fz (arithBytes t x y)) (binXY t) cf =
      .ok (⟨⟨leBytes t.size
          (match cf x y with | some v => v | none => primZero t) ++
            (arithBytes t x y).drop t.size, 65535, "stack"⟩,
          ⟨[], 65536, "heap"⟩⟩, (cf x y).isNone) := by
  have hlen := arithBytes_length t x y
  have hsm : (arithBytes t x y).length < HEAP_BASE := by
    simp only [HEAP_BASE]
    omega
  have hrb : readBinOperands (canonS p fz (arithBytes t x y)) (binXY t) =
      .ok (.Loc 0, .Loc t.size) := rfl
  simp only [updateBinChecked, hrb, Except.bind, Bind.bind]
  rw [getVal_loc_canon t p fz 0 _ (by omega) hsm]
  simp only
  rw [getVal_loc_canon t p fz t.size _ (by omega) hsm]
  simp only
  rw [arithBytes_get_x t x y hx, arithBytes_get_y t x y hy]
  cases hcf : cf x y with
  | some v =>
    simp only
    rw [setVal_loc_canon t p fz 0 _ _ (by omega) hsm]
    simp [Except.bind]
  | none =>
    simp only
    rw [setVal_loc_canon t p fz 0 _ _ (by omega) hsm]
    simp [Except.bind]

theorem wrap32_one : wrap32 1 = 1 := by decide

/-- Facts about the integer dispatch table. -/
theorem valTy_int_facts (ot : OpType) (h : ot.isIntType = true) :
    1 ≤ ot.valTy.size ∧ ot.valTy.size ≤ 16 ∧
      ot.wideTy.size ≤ 2 * ot.valTy.size ∧
      ot.wideTy.signed = ot.valTy.signed ∧
      ot.valTy.size ≤ ot.wideTy.size ∧
      (∃ n sg, ot.valTy = .int n sg) ∧ (∃ m sg, ot.wideTy = .int m sg) := by
  cases ot <;> simp_all [OpType.isIntType, OpType.valTy, OpType.wideTy,
    VTy.isFloat, VTy.size, VTy.signed]

end Ni

namespace Ni

/-- Errors that can arise from operand resolution and memory access
(everything except the arithmetic errors). -/
def accessError (e : ExecutionError) : Prop :=
  e ≠ .OperationOverflow ∧ e ≠ .DivisionByZero

theorem currentCall_error (s : State) (e : ExecutionError)
    (h : currentCall s = .error e) : e = .EndOfProgram := by
  simp only [currentCall] at h
  split at h
  · exact Except.noConfusion h
  · simp only [Except.error.injEq] at h
    exact h.symm

theorem currentOp_error (s : State) (e : ExecutionError)
    (h : currentOp s = .error e) : e = .EndOfProgram := by
  simp only [currentOp, Bind.bind] at h
  cases hc : currentCall s with
  | error e' =>
    rw [hc] at h
    simp only [Except.bind, Except.error.injEq] at h
    rw [← h]
    exact currentCall_error s e' hc
  | ok c =>
    rw [hc] at h
    simp only [Except.bind] at h
    split at h
    · exact Except.noConfusion h
    · simp only [Except.error.injEq] at h
      exact h.symm

theorem mapMemError {α : Type} (r : Except MemoryError α) (e : ExecutionError)
    (h : r.mapError ExecutionError.MemoryError = .error e) :
    ∃ me, e = .MemoryError me := by
  cases r with
  | error me =>
    simp only [Except.mapError, Except.error.injEq] at h
    exact ⟨me, h.symm⟩
  | ok v => simp only [Except.mapError] at h; exact Except.noConfusion h

theorem getVal_accessError (t : VTy) (s : State) (o : Operand)
    (e : ExecutionError) (h : getVal t s o = .error e) : accessError e := by
  cases o with
  | Loc loc =>
    simp only [getVal, Bind.bind] at h
    cases hc : currentCall s with
    | error e' =>
      rw [hc] at h
      simp only [Except.bind, Except.error.injEq] at h
      rw [← h, currentCall_error s e' hc]
      simp [accessError]
    | ok c =>
      rw [hc] at h
      simp only [Except.bind] at h
      obtain ⟨me, rfl⟩ := mapMemError _ _ h
      simp [accessError]
  | Ind ptr =>
    simp only [getVal, Bind.bind] at h
    cases hc : currentCall s with
    | error e' =>
      rw [hc] at h
      simp only [Except.bind, Except.error.injEq] at h
      rw [← h, currentCall_error s e' hc]
      simp [accessError]
    | ok c =>
      rw [hc] at h
      simp only [Except.bind] at h
      cases hg : (memGet uwTy s.memory
          (wrap32 (c.baseAddress + ptr))).mapError ExecutionError.MemoryError with
      | error e' =>
        rw [hg] at h
        simp only [Except.error.injEq] at h
        obtain ⟨me, rfl⟩ := mapMemError _ _ hg
        rw [← h]
        simp [accessError]
      | ok addr =>
        rw [hg] at h
        obtain ⟨me, rfl⟩ := mapMemError _ _ h
        simp [accessError]
  | Ret r =>
    simp only [getVal, Bind.bind] at h
    cases hc : currentCall s with
    | error e' =>
      rw [hc] at h
      simp only [Except.bind, Except.error.injEq] at h
      rw [← h, currentCall_error s e' hc]
      simp [accessError]
    | ok c =>
      rw [hc] at h
      simp only [Except.bind] at h
      obtain ⟨me, rfl⟩ := mapMemError _ _ h
      simp [accessError]
  | Val v => exact Except.noConfusion h
  | Ref v =>
    simp only [getVal, Bind.bind] at h
    cases hc : currentCall s with
    | error e' =>
      rw [hc] at h
      simp only [Except.bind, Except.error.injEq] at h
      rw [← h, currentCall_error s e' hc]
      simp [accessError]
    | ok c =>
      rw [hc] at h
      simp only [Except.bind] at h
      exact Except.noConfusion h
  | Emp =>
    simp only [getVal, Bind.bind] at h
    cases hc : currentOp s with
    | error e' =>
      rw [hc] at h
      simp only [Except.bind, Except.error.injEq] at h
      rw [← h, currentOp_error s e' hc]
      simp [accessError]
    | ok op =>
      rw [hc] at h
      simp only [Except.bind, Except.error.injEq] at h
      rw [← h]
      simp [accessError]

theorem setVal_accessError (t : VTy) (s : State) (o : Operand) (v : Nat)
    (e : ExecutionError) (h : setVal t s o v = .error e) : accessError e := by
  cases o with
  | Loc loc =>
    simp only [setVal, Bind.bind] at h
    cases hc : currentCall s with
    | error e' =>
      rw [hc] at h
      simp only [Except.bind, Except.error.injEq] at h
      rw [← h, currentCall_error s e' hc]
      simp [accessError]
    | ok c =>
      rw [hc] at h
      simp only [Except.bind] at h
      obtain ⟨me, rfl⟩ := mapMemError _ _ h
      simp [accessError]
  | Ind ptr =>
    simp only [setVal, Bind.bind] at h
    cases hc : currentCall s with
    | error e' =>
      rw [hc] at h
      simp only [Except.bind, Except.error.injEq] at h
      rw [← h, currentCall_error s e' hc]
      simp [accessError]
    | ok c =>
      rw [hc] at h
      simp only [Except.bind] at h
      cases hg : (memGet uwTy s.memory
          (wrap32 (c.baseAddress + ptr))).mapError ExecutionError.MemoryError with
      | error e' =>
        rw [hg] at h
        simp only [Except.error.injEq] at h
        obtain ⟨me, rfl⟩ := mapMemError _ _ hg
        rw [← h]
        simp [accessError]
      | ok addr =>
        rw [hg] at h
        obtain ⟨me, rfl⟩ := mapMemError _ _ h
        simp [accessError]
  | Ret r =>
    simp only [setVal, Bind.bind] at h
    cases hc : currentCall s with
    | error e' =>
      rw [hc] at h
      simp only [Except.bind, Except.error.injEq] at h
      rw [← h, currentCall_error s e' hc]
      simp [accessError]
    | ok c =>
      rw [hc] at h
      simp only [Except.bind] at h
      obtain ⟨me, rfl⟩ := mapMemError _ _ h
      simp [accessError]
  | Val v' =>
    simp only [setVal, Bind.bind] at h
    cases hc : currentOp s with
    | error e' =>
      rw [hc] at h
      simp only [Except.bind, Except.error.injEq] at h
      rw [← h, currentOp_error s e' hc]
      simp [accessError]
    | ok op =>
      rw [hc] at h
      simp only [Except.bind, Except.error.injEq] at h
      rw [← h]
      simp [accessError]
  | Ref v' =>
    simp only [setVal, Bind.bind] at h
    cases hc : currentOp s with
    | error e' =>
      rw [hc] at h
      simp only [Except.bind, Except.error.injEq] at h
      rw [← h, currentOp_error s e' hc]
      simp [accessError]
    | ok op =>
      rw [hc] at h
      simp only [Except.bind, Except.error.injEq] at h
      rw [← h]
      simp [accessError]
  | Emp =>
    simp only [setVal, Bind.bind] at h
    cases hc : currentOp s with
    | error e' =>
      rw [hc] at h
      simp only [Except.bind, Except.error.injEq] at h
      rw [← h, currentOp_error s e' hc]
      simp [accessError]
    | ok op =>
      rw [hc] at h
      simp only [Except.bind, Except.error.injEq] at h
      rw [← h]
      simp [accessError]

theorem makeOffset_accessError (s : State) (a off : Operand)
    (e : ExecutionError) (h : makeOffset s a off = .error e) :
    accessError e := by
  simp only [makeOffset, Bind.bind] at h
  cases hg : getVal uwTy s off with
  | error e' =>
    rw [hg] at h
    simp only [Except.bind, Except.error.injEq] at h
    rw [← h]
    exact getVal_accessError _ _ _ _ hg
  | ok v =>
    rw [hg] at h
    simp only [Except.bind] at h
    exact Except.noConfusion h

theorem readBinOperands_accessError (s : State) (bin : BinOp)
    (e : ExecutionError) (h : readBinOperands s bin = .error e) :
    accessError e := by
  rcases hxo : bin.xOffset with _ | xo
  case none =>
    rcases hyo : bin.yOffset with _ | yo
    case none =>
      simp only [readBinOperands, hxo, hyo, Bind.bind, Except.bind] at h
      all_goals exact Except.noConfusion h
    case some =>
      simp only [readBinOperands, hxo, hyo, Bind.bind, Except.bind] at h
      cases hm : makeOffset s bin.y yo with
      | error e' =>
        simp only [hm, Except.error.injEq] at h
        rw [← h]
        exact makeOffset_accessError _ _ _ _ hm
      | ok r =>
        simp only [hm] at h
        all_goals exact Except.noConfusion h
  case some =>
    rcases hyo : bin.yOffset with _ | yo
    case none =>
      simp only [readBinOperands, hxo, hyo, Bind.bind, Except.bind] at h
      cases hm : makeOffset s bin.x xo with
      | error e' =>
        simp only [hm, Except.error.injEq] at h
        rw [← h]
        exact makeOffset_accessError _ _ _ _ hm
      | ok l =>
        simp only [hm] at h
        all_goals exact Except.noConfusion h
    case some =>
      simp only [readBinOperands, hxo, hyo, Bind.bind, Except.bind] at h
      cases hm : makeOffset s bin.x xo with
      | error e' =>
        simp only [hm, Except.error.injEq] at h
        rw [← h]
        exact makeOffset_accessError _ _ _ _ hm
      | ok l =>
        simp only [hm] at h
        cases hm2 : makeOffset s bin.y yo with
        | error e' =>
          simp only [hm2, Except.error.injEq] at h
          rw [← h]
          exact makeOffset_accessError _ _ _ _ hm2
        | ok r =>
          simp only [hm2] at h
          all_goals exact Except.noConfusion h

theorem readUnOperand_accessError (s : State) (un : UnOp)
    (e : ExecutionError) (h : readUnOperand s un = .error e) :
    accessError e := by
  simp only [readUnOperand] at h
  rcases ho : un.xOffset with _ | o <;> rw [ho] at h
  · exact Except.noConfusion h
  · exact makeOffset_accessError _ _ _ _ h

theorem updateBin_accessError (t u : VTy) (s : State) (bin : BinOp)
    (f : Nat → Nat → Nat) (e : ExecutionError)
    (h : updateBin t u s bin f = .error e) : accessError e := by
  simp only [updateBin, Bind.bind] at h
  cases hr : readBinOperands s bin with
  | error e' =>
    rw [hr] at h
    simp only [Except.bind, Except.error.injEq] at h
    rw [← h]
    exact readBinOperands_accessError _ _ _ hr
  | ok p =>
    obtain ⟨l, r⟩ := p
    rw [hr] at h
    simp only [Except.bind] at h
    cases hx : getVal t s l with
    | error e' =>
      rw [hx] at h
      simp only [Except.bind, Except.error.injEq] at h
      rw [← h]
      exact getVal_accessError _ _ _ _ hx
    | ok x =>
      rw [hx] at h
      simp only [Except.bind] at h
      cases hy : getVal t s r with
      | error e' =>
        rw [hy] at h
        simp only [Except.bind, Except.error.injEq] at h
        rw [← h]
        exact getVal_accessError _ _ _ _ hy
      | ok y =>
        rw [hy] at h
        simp only [Except.bind] at h
        exact setVal_accessError _ _ _ _ _ h

end Ni

namespace Ni

theorem one_le_two_pow_int (k : Nat) : (1 : Int) ≤ 2 ^ k := by
  have h := pow_pos (show (0 : Int) < 2 by norm_num) k
  simpa using Int.add_one_le_iff.mpr h

theorem intMinZ_false (n : Nat) : intMinZ n false = 0 := rfl

theorem intMinZ_true (n : Nat) : intMinZ n true = -(2 ^ (8 * n - 1)) := rfl

theorem intMaxZ_false (n : Nat) : intMaxZ n false = 2 ^ (8 * n) - 1 := rfl

theorem intMaxZ_true (n : Nat) : intMaxZ n true = 2 ^ (8 * n - 1) - 1 := rfl

theorem intToZ_false (n p : Nat) : intToZ n false p = p := rfl

theorem intToZ_true (n p : Nat) :
    intToZ n true p =
      if 2 ^ (8 * n - 1) ≤ p then (p : Int) - 2 ^ (8 * n) else p := by
  simp only [intToZ]
  by_cases hb : 2 ^ (8 * n - 1) ≤ p
  · rw [if_pos ⟨by trivial, hb⟩, if_pos hb]
  · rw [if_neg fun hcon => hb hcon.2, if_neg hb]

theorem intMinZ_le_intMaxZ (n : Nat) (sg : Bool) :
    intMinZ n sg ≤ intMaxZ n sg := by
  cases sg
  · rw [intMinZ_false, intMaxZ_false]
    have := one_le_two_pow_int (8 * n)
    linarith
  · rw [intMinZ_true, intMaxZ_true]
    have h0 : (0 : Int) < 2 ^ (8 * n - 1) := by positivity
    linarith

theorem intToZ_range (n : Nat) (sg : Bool) (p : Nat)
    (hp : p < 2 ^ (8 * n)) (hn : 1 ≤ n) :
    intMinZ n sg ≤ intToZ n sg p ∧ intToZ n sg p ≤ intMaxZ n sg := by
  have hc := cast_two_pow (8 * n)
  have hch := cast_two_pow (8 * n - 1)
  have hpc : (p : Int) < 2 ^ (8 * n) := by
    rw [hc]
    exact_mod_cast hp
  have hp0 : (0 : Int) ≤ (p : Int) := Int.natCast_nonneg p
  cases sg with
  | false =>
    rw [intMinZ_false, intMaxZ_false, intToZ_false]
    exact ⟨hp0, by linarith⟩
  | true =>
    have hhalf := half_pow n hn
    have hH0 : (0 : Int) < 2 ^ (8 * n - 1) := by positivity
    rw [intMinZ_true, intMaxZ_true, intToZ_true]
    by_cases hb : 2 ^ (8 * n - 1) ≤ p
    · have hbc : (2 : Int) ^ (8 * n - 1) ≤ (p : Int) := by
        rw [hch]
        exact_mod_cast hb
      rw [if_pos hb]
      constructor <;> linarith
    · have hbc : (p : Int) < 2 ^ (8 * n - 1) := by
        rw [hch]
        exact_mod_cast Nat.lt_of_not_le hb
      rw [if_neg hb]
      constructor <;> linarith

theorem intRange_mono (n m : Nat) (sg : Bool) (hnm : n ≤ m) :
    intMinZ m sg ≤ intMinZ n sg ∧ intMaxZ n sg ≤ intMaxZ m sg := by
  have h1 : (2 : Int) ^ (8 * n) ≤ 2 ^ (8 * m) :=
    pow_le_pow_right₀ (by norm_num) (by omega)
  have h2 : (2 : Int) ^ (8 * n - 1) ≤ 2 ^ (8 * m - 1) :=
    pow_le_pow_right₀ (by norm_num) (by omega)
  cases sg
  · rw [intMinZ_false, intMinZ_false, intMaxZ_false, intMaxZ_false]
    exact ⟨le_refl 0, by linarith⟩
  · rw [intMinZ_true, intMinZ_true, intMaxZ_true, intMaxZ_true]
    exact ⟨by linarith, by linarith⟩

theorem primExtend_exact (n m : Nat) (sg : Bool) (p : Nat)
    (hp : p < 2 ^ (8 * n)) (hn : 1 ≤ n) (hnm : n ≤ m) :
    intToZ m sg (primExtend (.int n sg) (.int m sg) p) = intToZ n sg p := by
  simp only [primExtend]
  have hr := intToZ_range n sg p hp hn
  have hmono := intRange_mono n m sg hnm
  exact intToZ_intEncode_exact m sg _ (le_trans hn hnm)
    (le_trans hmono.1 hr.1) (le_trans hr.2 hmono.2)

theorem wideValue (F : FloatOps) (aop : BOp) (n m : Nat) (sg : Bool)
    (x y : Nat) (hx : x < 2 ^ (8 * n)) (hy : y < 2 ^ (8 * n))
    (hn : 1 ≤ n) (hnm : n ≤ m) :
    primWrapBin F (.int m sg) aop (primExtend (.int n sg) (.int m sg) x)
        (primExtend (.int n sg) (.int m sg) y) =
      intEncode m (aop.onZ (intToZ n sg x) (intToZ n sg y)) := by
  simp only [primWrapBin]
  rw [primExtend_exact n m sg x hx hn hnm, primExtend_exact n m sg y hy hn hnm]

/-- The result of an `Add`/`Mul` (or signed `Sub`) on values of the
`n`-byte range is representable in any type of at least `2n` bytes. -/
theorem onZ_wide_range (aop : BOp) (n m : Nat) (sg : Bool) (zx zy : Int)
    (hn : 1 ≤ n) (hm : 2 * n ≤ m)
    (hx1 : intMinZ n sg ≤ zx) (hx2 : zx ≤ intMaxZ n sg)
    (hy1 : intMinZ n sg ≤ zy) (hy2 : zy ≤ intMaxZ n sg)
    (hsub : aop = .sub → sg = true) :
    intMinZ m sg ≤ aop.onZ zx zy ∧ aop.onZ zx zy ≤ intMaxZ m sg := by
  cases sg with
  | false =>
    rw [intMinZ_false] at hx1 hy1
    rw [intMaxZ_false] at hx2 hy2
    rw [intMinZ_false, intMaxZ_false]
    have hA1 : (1 : Int) ≤ 2 ^ (8 * n) := one_le_two_pow_int (8 * n)
    have hAB : (2 : Int) ^ (8 * n) * 2 ^ (8 * n) ≤ 2 ^ (8 * m) := by
      rw [← pow_add]
      exact pow_le_pow_right₀ (by norm_num) (by omega)
    cases aop with
    | add =>
      constructor
      · simp only [BOp.onZ]
        linarith
      · simp only [BOp.onZ]
        nlinarith
    | sub => exact absurd (hsub rfl) (by simp)
    | mul =>
      have h1 : zx * zy ≤ (2 ^ (8 * n) - 1) * (2 ^ (8 * n) - 1) :=
        mul_le_mul hx2 hy2 hy1 (by linarith)
      constructor
      · simp only [BOp.onZ]
        exact mul_nonneg hx1 hy1
      · simp only [BOp.onZ]
        nlinarith
  | true =>
    rw [intMinZ_true] at hx1 hy1
    rw [intMaxZ_true] at hx2 hy2
    rw [intMinZ_true, intMaxZ_true]
    have hH1 : (1 : Int) ≤ 2 ^ (8 * n - 1) := one_le_two_pow_int (8 * n - 1)
    have hHm : 2 * (2 ^ (8 * n - 1) * 2 ^ (8 * n - 1)) ≤ (2 : Int) ^ (8 * m - 1) := by
      calc 2 * ((2 : Int) ^ (8 * n - 1) * 2 ^ (8 * n - 1))
          = 2 ^ (1 + (8 * n - 1) + (8 * n - 1)) := by
            rw [pow_add, pow_add, pow_one]
            ring
        _ ≤ 2 ^ (8 * m - 1) := pow_le_pow_right₀ (by norm_num) (by omega)
    have hP0 : (0 : Int) ≤ 2 ^ (8 * n - 1) * 2 ^ (8 * n - 1) := by positivity
    have hP1 : (1 : Int) ≤ 2 ^ (8 * n - 1) * 2 ^ (8 * n - 1) := by nlinarith
    cases aop with
    | add =>
      constructor
      · simp only [BOp.onZ]
        nlinarith
      · simp only [BOp.onZ]
        nlinarith
    | sub =>
      constructor
      · simp only [BOp.onZ]
        nlinarith
      · simp only [BOp.onZ]
        nlinarith
    | mul =>
      have haz : |zx| ≤ 2 ^ (8 * n - 1) := abs_le.mpr ⟨by linarith, by linarith⟩
      have hbz : |zy| ≤ 2 ^ (8 * n - 1) := abs_le.mpr ⟨by linarith, by linarith⟩
      have hab : |zx * zy| ≤ 2 ^ (8 * n - 1) * 2 ^ (8 * n - 1) := by
        rw [abs_mul]
        exact mul_le_mul haz hbz (abs_nonneg zy) (by positivity)
      obtain ⟨hl, hr⟩ := abs_le.mp hab
      constructor
      · simp only [BOp.onZ]
        linarith
      · simp only [BOp.onZ]
        linarith

theorem wideTy_size_fixed (ot : OpType) (hint : ot.isIntType = true)
    (h8 : ot ≠ .Uw) (h9 : ot ≠ .Iw) :
    ot.wideTy.size = 2 * ot.valTy.size := by
  cases ot <;> simp_all [OpType.isIntType, OpType.valTy, OpType.wideTy,
    VTy.isFloat, VTy.size]

end Ni

namespace Ni

theorem valTy_not_float (ot : OpType) (h : ot.isIntType = true) :
    ot.valTy.isFloat = false := by
  cases ot <;> simp_all [OpType.isIntType, OpType.valTy, VTy.isFloat]

theorem wideTy_not_float (ot : OpType) (h : ot.isIntType = true) :
    ot.wideTy.isFloat = false := by
  cases ot <;> simp_all [OpType.isIntType, OpType.valTy, OpType.wideTy,
    VTy.isFloat]

/-- The spec's words for the `Wrap` result: the two's-complement
modulo-`2^width` pattern of the ideal integer result. -/
def specWrap (t : VTy) (k : BOp) (x y : Nat) : Nat :=
  intEncode t.size (k.onZ (vIntToZ t x) (vIntToZ t y))

/-- The spec's words for the `Sat` result: the ideal integer result
clamped to the type's min/max. -/
def specSatClamp (t : VTy) (k : BOp) (x y : Nat) : Int :=
  max (intMinZ t.size t.signed)
    (min (intMaxZ t.size t.signed) (k.onZ (vIntToZ t x) (vIntToZ t y)))

/-- The expected post-state of one canonical arithmetic instruction:
result pattern `w` stored as `nBytes` bytes at address `0`, pc
advanced to `1`. -/
def arithDone (aop : BOp) (ot : OpType) (mode : ArithmeticMode)
    (x y w nBytes : Nat) : ExecResult ExecutionSuccess :=
  (.ok .Ok,
    { canonS [mkArith aop (binXY ot.valTy) ot mode] (2 * ot.valTy.size)
        (arithBytes ot.valTy x y) with
      memory := ⟨⟨leBytes nBytes w ++ (arithBytes ot.valTy x y).drop nBytes,
        65535, "stack"⟩, ⟨[], 65536, "heap"⟩⟩,
      programCounter := 1 })

theorem primWrapBin_spec (F : FloatOps) (t : VTy) (aop : BOp) (x y : Nat)
    (h : t.isFloat = false) : primWrapBin F t aop x y = specWrap t aop x y := by
  cases t with
  | int n sg => rfl
  | f32 => simp [VTy.isFloat] at h
  | f64 => simp [VTy.isFloat] at h

theorem primSatBin_spec (F : FloatOps) (t : VTy) (aop : BOp) (x y : Nat)
    (h : t.isFloat = false) :
    primSatBin F t aop x y = intEncode t.size (specSatClamp t aop x y) := by
  cases t with
  | int n sg => rfl
  | f32 => simp [VTy.isFloat] at h
  | f64 => simp [VTy.isFloat] at h

theorem specSatClamp_exact (t : VTy) (aop : BOp) (x y : Nat)
    (h : t.isFloat = false) (hn : 1 ≤ t.size) :
    vIntToZ t (intEncode t.size (specSatClamp t aop x y)) =
      specSatClamp t aop x y := by
  cases t with
  | int n sg =>
    simp only [vIntToZ, specSatClamp, VTy.size, VTy.signed] at *
    exact intToZ_intEncode_exact n sg _ hn (le_max_left _ _)
      (max_le (intMinZ_le_intMaxZ n sg) (min_le_left _ _))
  | f32 => simp [VTy.isFloat] at h
  | f64 => simp [VTy.isFloat] at h

theorem wideValue_vty (F : FloatOps) (aop : BOp) (t u : VTy) (x y : Nat)
    (hx : x < 2 ^ (8 * t.size)) (hy : y < 2 ^ (8 * t.size))
    (htf : t.isFloat = false) (huf : u.isFloat = false)
    (hsg : u.signed = t.signed) (hn : 1 ≤ t.size) (hnm : t.size ≤ u.size) :
    primWrapBin F u aop (primExtend t u x) (primExtend t u y) =
      intEncode u.size (aop.onZ (vIntToZ t x) (vIntToZ t y)) := by
  cases t with
  | int n sg =>
    cases u with
    | int m sg2 =>
      simp only [VTy.signed] at hsg
      subst sg2
      simp only [VTy.size] at hx hy hn hnm
      simp only [vIntToZ, VTy.size, VTy.signed]
      exact wideValue F aop n m sg x y hx hy hn hnm
    | f32 => simp [VTy.isFloat] at huf
    | f64 => simp [VTy.isFloat] at huf
  | f32 => simp [VTy.isFloat] at htf
  | f64 => simp [VTy.isFloat] at htf

theorem wide_exact_vty (t u : VTy) (aop : BOp) (x y : Nat)
    (hx : x < 2 ^ (8 * t.size)) (hy : y < 2 ^ (8 * t.size))
    (htf : t.isFloat = false) (huf : u.isFloat = false)
    (hsg : u.signed = t.signed) (hn : 1 ≤ t.size) (hm : 2 * t.size ≤ u.size)
    (hsub : aop = .sub → t.signed = true) :
    vIntToZ u (intEncode u.size (aop.onZ (vIntToZ t x) (vIntToZ t y))) =
      aop.onZ (vIntToZ t x) (vIntToZ t y) := by
  cases t with
  | int n sg =>
    cases u with
    | int m sg2 =>
      simp only [VTy.signed] at hsg
      subst sg2
      simp only [VTy.size] at hx hy hn hm
      simp only [vIntToZ, VTy.size, VTy.signed] at *
      have hrx := intToZ_range n sg x hx hn
      have hry := intToZ_range n sg y hy hn
      have hrange := onZ_wide_range aop n m sg _ _ hn hm hrx.1 hrx.2
        hry.1 hry.2 hsub
      exact intToZ_intEncode_exact m sg _ (by omega) hrange.1 hrange.2
    | f32 => simp [VTy.isFloat] at huf
    | f64 => simp [VTy.isFloat] at huf
  | f32 => simp [VTy.isFloat] at htf
  | f64 => simp [VTy.isFloat] at htf

theorem applyMem_fst_no_ovf (s : State) (r : Except ExecutionError Memory)
    (hr : ∀ e, r = .error e → accessError e) :
    (applyMem s r).1 ≠ .error .OperationOverflow := by
  cases r with
  | error e =>
    simp only [applyMem]
    intro hcon
    simp only [Except.error.injEq] at hcon
    exact (hr e rfl).1 hcon
  | ok m => simp [applyMem]

end Ni

namespace Ni

/-- **C4** (arithmetic modes for `Add`/`Sub`/`Mul`, corrected): on the
canonical two-operand state, for every integer operand type (including
`Uw`/`Iw`) and in-range inputs: `Wrap` stores the two's-complement
modulo-`2^width` result; `Sat` stores exactly the result clamped to
the type's min/max; `Wide` stores the wrapping result of the dispatch
pair's wider type, which is lossless only for the fixed-width types
when the operation is `Add`, `Mul` or a signed `Sub` — the word types
`Uw`/`Iw` are dispatched unwidened and unsigned `Sub` can leave the
unsigned wide range, so "`Wide` has no loss" fails in general; `Hand`
returns `OperationOverflow` exactly when the checked operator returns
`none`; and `Wrap`/`Sat`/`Wide` never return `OperationOverflow` on
any state and operands whatsoever. -/
theorem c4_arithmetic_modes (F : FloatOps) (aop : BOp) (ot : OpType)
    (x y : Nat) (hint : ot.isIntType = true)
    (hx : x < 2 ^ (8 * ot.valTy.size)) (hy : y < 2 ^ (8 * ot.valTy.size)) :
    execute F (arithS aop ot .Wrap x y) =
        arithDone aop ot .Wrap x y (specWrap ot.valTy aop x y)
          ot.valTy.size ∧
    (execute F (arithS aop ot .Sat x y) =
        arithDone aop ot .Sat x y
          (intEncode ot.valTy.size (specSatClamp ot.valTy aop x y))
          ot.valTy.size ∧
      vIntToZ ot.valTy
          (intEncode ot.valTy.size (specSatClamp ot.valTy aop x y)) =
        specSatClamp ot.valTy aop x y) ∧
    (execute F (arithS aop ot .Wide x y) =
        arithDone aop ot .Wide x y
          (intEncode ot.wideTy.size
            (aop.onZ (vIntToZ ot.valTy x) (vIntToZ ot.valTy y)))
          ot.wideTy.size ∧
      (ot ≠ .Uw → ot ≠ .Iw → (aop = .sub → ot.valTy.signed = true) →
        vIntToZ ot.wideTy
            (intEncode ot.wideTy.size
              (aop.onZ (vIntToZ ot.valTy x) (vIntToZ ot.valTy y))) =
          aop.onZ (vIntToZ ot.valTy x) (vIntToZ ot.valTy y))) ∧
    ((execute F (arithS aop ot .Hand x y)).1 = .error .OperationOverflow ↔
      primCheckedBin F ot.valTy aop x y = none) ∧
    (∀ (s : State) (bin : BinOp) (mode : ArithmeticMode), mode ≠ .Hand →
      (execBinArith F aop ot.valTy ot.wideTy s bin mode).1 ≠
        .error .OperationOverflow) := by
  obtain ⟨hn1, htb, hwle, hwsg, hvw, -, -⟩ := valTy_int_facts ot hint
  have htf := valTy_not_float ot hint
  have huf := wideTy_not_float ot hint
  refine ⟨?_, ⟨?_, ?_⟩, ⟨?_, ?_⟩, ?_, ?_⟩
  · rw [execute_arithS]
    simp only [execBinArith]
    unfold arithDone arithS
    rw [updateBin_canon ot.valTy ot.valTy _ _ x y _ hx hy (by omega) htb]
    rw [primWrapBin_spec F ot.valTy aop x y htf]
    simp [applyMem, finish, adv, canonS, wrap32_one]
  · rw [execute_arithS]
    simp only [execBinArith]
    unfold arithDone arithS
    rw [updateBin_canon ot.valTy ot.valTy _ _ x y _ hx hy (by omega) htb]
    rw [primSatBin_spec F ot.valTy aop x y htf]
    simp [applyMem, finish, adv, canonS, wrap32_one]
  · exact specSatClamp_exact ot.valTy aop x y htf hn1
  · rw [execute_arithS]
    simp only [execBinArith]
    unfold arithDone arithS
    rw [updateBin_canon ot.valTy ot.wideTy _ _ x y _ hx hy hwle htb]
    have hwv := wideValue_vty F aop ot.valTy ot.wideTy x y hx hy htf huf
      hwsg hn1 hvw
    simp only [hwv]
    simp [applyMem, finish, adv, canonS, wrap32_one]
  · intro h8 h9 hsub
    have hms := wideTy_size_fixed ot hint h8 h9
    exact wide_exact_vty ot.valTy ot.wideTy aop x y hx hy htf huf hwsg hn1
      (le_of_eq hms.symm) hsub
  · rw [execute_arithS]
    simp only [execBinArith]
    unfold arithS
    rw [updateBinChecked_canon ot.valTy _ _ x y _ hx hy htb]
    cases hcf : primCheckedBin F ot.valTy aop x y with
    | some v => simp [hcf, finish, Option.isNone]
    | none => simp [hcf, finish, Option.isNone]
  · intro s bin mode hmode
    cases mode with
    | Wrap =>
      simp only [execBinArith]
      exact applyMem_fst_no_ovf _ _
        (fun e he => updateBin_accessError _ _ _ _ _ _ he)
    | Sat =>
      simp only [execBinArith]
      exact applyMem_fst_no_ovf _ _
        (fun e he => updateBin_accessError _ _ _ _ _ _ he)
    | Wide =>
      simp only [execBinArith]
      exact applyMem_fst_no_ovf _ _
        (fun e he => updateBin_accessError _ _ _ _ _ _ he)
    | Hand => exact absurd rfl hmode

/-- **C4 counterexample**: the `Wide` mode is not loss-free as claimed.
`Uw` dispatches to the same 4-byte word type, so `2^31 + 2^31` stores
as `0` although the ideal sum is `2^32`; and unsigned `Sub` cannot
represent `1 - 2 = -1` even in the doubled width, storing `65535`. -/
theorem c4_counterexample :
    (execute dummyFloatOps
        (arithS .add .Uw .Wide 2147483648 2147483648)).1 = .ok .Ok ∧
    leToNat (((execute dummyFloatOps
        (arithS .add .Uw .Wide 2147483648 2147483648)).2.memory.stack.bytes).take
          (OpType.wideTy .Uw).size) = 0 ∧
    BOp.add.onZ (vIntToZ (OpType.valTy .Uw) 2147483648)
        (vIntToZ (OpType.valTy .Uw) 2147483648) = 4294967296 ∧
    (execute dummyFloatOps (arithS .sub .U8 .Wide 1 2)).1 = .ok .Ok ∧
    leToNat (((execute dummyFloatOps
        (arithS .sub .U8 .Wide 1 2)).2.memory.stack.bytes).take
          (OpType.wideTy .U8).size) = 65535 ∧
    BOp.sub.onZ (vIntToZ (OpType.valTy .U8) 1)
        (vIntToZ (OpType.valTy .U8) 2) = -1 := by
  decide

/-- **C4 witness**: the `Wrap` clause of `c4_arithmetic_modes` at
`U8`, `200 + 100`. -/
theorem c4_witness :
    execute dummyFloatOps (arithS .add .U8 .Wrap 200 100) =
      arithDone .add .U8 .Wrap 200 100
        (specWrap (OpType.valTy .U8) .add 200 100) (OpType.valTy .U8).size :=
  (c4_arithmetic_modes dummyFloatOps .add .U8 200 100 (by decide) (by decide)
    (by decide)).1

end Ni

namespace Ni

/-- The `Div`/`Mod` constructor pair (`true` = `Mod`). -/
def mkDivMod : Bool → BinOp → OpType → Op
  | false, b, t => .Div b t
  | true, b, t => .Mod b t

/-- Canonical state executing one `Div`/`Mod` over `x` at `Loc 0` and
the divisor `y` at `Loc t.size`. -/
def divmodS (im : Bool) (ot : OpType) (x y : Nat) : State :=
  canonS [mkDivMod im (binXY ot.valTy) ot] (2 * ot.valTy.size)
    (arithBytes ot.valTy x y)

/-- The state after `T::zero()` has been stored into the destination
at address `0` (and nothing else happened). -/
def zeroWritten (s : State) (t : VTy) : State :=
  { s with memory := ⟨⟨leBytes t.size (primZero t) ++
      s.memory.stack.bytes.drop t.size, 65535, "stack"⟩,
      ⟨[], 65536, "heap"⟩⟩ }

theorem execute_divmodS (F : FloatOps) (im : Bool) (ot : OpType)
    (x y : Nat) :
    execute F (divmodS im ot x y) =
      finish (updateBinDivision ot.valTy (divmodS im ot x y)
        (binXY ot.valTy)
        (if im then primWrapRem F ot.valTy else primWrapDiv F ot.valTy)) := by
  cases im <;> rfl

theorem valTy_size_facts (ot : OpType) :
    1 ≤ ot.valTy.size ∧ ot.valTy.size ≤ 16 := by
  cases ot <;> simp [OpType.valTy, VTy.size]

theorem updateBinDivision_canon_zero (t : VTy) (p : List Op) (fz x y : Nat)
    (f : Nat → Nat → Nat) (hx : x < 2 ^ (8 * t.size))
    (hy : y < 2 ^ (8 * t.size)) (htb : t.size ≤ 16)
    (hz : primIsZero t y = true) :
    updateBinDivision t (canonS p fz (arithBytes t x y)) (binXY t) f =
      (.error .DivisionByZero,
        { canonS p fz (arithBytes t x y) with
          memory := ⟨⟨leBytes t.size (primZero t) ++
            (arithBytes t x y).drop t.size, 65535, "stack"⟩,
            ⟨[], 65536, "heap"⟩⟩ }) := by
  have hlen := arithBytes_length t x y
  have hsm : (arithBytes t x y).length < HEAP_BASE := by
    simp only [HEAP_BASE]
    omega
  have hrb : readBinOperands (canonS p fz (arithBytes t x y)) (binXY t) =
      .ok (.Loc 0, .Loc t.size) := rfl
  simp only [updateBinDivision, hrb]
  simp only [getVal_loc_canon t p fz 0 (arithBytes t x y) (by omega) hsm,
    getVal_loc_canon t p fz t.size (arithBytes t x y) (by omega) hsm]
  rw [arithBytes_get_x t x y hx, arithBytes_get_y t x y hy]
  simp only [hz, if_true]
  simp only [setVal_loc_canon t p fz 0 (primZero t) (arithBytes t x y)
    (by omega) hsm]
  simp

theorem updateBinDivision_canon_ok (t : VTy) (p : List Op) (fz x y : Nat)
    (f : Nat → Nat → Nat) (hx : x < 2 ^ (8 * t.size))
    (hy : y < 2 ^ (8 * t.size)) (htb : t.size ≤ 16)
    (hz : primIsZero t y = false) :
    updateBinDivision t (canonS p fz (arithBytes t x y)) (binXY t) f =
      (.ok (),
        { canonS p fz (arithBytes t x y) with
          memory := ⟨⟨leBytes t.size (f x y) ++
            (arithBytes t x y).drop t.size, 65535, "stack"⟩,
            ⟨[], 65536, "heap"⟩⟩ }) := by
  have hlen := arithBytes_length t x y
  have hsm : (arithBytes t x y).length < HEAP_BASE := by
    simp only [HEAP_BASE]
    omega
  have hrb : readBinOperands (canonS p fz (arithBytes t x y)) (binXY t) =
      .ok (.Loc 0, .Loc t.size) := rfl
  simp only [updateBinDivision, hrb]
  simp only [getVal_loc_canon t p fz 0 (arithBytes t x y) (by omega) hsm,
    getVal_loc_canon t p fz t.size (arithBytes t x y) (by omega) hsm]
  rw [arithBytes_get_x t x y hx, arithBytes_get_y t x y hy]
  rw [if_neg (by simp [hz])]
  simp only [setVal_loc_canon t p fz 0 (f x y) (arithBytes t x y)
    (by omega) hsm]
  simp

end Ni

namespace Ni

/-- **C7** (division by zero, corrected): on the canonical state, for
*every* operand type — the floats included — `Div`/`Mod` with a
divisor whose pattern equals `T::zero()` (for `f32`/`f64` the two IEEE
zero patterns) stores zero and returns `DivisionByZero` with the
program counter unchanged; with any other divisor pattern the
operation succeeds with the wrapping (or IEEE) quotient/remainder; and
on arbitrary states `update_bin_division` returns `DivisionByZero`
only when the divisor it read compares equal to zero.  The claim that
the float types never produce this error is false: the zero check runs
before the IEEE division. -/
theorem c7_division_by_zero (F : FloatOps) (im : Bool) (ot : OpType)
    (x y : Nat) (hx : x < 2 ^ (8 * ot.valTy.size))
    (hy : y < 2 ^ (8 * ot.valTy.size)) :
    (primIsZero ot.valTy y = true →
      execute F (divmodS im ot x y) =
        (.error .DivisionByZero, zeroWritten (divmodS im ot x y) ot.valTy) ∧
      (zeroWritten (divmodS im ot x y) ot.valTy).programCounter =
        (divmodS im ot x y).programCounter) ∧
    (primIsZero ot.valTy y = false →
      execute F (divmodS im ot x y) =
        (.ok .Ok,
          { divmodS im ot x y with
            memory := ⟨⟨leBytes ot.valTy.size
                ((if im then primWrapRem F ot.valTy
                  else primWrapDiv F ot.valTy) x y) ++
              (arithBytes ot.valTy x y).drop ot.valTy.size, 65535, "stack"⟩,
              ⟨[], 65536, "heap"⟩⟩,
            programCounter := 1 })) ∧
    (∀ (t : VTy) (s : State) (bin : BinOp) (f : Nat → Nat → Nat),
      (updateBinDivision t s bin f).1 = .error .DivisionByZero →
      ∃ l r xv yv, readBinOperands s bin = .ok (l, r) ∧
        getVal t s l = .ok xv ∧ getVal t s r = .ok yv ∧
        primIsZero t yv = true) := by
  obtain ⟨hn1, htb⟩ := valTy_size_facts ot
  refine ⟨?_, ?_, ?_⟩
  · intro hz
    rw [execute_divmodS]
    unfold divmodS zeroWritten
    rw [updateBinDivision_canon_zero ot.valTy _ _ x y _ hx hy htb hz]
    simp [finish, canonS]
  · intro hz
    rw [execute_divmodS]
    unfold divmodS
    rw [updateBinDivision_canon_ok ot.valTy _ _ x y _ hx hy htb hz]
    simp [finish, adv, canonS, wrap32_one]
  · intro t s bin f h
    rcases hr : readBinOperands s bin with e | lr
    · simp only [updateBinDivision, hr] at h
      simp only [Except.error.injEq] at h
      exact absurd h ((readBinOperands_accessError s bin e hr).2)
    · obtain ⟨l, r⟩ := lr
      simp only [updateBinDivision, hr] at h
      rcases hxv : getVal t s l with e | xv
      · simp only [hxv] at h
        simp only [Except.error.injEq] at h
        exact absurd h ((getVal_accessError t s l e hxv).2)
      · simp only [hxv] at h
        rcases hyv : getVal t s r with e | yv
        · simp only [hyv] at h
          simp only [Except.error.injEq] at h
          exact absurd h ((getVal_accessError t s r e hyv).2)
        · simp only [hyv] at h
          by_cases hz : primIsZero t yv = true
          · exact ⟨l, r, xv, yv, rfl, hxv, hyv, hz⟩
          · rw [if_neg hz] at h
            rcases hsv : setVal t s l (f xv yv) with e | m
            · simp only [hsv] at h
              simp only [Except.error.injEq] at h
              exact absurd h ((setVal_accessError t s l _ e hsv).2)
            · simp only [hsv] at h
              exact Except.noConfusion h

/-- **C7 counterexample**: `Div` on `F32` by the `+0.0` pattern *does*
return `DivisionByZero` (dividend pattern `1.0f32`), contradicting the
claim that the float types never produce this error. -/
theorem c7_counterexample :
    (execute dummyFloatOps (divmodS false .F32 1065353216 0)).1 =
      .error .DivisionByZero := by
  decide

/-- **C7 witness**: the zero-divisor clause at `I32`, `7 / 0`. -/
theorem c7_witness :
    execute dummyFloatOps (divmodS false .I32 7 0) =
      (.error .DivisionByZero,
        zeroWritten (divmodS false .I32 7 0) (OpType.valTy .I32)) ∧
    (zeroWritten (divmodS false .I32 7 0) (OpType.valTy .I32)).programCounter =
      (divmodS false .I32 7 0).programCounter :=
  (c7_division_by_zero dummyFloatOps false .I32 7 0 (by decide)
    (by decide)).1 (by decide)

end Ni

namespace Ni

/-- The `Neg`/`Inc`/`Dec` constructor family. -/
def mkUnArith : UOp → UnOp → OpType → ArithmeticMode → Op
  | .neg, u, t, m => .Neg u t m
  | .inc, u, t, m => .Inc u t m
  | .dec, u, t, m => .Dec u t m

/-- Canonical state executing one unary arithmetic instruction over
`x` at `Loc 0`. -/
def unS (uop : UOp) (ot : OpType) (mode : ArithmeticMode) (x : Nat) :
    State :=
  canonS [mkUnArith uop ⟨.Loc 0, none⟩ ot mode] (2 * ot.valTy.size)
    (arithBytes ot.valTy x 0)

theorem execute_unS (F : FloatOps) (uop : UOp) (ot : OpType)
    (mode : ArithmeticMode) (x : Nat) :
    execute F (unS uop ot mode x) =
      finish (execUnArith F uop ot.valTy ot.wideTy (unS uop ot mode x)
        ⟨.Loc 0, none⟩ mode) := by
  cases uop <;> rfl

theorem updateUnChecked_canon (t : VTy) (p : List Op) (fz x : Nat)
    (cf : Nat → Option Nat) (hx : x < 2 ^ (8 * t.size))
    (htb : t.size ≤ 16) :
    updateUnChecked t (canonS p fz (arithBytes t x 0)) ⟨.Loc 0, none⟩ cf =
      .ok (⟨⟨leBytes t.size
          (match cf x with | some v => v | none => primZero t) ++
            (arithBytes t x 0).drop t.size, 65535, "stack"⟩,
          ⟨[], 65536, "heap"⟩⟩, (cf x).isNone) := by
  have hlen := arithBytes_length t x 0
  have hsm : (arithBytes t x 0).length < HEAP_BASE := by
    simp only [HEAP_BASE]
    omega
  have hru : readUnOperand (canonS p fz (arithBytes t x 0))
      ⟨.Loc 0, none⟩ = .ok (.Loc 0) := rfl
  simp only [updateUnChecked, hru, Except.bind, Bind.bind]
  rw [getVal_loc_canon t p fz 0 _ (by omega) hsm]
  simp only
  rw [arithBytes_get_x t x 0 hx]
  cases hcf : cf x with
  | some v =>
    simp only
    rw [setVal_loc_canon t p fz 0 _ _ (by omega) hsm]
    simp [Except.bind]
  | none =>
    simp only
    rw [setVal_loc_canon t p fz 0 _ _ (by omega) hsm]
    simp [Except.bind]

/-- **C9** (destination clobbered on arithmetic errors, confirmed): on
the canonical states, an integer `Div`/`Mod` with a zero divisor, a
`Hand`-mode `Add`/`Sub`/`Mul` whose checked operator returns `none`,
and a `Hand`-mode `Neg`/`Inc`/`Dec` whose checked operator returns
`none` all store `T::zero()` into the destination operand and only
then return `DivisionByZero` resp. `OperationOverflow`. -/
theorem c9_destination_clobbered (F : FloatOps) (aop : BOp) (uop : UOp)
    (ot : OpType) (x y : Nat) (_hint : ot.isIntType = true)
    (hx : x < 2 ^ (8 * ot.valTy.size)) (hy : y < 2 ^ (8 * ot.valTy.size)) :
    (primIsZero ot.valTy y = true → ∀ im : Bool,
      execute F (divmodS im ot x y) =
        (.error .DivisionByZero, zeroWritten (divmodS im ot x y) ot.valTy)) ∧
    (primCheckedBin F ot.valTy aop x y = none →
      execute F (arithS aop ot .Hand x y) =
        (.error .OperationOverflow,
          zeroWritten (arithS aop ot .Hand x y) ot.valTy)) ∧
    (primCheckedUn F ot.valTy uop x = none →
      execute F (unS uop ot .Hand x) =
        (.error .OperationOverflow,
          zeroWritten (unS uop ot .Hand x) ot.valTy)) := by
  obtain ⟨hn1, htb⟩ := valTy_size_facts ot
  refine ⟨?_, ?_, ?_⟩
  · intro hz im
    rw [execute_divmodS]
    unfold divmodS zeroWritten
    rw [updateBinDivision_canon_zero ot.valTy _ _ x y _ hx hy htb hz]
    simp [finish, canonS]
  · intro hcf
    rw [execute_arithS]
    simp only [execBinArith]
    unfold arithS zeroWritten
    rw [updateBinChecked_canon ot.valTy _ _ x y _ hx hy htb]
    simp [hcf, finish, canonS]
  · intro hcf
    rw [execute_unS]
    simp only [execUnArith]
    unfold unS zeroWritten
    rw [updateUnChecked_canon ot.valTy _ _ x _ hx htb]
    simp [hcf, finish, canonS]

/-- **C9 witness**: `Neg` in `Hand` mode on `I8` at the pattern `128`
(the value `-128`, whose negation overflows) zeroes the destination
and errors. -/
theorem c9_witness :
    execute dummyFloatOps (unS .neg .I8 .Hand 128) =
      (.error .OperationOverflow,
        zeroWritten (unS .neg .I8 .Hand 128) (OpType.valTy .I8)) :=
  (c9_destination_clobbered dummyFloatOps .add .neg .I8 128 0 (by decide)
    (by decide) (by decide)).2.2 (by decide)

end Ni

namespace Ni

/-- Canonical state executing one `Cnv`: destination at `Loc 0`
(initial pattern `d0`), source value `v` at `Loc dst.size`. -/
def cnvS (srcT dstT : OpType) (d0 v : Nat) : State :=
  canonS [.Cnv (.Loc 0) (.Loc dstT.valTy.size) srcT dstT] 0
    (leBytes dstT.valTy.size d0 ++ leBytes srcT.valTy.size v)

theorem cnv_get_src (a b d0 v : Nat) (hv : v < 2 ^ (8 * b)) :
    leToNat (((leBytes a d0 ++ leBytes b v).drop a).take b) = v := by
  rw [List.drop_left' (leBytes_length _ _),
    List.take_of_length_le (by rw [leBytes_length])]
  exact leToNat_leBytes _ _ (by rw [pow256]; exact hv)

/-- **C10** (float-source conversion zeroes NaN and infinities,
confirmed): executing `Cnv` whose source type is `F32` (resp. `F64`)
on a NaN or infinite source pattern stores the zero pattern for every
destination type, and at the primitive level `impl_convert_f` maps
such a source to zero for *every* destination — the float destinations
`f32`/`f64` included, so converting a NaN or infinite float to its own
type yields `0.0`. -/
theorem c10_cnv_nan_inf_zero (F : FloatOps) (srcT dstT : OpType)
    (d0 v : Nat) (hv : v < 2 ^ (8 * srcT.valTy.size))
    (hnan : (srcT = .F32 ∧ (isNan32 v = true ∨ isInf32 v = true)) ∨
            (srcT = .F64 ∧ (isNan64 v = true ∨ isInf64 v = true))) :
    execute F (cnvS srcT dstT d0 v) =
      (.ok .Ok,
        { cnvS srcT dstT d0 v with
          memory := ⟨⟨leBytes dstT.valTy.size 0 ++
            leBytes srcT.valTy.size v, 65535, "stack"⟩,
            ⟨[], 65536, "heap"⟩⟩,
          programCounter := 1 }) ∧
    (∀ dst : VTy, primConvert F srcT.valTy dst v = 0) := by
  have hpz : ∀ dst : VTy, primConvert F srcT.valTy dst v = 0 := by
    intro dst
    rcases hnan with ⟨rfl, hn⟩ | ⟨rfl, hn⟩ <;>
      cases dst <;> simp only [OpType.valTy, primConvert] <;>
        rw [if_pos hn] <;> rfl
  refine ⟨?_, hpz⟩
  obtain ⟨hs1, hs16⟩ := valTy_size_facts srcT
  obtain ⟨hd1, hd16⟩ := valTy_size_facts dstT
  have hstep : execute F (cnvS srcT dstT d0 v) =
      finish (execCnv F srcT.valTy dstT.valTy (cnvS srcT dstT d0 v)
        (.Loc 0) (.Loc dstT.valTy.size)) := rfl
  rw [hstep]
  unfold cnvS execCnv
  have hlen : (leBytes dstT.valTy.size d0 ++
      leBytes srcT.valTy.size v).length =
      dstT.valTy.size + srcT.valTy.size := by
    simp [leBytes_length]
  have hsm : (leBytes dstT.valTy.size d0 ++
      leBytes srcT.valTy.size v).length < HEAP_BASE := by
    rw [hlen]
    simp only [HEAP_BASE]
    omega
  simp only [getVal_loc_canon srcT.valTy _ 0 dstT.valTy.size _
    (by rw [hlen]) hsm]
  rw [cnv_get_src _ _ _ _ hv]
  simp only [setVal_loc_canon dstT.valTy _ 0 0 _ _ (by rw [hlen]; omega) hsm]
  rw [hpz dstT.valTy]
  have hdrop : (leBytes dstT.valTy.size d0 ++
      leBytes srcT.valTy.size v).drop dstT.valTy.size =
      leBytes srcT.valTy.size v := List.drop_left' (leBytes_length _ _)
  simp [applyMem, finish, adv, canonS, wrap32_one, hdrop]

/-- **C10 witness**: converting the `f32` NaN pattern `0x7FC00000`
to `f64` stores the zero pattern. -/
theorem c10_witness :
    execute dummyFloatOps (cnvS .F32 .F64 1 2143289344) =
      (.ok .Ok,
        { cnvS .F32 .F64 1 2143289344 with
          memory := ⟨⟨leBytes (OpType.valTy .F64).size 0 ++
            leBytes (OpType.valTy .F32).size 2143289344, 65535, "stack"⟩,
            ⟨[], 65536, "heap"⟩⟩,
          programCounter := 1 }) :=
  (c10_cnv_nan_inf_zero dummyFloatOps .F32 .F64 1 2143289344 (by decide)
    (Or.inl ⟨rfl, Or.inl (by decide)⟩)).1

end Ni

namespace Ni

/-- **C5** (Par parameter placement, corrected): `exec_par` computes
the destination as `Loc(parameter_ptr + frame_size)` where
`frame_size` is the *current call's* — i.e. the caller's, since with a
prepared frame on top `current_call` returns the frame below the top —
not the prepared frame's size as claimed.  (The write still lands at
the start of the prepared frame's parameter area only because that
frame's base equals the caller's base plus the caller's frame size.)
`Set` copies the value read through the operand, `Emp` writes nothing,
`Zer` writes zero, and `parameter_ptr` advances by `T::SIZE` in every
mode, before the mode dispatch. -/
theorem c5_par_placement (t : VTy) (s : State) (un : UnOp)
    (c : FunctionCall) (hc : currentCall s = .ok c) :
    (∀ mode : ParameterMode,
      (execPar t s un mode).2.parameterPtr =
        wrap32 (s.parameterPtr + t.size)) ∧
    execPar t s un .Emp =
      (.ok (), { s with parameterPtr := wrap32 (s.parameterPtr + t.size) }) ∧
    execPar t s un .Zer =
      applyMem { s with parameterPtr := wrap32 (s.parameterPtr + t.size) }
        (setVal t { s with parameterPtr := wrap32 (s.parameterPtr + t.size) }
          (.Loc (wrap32 (s.parameterPtr + c.function.frameSize)))
          (primZero t)) ∧
    (∀ v, getUn t { s with parameterPtr := wrap32 (s.parameterPtr + t.size) }
        un = .ok v →
      execPar t s un .Set =
        applyMem { s with parameterPtr := wrap32 (s.parameterPtr + t.size) }
          (setVal t
            { s with parameterPtr := wrap32 (s.parameterPtr + t.size) }
            (.Loc (wrap32 (s.parameterPtr + c.function.frameSize))) v)) := by
  refine ⟨?_, ?_, ?_, ?_⟩
  · intro mode
    cases mode with
    | Set =>
      simp only [execPar, hc]
      cases hg : getUn t
          { s with parameterPtr := wrap32 (s.parameterPtr + t.size) } un with
      | error e => simp [hg]
      | ok v =>
        simp only [hg]
        cases hs : setVal t
            { s with parameterPtr := wrap32 (s.parameterPtr + t.size) }
            (.Loc (wrap32 (s.parameterPtr + c.function.frameSize))) v with
        | error e => simp [applyMem, hs]
        | ok m => simp [applyMem, hs]
    | Emp => simp [execPar, hc]
    | Zer =>
      simp only [execPar, hc]
      cases hs : setVal t
          { s with parameterPtr := wrap32 (s.parameterPtr + t.size) }
          (.Loc (wrap32 (s.parameterPtr + c.function.frameSize)))
          (primZero t) with
      | error e => simp [applyMem, hs]
      | ok m => simp [applyMem, hs]
  · simp [execPar, hc]
  · simp [execPar, hc]
  · intro v hg
    simp [execPar, hc, hg]

def parCounterProg : List Op := [.Par ⟨.Val 0, none⟩ .U32 .Zer]

/-- Caller frame of size `4` at base `0`, prepared callee frame of
size `8` at base `4`; `parameter_ptr = 0`. -/
def parCounterS : State :=
  { functions := [⟨4, parCounterProg⟩, ⟨8, []⟩]
    memory := ⟨⟨List.replicate 12 7, 65535, "stack"⟩, ⟨[], 65536, "heap"⟩⟩
    programCounter := 0
    callStack := [⟨⟨4, parCounterProg⟩, 0, 0, 0⟩, ⟨⟨8, []⟩, 4, 0, 0⟩]
    preparedCall := true
    parameterPtr := 0 }

/-- **C5 counterexample**: with caller frame size `4` and prepared
frame size `8`, `Par(..., U32, Zer)` writes at `Loc(0 + 4)` (bytes
`4..8`, the start of the prepared frame), not at `Loc(0 + 8)` as the
claimed formula `parameter_ptr + frame_size_of_prepared_frame`
predicts. -/
theorem c5_counterexample :
    (execute dummyFloatOps parCounterS).1 = .ok .Ok ∧
    (execute dummyFloatOps parCounterS).2.memory.stack.bytes =
      [7, 7, 7, 7, 0, 0, 0, 0, 7, 7, 7, 7] ∧
    (execute dummyFloatOps parCounterS).2.memory.stack.bytes ≠
      [7, 7, 7, 7, 7, 7, 7, 7, 0, 0, 0, 0] ∧
    (execute dummyFloatOps parCounterS).2.parameterPtr = 4 := by
  decide

/-- **C5 witness**: the `Emp` clause of `c5_par_placement` on the
concrete prepared-call state. -/
theorem c5_witness :
    execPar uwTy parCounterS ⟨.Val 0, none⟩ .Emp =
      (.ok (), { parCounterS with
        parameterPtr := wrap32 (parCounterS.parameterPtr + uwTy.size) }) :=
  (c5_par_placement uwTy parCounterS ⟨.Val 0, none⟩
    ⟨⟨4, parCounterProg⟩, 0, 0, 0⟩ (by rfl)).2.1

end Ni

namespace Ni

/-- Canonical state for the conditional-skipping scenario
`Ift(Loc 0); Ift(Loc 1); A; B` over the byte predicates `wx`, `wy`. -/
def condS (A B : Op) (wx wy : Nat) : State :=
  canonS [.Ift ⟨.Loc 0, none⟩ .U8, .Ift ⟨.Loc 1, none⟩ .U8, A, B] 2 [wx, wy]

theorem passConditionAux_step_stop (s : State) (fuel : Nat) (op : Op)
    (hop : currentOp
      { s with programCounter := wrap32 (s.programCounter + 1) } = .ok op)
    (hcond : op.isConditional = false) :
    passConditionAux s (fuel + 1) =
      (.ok (),
        { s with
          programCounter := wrap32 (wrap32 (s.programCounter + 1) + 1) }) := by
  simp [passConditionAux, hop, hcond]

/-- **C2** (conditional skipping, confirmed): `pass_condition` advances
the program counter past the conditional chain that follows, then once
more past the first non-conditional instruction.  For the sequence
`Ift(x); Ift(y); A; B` with `A` non-conditional (the status of `B` is
never inspected): a false first predicate lands the counter on `B`
(index 3) whatever `y` holds; a true first and false second predicate
also land on `B`; two true predicates land on `A` (index 2). -/
theorem c2_conditional_skipping (F : FloatOps) (A B : Op) (wx wy : Nat)
    (hA : A.isConditional = false) :
    (wx = 0 →
      execute F (condS A B wx wy) =
        (.ok .Ok, { condS A B wx wy with programCounter := 3 })) ∧
    (wx ≠ 0 →
      execute F (condS A B wx wy) =
        (.ok .Ok, { condS A B wx wy with programCounter := 1 }) ∧
      (wy = 0 →
        execute F { condS A B wx wy with programCounter := 1 } =
          (.ok .Ok, { condS A B wx wy with programCounter := 3 })) ∧
      (wy ≠ 0 →
        execute F { condS A B wx wy with programCounter := 1 } =
          (.ok .Ok, { condS A B wx wy with programCounter := 2 }))) := by
  constructor
  · intro hwx
    subst hwx
    have h0 : execute F (condS A B 0 wy) =
        condResult (condS A B 0 wy) (.ok false) := rfl
    have h1 : passCondition (condS A B 0 wy) =
        passConditionAux
          { condS A B 0 wy with programCounter := 1 } 5 := rfl
    have h2 := passConditionAux_step_stop
      { condS A B 0 wy with programCounter := 1 } 4 A (by rfl) hA
    rw [h0]
    simp only [condResult]
    rw [h1, show (5 : Nat) = 4 + 1 from rfl, h2]
    rfl
  · intro hwx
    have hbe : (wx == 0) = false := by
      simp only [beq_eq_false_iff_ne, ne_eq]
      exact hwx
    refine ⟨?_, ?_, ?_⟩
    · have h0 : execute F (condS A B wx wy) =
          condResult (condS A B wx wy) (.ok (!(wx == 0))) := rfl
      rw [h0, hbe]
      rfl
    · intro hwy
      subst hwy
      have h0 : execute F { condS A B wx 0 with programCounter := 1 } =
          condResult { condS A B wx 0 with programCounter := 1 }
            (.ok false) := rfl
      have h1 : passCondition
          { condS A B wx 0 with programCounter := 1 } =
          passConditionAux
            { condS A B wx 0 with programCounter := 1 } 6 := rfl
      have h2 := passConditionAux_step_stop
        { condS A B wx 0 with programCounter := 1 } 5 A (by rfl) hA
      rw [h0]
      simp only [condResult]
      rw [h1, show (6 : Nat) = 5 + 1 from rfl, h2]
      rfl
    · intro hwy
      have hbe2 : (wy == 0) = false := by
        simp only [beq_eq_false_iff_ne, ne_eq]
        exact hwy
      have h0 : execute F { condS A B wx wy with programCounter := 1 } =
          condResult { condS A B wx wy with programCounter := 1 }
            (.ok (!(wy == 0))) := rfl
      rw [h0, hbe2]
      rfl

/-- **C2 witness**: true-then-false predicates (`5`, `0`) on
`Ift; Ift; Nop; Nop`. -/
theorem c2_witness :
    execute dummyFloatOps (condS .Nop .Nop 5 0) =
      (.ok .Ok, { condS .Nop .Nop 5 0 with programCounter := 1 }) ∧
    ((0 : Nat) = 0 →
      execute dummyFloatOps
          { condS .Nop .Nop 5 0 with programCounter := 1 } =
        (.ok .Ok, { condS .Nop .Nop 5 0 with programCounter := 3 })) ∧
    ((0 : Nat) ≠ 0 →
      execute dummyFloatOps
          { condS .Nop .Nop 5 0 with programCounter := 1 } =
        (.ok .Ok, { condS .Nop .Nop 5 0 with programCounter := 2 })) :=
  (c2_conditional_skipping dummyFloatOps .Nop .Nop 5 0 (by rfl)).2
    (by decide)

end Ni

namespace Ni

/-- The stack page length (the quantity C3 speaks about). -/
def stackLen (s : State) : Nat := s.memory.stack.bytes.length

theorem valTy_size_lt (ot : OpType) : ot.valTy.size < U32 := by
  cases ot <;> norm_num [OpType.valTy, VTy.size, U32]

theorem wideTy_size_lt (ot : OpType) : ot.wideTy.size < U32 := by
  cases ot <;> norm_num [OpType.valTy, OpType.wideTy, VTy.size, U32]

theorem finish_ok (r : ExecResult Unit) (res : ExecutionSuccess) (u : State)
    (h : finish r = (.ok res, u)) :
    res = .Ok ∧ r.1 = .ok () ∧ u = adv r.2 := by
  obtain ⟨r1, r2⟩ := r
  cases r1 with
  | ok v =>
    cases v
    simp only [finish, Prod.mk.injEq, Except.ok.injEq] at h
    exact ⟨h.1.symm, rfl, h.2.symm⟩
  | error e =>
    simp only [finish, Prod.mk.injEq] at h
    exact Except.noConfusion h.1

theorem applyMem_fst_ok (s : State) (r0 : Except ExecutionError Memory)
    (h : (applyMem s r0).1 = .ok ()) :
    ∃ m', r0 = .ok m' ∧ (applyMem s r0).2 = { s with memory := m' } := by
  cases r0 with
  | error e => simp only [applyMem] at h; exact Except.noConfusion h
  | ok m => exact ⟨m, rfl, rfl⟩

theorem mapError_ok {α : Type} (r : Except MemoryError α) (a : α)
    (h : r.mapError ExecutionError.MemoryError = .ok a) : r = .ok a := by
  cases r with
  | error e => simp only [Except.mapError] at h; exact Except.noConfusion h
  | ok v =>
    simp only [Except.mapError, Except.ok.injEq] at h
    rw [h]

theorem setVal_shape (ty : VTy) (s : State) (o : Operand) (v : Nat)
    (m' : Memory) (hsz : ty.size < U32) (h : setVal ty s o v = .ok m') :
    m'.stack.bytes.length = s.memory.stack.bytes.length := by
  cases o with
  | Loc loc =>
    simp only [setVal, Bind.bind] at h
    cases hc : currentCall s with
    | error e =>
      rw [hc] at h
      simp only [Except.bind] at h
      exact Except.noConfusion h
    | ok c =>
      rw [hc] at h
      simp only [Except.bind] at h
      exact (memSet_ok_shape ty s.memory m' _ v hsz (mapError_ok _ _ h)).1
  | Ind ptr =>
    simp only [setVal, Bind.bind] at h
    cases hc : currentCall s with
    | error e =>
      rw [hc] at h
      simp only [Except.bind] at h
      exact Except.noConfusion h
    | ok c =>
      rw [hc] at h
      simp only [Except.bind] at h
      cases hg : (memGet uwTy s.memory
          (wrap32 (c.baseAddress + ptr))).mapError ExecutionError.MemoryError with
      | error e =>
        rw [hg] at h
        exact Except.noConfusion h
      | ok addr =>
        rw [hg] at h
        exact (memSet_ok_shape ty s.memory m' _ v hsz (mapError_ok _ _ h)).1
  | Ret r =>
    simp only [setVal, Bind.bind] at h
    cases hc : currentCall s with
    | error e =>
      rw [hc] at h
      simp only [Except.bind] at h
      exact Except.noConfusion h
    | ok c =>
      rw [hc] at h
      simp only [Except.bind] at h
      exact (memSet_ok_shape ty s.memory m' _ v hsz (mapError_ok _ _ h)).1
  | Val v' =>
    simp only [setVal, Bind.bind] at h
    cases hc : currentOp s with
    | error e =>
      rw [hc] at h
      simp only [Except.bind] at h
      exact Except.noConfusion h
    | ok op =>
      rw [hc] at h
      simp only [Except.bind] at h
      exact Except.noConfusion h
  | Ref v' =>
    simp only [setVal, Bind.bind] at h
    cases hc : currentOp s with
    | error e =>
      rw [hc] at h
      simp only [Except.bind] at h
      exact Except.noConfusion h
    | ok op =>
      rw [hc] at h
      simp only [Except.bind] at h
      exact Except.noConfusion h
  | Emp =>
    simp only [setVal, Bind.bind] at h
    cases hc : currentOp s with
    | error e =>
      rw [hc] at h
      simp only [Except.bind] at h
      exact Except.noConfusion h
    | ok op =>
      rw [hc] at h
      simp only [Except.bind] at h
      exact Except.noConfusion h

theorem updateBin_shape (ty uy : VTy) (s : State) (bin : BinOp)
    (f : Nat → Nat → Nat) (m' : Memory) (hsz : uy.size < U32)
    (h : updateBin ty uy s bin f = .ok m') :
    m'.stack.bytes.length = s.memory.stack.bytes.length := by
  simp only [updateBin, Bind.bind] at h
  cases hr : readBinOperands s bin with
  | error e =>
    rw [hr] at h
    simp only [Except.bind] at h
    exact Except.noConfusion h
  | ok p =>
    obtain ⟨l, r⟩ := p
    rw [hr] at h
    simp only [Except.bind] at h
    cases hx : getVal ty s l with
    | error e =>
      rw [hx] at h
      simp only [Except.bind] at h
      exact Except.noConfusion h
    | ok x =>
      rw [hx] at h
      simp only [Except.bind] at h
      cases hy : getVal ty s r with
      | error e =>
        rw [hy] at h
        simp only [Except.bind] at h
        exact Except.noConfusion h
      | ok y =>
        rw [hy] at h
        simp only [Except.bind] at h
        exact setVal_shape uy s l _ m' hsz h

theorem updateUn_shape (ty uy : VTy) (s : State) (un : UnOp)
    (f : Nat → Nat) (m' : Memory) (hsz : uy.size < U32)
    (h : updateUn ty uy s un f = .ok m') :
    m'.stack.bytes.length = s.memory.stack.bytes.length := by
  simp only [updateUn, Bind.bind] at h
  cases hr : readUnOperand s un with
  | error e =>
    rw [hr] at h
    simp only [Except.bind] at h
    exact Except.noConfusion h
  | ok l =>
    rw [hr] at h
    simp only [Except.bind] at h
    cases hx : getVal ty s l with
    | error e =>
      rw [hx] at h
      simp only [Except.bind] at h
      exact Except.noConfusion h
    | ok x =>
      rw [hx] at h
      simp only [Except.bind] at h
      exact setVal_shape uy s l _ m' hsz h

theorem updateBinChecked_shape (ty : VTy) (s : State) (bin : BinOp)
    (cf : Nat → Nat → Option Nat) (m' : Memory) (ovf : Bool)
    (hsz : ty.size < U32) (h : updateBinChecked ty s bin cf = .ok (m', ovf)) :
    m'.stack.bytes.length = s.memory.stack.bytes.length := by
  simp only [updateBinChecked, Bind.bind] at h
  cases hr : readBinOperands s bin with
  | error e =>
    rw [hr] at h
    simp only [Except.bind] at h
    exact Except.noConfusion h
  | ok p =>
    obtain ⟨l, r⟩ := p
    rw [hr] at h
    simp only [Except.bind] at h
    cases hx : getVal ty s l with
    | error e =>
      rw [hx] at h
      simp only [Except.bind] at h
      exact Except.noConfusion h
    | ok x =>
      rw [hx] at h
      simp only [Except.bind] at h
      cases hy : getVal ty s r with
      | error e =>
        rw [hy] at h
        simp only [Except.bind] at h
        exact Except.noConfusion h
      | ok y =>
        rw [hy] at h
        simp only [Except.bind] at h
        cases hcf : cf x y with
        | some v =>
          simp only [hcf] at h
          cases hs : setVal ty s l v with
          | error e =>
            simp only [hs] at h
            exact Except.noConfusion h
          | ok m2 =>
            simp only [hs, Except.ok.injEq, Prod.mk.injEq] at h
            rw [← h.1]
            exact setVal_shape ty s l v m2 hsz hs
        | none =>
          simp only [hcf] at h
          cases hs : setVal ty s l (primZero ty) with
          | error e =>
            simp only [hs] at h
            exact Except.noConfusion h
          | ok m2 =>
            simp only [hs, Except.ok.injEq, Prod.mk.injEq] at h
            rw [← h.1]
            exact setVal_shape ty s l _ m2 hsz hs

theorem updateUnChecked_shape (ty : VTy) (s : State) (un : UnOp)
    (cf : Nat → Option Nat) (m' : Memory) (ovf : Bool)
    (hsz : ty.size < U32) (h : updateUnChecked ty s un cf = .ok (m', ovf)) :
    m'.stack.bytes.length = s.memory.stack.bytes.length := by
  simp only [updateUnChecked, Bind.bind] at h
  cases hr : readUnOperand s un with
  | error e =>
    rw [hr] at h
    simp only [Except.bind] at h
    exact Except.noConfusion h
  | ok l =>
    rw [hr] at h
    simp only [Except.bind] at h
    cases hx : getVal ty s l with
    | error e =>
      rw [hx] at h
      simp only [Except.bind] at h
      exact Except.noConfusion h
    | ok x =>
      rw [hx] at h
      simp only [Except.bind] at h
      cases hcf : cf x with
      | some v =>
        simp only [hcf] at h
        cases hs : setVal ty s l v with
        | error e =>
          simp only [hs] at h
          exact Except.noConfusion h
        | ok m2 =>
          simp only [hs, Except.ok.injEq, Prod.mk.injEq] at h
          rw [← h.1]
          exact setVal_shape ty s l v m2 hsz hs
      | none =>
        simp only [hcf] at h
        cases hs : setVal ty s l (primZero ty) with
        | error e =>
          simp only [hs] at h
          exact Except.noConfusion h
        | ok m2 =>
          simp only [hs, Except.ok.injEq, Prod.mk.injEq] at h
          rw [← h.1]
          exact setVal_shape ty s l _ m2 hsz hs

theorem pageExpand_ok_len (p : MemPage) (size : Nat) (st : MemPage)
    (h : pageExpand p size = .ok st) :
    st.bytes.length = p.bytes.length + size := by
  simp only [pageExpand] at h
  split at h
  · exact Except.noConfusion h
  · simp only [Except.ok.injEq] at h
    rw [← h]
    simp

theorem pageNarrow_ok_len (p : MemPage) (size : Nat) (st : MemPage)
    (h : pageNarrow p size = .ok st) :
    size ≤ p.bytes.length ∧ st.bytes.length = p.bytes.length - size := by
  simp only [pageNarrow] at h
  split at h
  · exact Except.noConfusion h
  · next hcond =>
    simp only [Except.ok.injEq] at h
    refine ⟨by omega, ?_⟩
    rw [← h]
    simp

theorem getLast?_split {α : Type} (l : List α) (a : α)
    (h : l.getLast? = some a) : l = l.dropLast ++ [a] := by
  rcases List.eq_nil_or_concat l with rfl | ⟨l', b, rfl⟩
  · exact Option.noConfusion h
  · rw [List.concat_eq_append] at h ⊢
    rw [List.getLast?_concat] at h
    simp only [Option.some.injEq] at h
    rw [List.dropLast_concat, h]

theorem passConditionAux_state (fuel : Nat) :
    ∀ (s : State) (r : Except ExecutionError Unit) (u : State),
      passConditionAux s fuel = (r, u) →
      ∃ k, u = { s with programCounter := k } := by
  induction fuel with
  | zero =>
    intro s r u h
    simp only [passConditionAux, Prod.mk.injEq] at h
    exact ⟨s.programCounter, h.2.symm⟩
  | succ n ih =>
    intro s r u h
    simp only [passConditionAux] at h
    cases hop : currentOp
        { s with programCounter := wrap32 (s.programCounter + 1) } with
    | error e =>
      simp only [hop, Prod.mk.injEq] at h
      exact ⟨wrap32 (s.programCounter + 1), h.2.symm⟩
    | ok op =>
      simp only [hop] at h
      by_cases hc : op.isConditional = true
      · rw [if_pos hc] at h
        obtain ⟨k, hk⟩ := ih _ _ _ h
        exact ⟨k, hk.trans rfl⟩
      · rw [if_neg hc] at h
        simp only [Prod.mk.injEq] at h
        exact ⟨_, h.2.symm.trans rfl⟩

theorem passCondition_state (s : State) (r : Except ExecutionError Unit)
    (u : State) (h : passCondition s = (r, u)) :
    ∃ k, u = { s with programCounter := k } :=
  passConditionAux_state _ s r u h

end Ni

namespace Ni

theorem pure_mem_arm (t u : State) (r : ExecutionSuccess)
    (X : Except ExecutionError Memory)
    (h : finish (applyMem t X) = (.ok r, u))
    (hX : ∀ m', X = .ok m' →
      m'.stack.bytes.length = t.memory.stack.bytes.length) :
    u.callStack = t.callStack ∧ stackLen u = stackLen t ∧
      u.parameterPtr = t.parameterPtr := by
  obtain ⟨hres, h1, h2⟩ := finish_ok _ _ _ h
  obtain ⟨m', hm, h3⟩ := applyMem_fst_ok _ _ h1
  subst h2
  rw [h3]
  exact ⟨rfl, hX m' hm, rfl⟩

theorem condResult_arm (t u : State) (r : ExecutionSuccess)
    (X : Except ExecutionError Bool)
    (h : condResult t X = (.ok r, u)) :
    u.callStack = t.callStack ∧ stackLen u = stackLen t ∧
      u.parameterPtr = t.parameterPtr := by
  unfold condResult at h
  cases X with
  | error e =>
    simp only [Prod.mk.injEq] at h
    exact Except.noConfusion h.1
  | ok b =>
    cases b with
    | true =>
      simp only [Prod.mk.injEq] at h
      rw [← h.2]
      exact ⟨rfl, rfl, rfl⟩
    | false =>
      rcases hpc : passCondition t with ⟨r0, s'⟩
      rw [hpc] at h
      obtain ⟨k, hk⟩ := passCondition_state t r0 s' hpc
      cases r0 with
      | ok v =>
        cases v
        simp only [Prod.mk.injEq] at h
        rw [← h.2, hk]
        exact ⟨rfl, rfl, rfl⟩
      | error e =>
        simp only [Prod.mk.injEq] at h
        exact Except.noConfusion h.1

theorem execShift_arm (ty : VTy) (t u : State) (r : ExecutionSuccess)
    (x y : Operand) (f : VTy → Nat → Nat → Nat) (hsz : ty.size < U32)
    (h : finish (execShift ty t x y f) = (.ok r, u)) :
    u.callStack = t.callStack ∧ stackLen u = stackLen t ∧
      u.parameterPtr = t.parameterPtr := by
  unfold execShift at h
  cases hg1 : getVal ty t x with
  | error e =>
    rw [hg1] at h
    simp only [finish, Prod.mk.injEq] at h
    exact Except.noConfusion h.1
  | ok xv =>
    rw [hg1] at h
    cases hg2 : getVal (.int 1 false) t y with
    | error e =>
      rw [hg2] at h
      simp only [finish, Prod.mk.injEq] at h
      exact Except.noConfusion h.1
    | ok yv =>
      rw [hg2] at h
      exact pure_mem_arm t u r _ h
        (fun m' hm => setVal_shape ty t x _ m' hsz hm)

theorem execCnv_arm (tf tu : VTy) (t u : State) (r : ExecutionSuccess)
    (x y : Operand) (F : FloatOps) (hsz : tu.size < U32)
    (h : finish (execCnv F tf tu t x y) = (.ok r, u)) :
    u.callStack = t.callStack ∧ stackLen u = stackLen t ∧
      u.parameterPtr = t.parameterPtr := by
  unfold execCnv at h
  cases hg : getVal tf t y with
  | error e =>
    rw [hg] at h
    simp only [finish, Prod.mk.injEq] at h
    exact Except.noConfusion h.1
  | ok v =>
    rw [hg] at h
    exact pure_mem_arm t u r _ h
      (fun m' hm => setVal_shape tu t x _ m' hsz hm)

theorem execBinArith_arm (F : FloatOps) (k : BOp) (ty uy : VTy)
    (t u : State) (r : ExecutionSuccess) (bin : BinOp)
    (mode : ArithmeticMode) (hszt : ty.size < U32) (hszu : uy.size < U32)
    (h : finish (execBinArith F k ty uy t bin mode) = (.ok r, u)) :
    u.callStack = t.callStack ∧ stackLen u = stackLen t ∧
      u.parameterPtr = t.parameterPtr := by
  cases mode with
  | Wrap =>
    simp only [execBinArith] at h
    exact pure_mem_arm t u r _ h
      (fun m' hm => updateBin_shape ty ty t bin _ m' hszt hm)
  | Sat =>
    simp only [execBinArith] at h
    exact pure_mem_arm t u r _ h
      (fun m' hm => updateBin_shape ty ty t bin _ m' hszt hm)
  | Wide =>
    simp only [execBinArith] at h
    exact pure_mem_arm t u r _ h
      (fun m' hm => updateBin_shape ty uy t bin _ m' hszu hm)
  | Hand =>
    simp only [execBinArith] at h
    rcases hub : updateBinChecked ty t bin (primCheckedBin F ty k) with
      e | ⟨m, ovf⟩
    · simp only [hub] at h
      simp only [finish, Prod.mk.injEq] at h
      exact Except.noConfusion h.1
    · simp only [hub] at h
      cases ovf with
      | true =>
        rw [if_pos rfl] at h
        simp only [finish, Prod.mk.injEq] at h
        exact Except.noConfusion h.1
      | false =>
        rw [if_neg (by simp)] at h
        simp only [finish, adv, Prod.mk.injEq] at h
        rw [← h.2]
        exact ⟨rfl, updateBinChecked_shape ty t bin _ m false hszt hub, rfl⟩

theorem execUnArith_arm (F : FloatOps) (k : UOp) (ty uy : VTy)
    (t u : State) (r : ExecutionSuccess) (un : UnOp)
    (mode : ArithmeticMode) (hszt : ty.size < U32) (hszu : uy.size < U32)
    (h : finish (execUnArith F k ty uy t un mode) = (.ok r, u)) :
    u.callStack = t.callStack ∧ stackLen u = stackLen t ∧
      u.parameterPtr = t.parameterPtr := by
  cases mode with
  | Wrap =>
    simp only [execUnArith] at h
    exact pure_mem_arm t u r _ h
      (fun m' hm => updateUn_shape ty ty t un _ m' hszt hm)
  | Sat =>
    simp only [execUnArith] at h
    exact pure_mem_arm t u r _ h
      (fun m' hm => updateUn_shape ty ty t un _ m' hszt hm)
  | Wide =>
    simp only [execUnArith] at h
    exact pure_mem_arm t u r _ h
      (fun m' hm => updateUn_shape ty uy t un _ m' hszu hm)
  | Hand =>
    simp only [execUnArith] at h
    rcases hub : updateUnChecked ty t un (primCheckedUn F ty k) with
      e | ⟨m, ovf⟩
    · simp only [hub] at h
      simp only [finish, Prod.mk.injEq] at h
      exact Except.noConfusion h.1
    · simp only [hub] at h
      cases ovf with
      | true =>
        rw [if_pos rfl] at h
        simp only [finish, Prod.mk.injEq] at h
        exact Except.noConfusion h.1
      | false =>
        rw [if_neg (by simp)] at h
        simp only [finish, adv, Prod.mk.injEq] at h
        rw [← h.2]
        exact ⟨rfl, updateUnChecked_shape ty t un _ m false hszt hub, rfl⟩

theorem updateBinDivision_arm (ty : VTy) (t u : State)
    (r : ExecutionSuccess) (bin : BinOp) (f : Nat → Nat → Nat)
    (hsz : ty.size < U32)
    (h : finish (updateBinDivision ty t bin f) = (.ok r, u)) :
    u.callStack = t.callStack ∧ stackLen u = stackLen t ∧
      u.parameterPtr = t.parameterPtr := by
  unfold updateBinDivision at h
  rcases hr : readBinOperands t bin with e | lr
  · rw [hr] at h
    simp only [finish, Prod.mk.injEq] at h
    exact Except.noConfusion h.1
  · obtain ⟨l, rr⟩ := lr
    rw [hr] at h
    simp only at h
    cases hx : getVal ty t l with
    | error e =>
      simp only [hx, finish, Prod.mk.injEq] at h
      exact Except.noConfusion h.1
    | ok xv =>
      simp only [hx] at h
      cases hy : getVal ty t rr with
      | error e =>
        simp only [hy, finish, Prod.mk.injEq] at h
        exact Except.noConfusion h.1
      | ok yv =>
        simp only [hy] at h
        by_cases hz : primIsZero ty yv = true
        · rw [if_pos hz] at h
          cases hs : setVal ty t l (primZero ty) with
          | error e =>
            simp only [hs, finish, Prod.mk.injEq] at h
            exact Except.noConfusion h.1
          | ok m =>
            simp only [hs, finish, Prod.mk.injEq] at h
            exact Except.noConfusion h.1
        · rw [if_neg hz] at h
          cases hs : setVal ty t l (f xv yv) with
          | error e =>
            simp only [hs, finish, Prod.mk.injEq] at h
            exact Except.noConfusion h.1
          | ok m =>
            simp only [hs, finish, adv, Prod.mk.injEq] at h
            rw [← h.2]
            exact ⟨rfl, setVal_shape ty t l _ m hsz hs, rfl⟩

theorem execPar_arm (ty : VTy) (t u : State)
    (r : ExecutionSuccess) (un : UnOp) (mode : ParameterMode)
    (hsz : ty.size < U32)
    (h : finish (execPar ty t un mode) = (.ok r, u)) :
    u.callStack = t.callStack ∧ stackLen u = stackLen t := by
  unfold execPar at h
  cases hc : currentCall t with
  | error e =>
    rw [hc] at h
    simp only [finish, Prod.mk.injEq] at h
    exact Except.noConfusion h.1
  | ok c =>
    rw [hc] at h
    simp only at h
    cases mode with
    | Set =>
      cases hg : getUn ty
          { t with parameterPtr := wrap32 (t.parameterPtr + ty.size) } un with
      | error e =>
        simp only [hg, finish, Prod.mk.injEq] at h
        exact Except.noConfusion h.1
      | ok v =>
        simp only [hg] at h
        have := pure_mem_arm _ u r _ h
          (fun m' hm => setVal_shape ty _ _ _ m' hsz hm)
        exact ⟨this.1, this.2.1⟩
    | Emp =>
      simp only [finish, adv, Prod.mk.injEq] at h
      rw [← h.2]
      exact ⟨rfl, rfl⟩
    | Zer =>
      have := pure_mem_arm _ u r _ h
        (fun m' hm => setVal_shape ty _ _ _ m' hsz hm)
      exact ⟨this.1, this.2.1⟩

end Ni

namespace Ni

theorem appStep_arm (t u : State) (r : ExecutionSuccess) (fid : Nat)
    (h : finish (appStep t fid) = (.ok r, u)) :
    ∃ f, t.functions.get? fid = some f ∧
      u.callStack = t.callStack ++
        [⟨f, t.memory.stack.bytes.length, 0, 0⟩] ∧
      stackLen u = stackLen t + f.frameSize ∧
      u.parameterPtr = t.parameterPtr := by
  obtain ⟨hres, h1, h2⟩ := finish_ok _ _ _ h
  unfold appStep at h1 h2
  cases hf : t.functions.get? fid with
  | none =>
    simp only [hf] at h1
    exact Except.noConfusion h1
  | some f =>
    simp only [hf] at h1 h2
    cases hex : pageExpand t.memory.stack f.frameSize with
    | error e =>
      simp only [hex] at h1
      exact Except.noConfusion h1
    | ok st =>
      simp only [hex] at h2
      subst h2
      have hlen := pageExpand_ok_len _ _ _ hex
      exact ⟨f, rfl, rfl, hlen, rfl⟩

theorem clfStep_arm (t u : State) (ra : Nat)
    (h : clfStep t ra = (.ok (), u)) :
    ∃ fr, t.callStack.getLast? = some fr ∧
      u.callStack = t.callStack.dropLast ++
        [{ fr with retAddress := ra,
                   retProgramCounter := wrap32 (t.programCounter + 1) }] ∧
      stackLen u = stackLen t ∧ u.parameterPtr = 0 ∧
      u.programCounter = 0 := by
  unfold clfStep at h
  cases hl : t.callStack.getLast? with
  | none =>
    simp only [hl, Prod.mk.injEq] at h
    exact Except.noConfusion h.1
  | some fr =>
    simp only [hl, Prod.mk.injEq] at h
    obtain ⟨h1, h2⟩ := h
    subst h2
    exact ⟨fr, rfl, rfl, rfl, rfl, rfl⟩

theorem retStep_arm (t u : State)
    (h : retStep t = (.ok (), u)) :
    ∃ fr, t.callStack.getLast? = some fr ∧
      u.callStack = t.callStack.dropLast ∧
      fr.function.frameSize ≤ stackLen t ∧
      stackLen u = stackLen t - fr.function.frameSize ∧
      u.programCounter = fr.retProgramCounter ∧
      u.parameterPtr = t.parameterPtr := by
  unfold retStep at h
  cases hl : t.callStack.getLast? with
  | none =>
    simp only [hl, Prod.mk.injEq] at h
    exact Except.noConfusion h.1
  | some fr =>
    simp only [hl] at h
    cases hn : pageNarrow t.memory.stack fr.function.frameSize with
    | error e =>
      simp only [hn, Prod.mk.injEq] at h
      exact Except.noConfusion h.1
    | ok st =>
      simp only [hn, Prod.mk.injEq] at h
      obtain ⟨hle, hlen⟩ := pageNarrow_ok_len _ _ _ hn
      obtain ⟨h1, h2⟩ := h
      subst h2
      exact ⟨fr, rfl, rfl, hle, hlen, rfl, rfl⟩

end Ni

namespace Ni

/-- One successful `execute` step, classified by its effect on the call
stack, the stack page length and the parameter pointer: `App` pushes a
frame based at the old stack end and expands; `Clf` rewrites the last
frame's return fields and zeroes `parameter_ptr`; `Ret` pops the last
frame and narrows by its frame size; `Par` keeps the stack shape (it
may move `parameter_ptr`); every other instruction preserves all
three. -/
theorem execute_step_frames (F : FloatOps) (t : State) (r : ExecutionSuccess)
    (u : State) (h : execute F t = (.ok r, u)) :
    (∃ x fr, currentOp t = .ok (.App x) ∧
      u.callStack = t.callStack ++ [fr] ∧
      fr.baseAddress = stackLen t ∧
      stackLen u = stackLen t + fr.function.frameSize ∧
      u.parameterPtr = t.parameterPtr) ∨
    (∃ x fr, currentOp t = .ok (.Clf x) ∧
      t.callStack.getLast? = some fr ∧
      (∃ ra, u.callStack = t.callStack.dropLast ++
        [{ fr with retAddress := ra,
                   retProgramCounter := wrap32 (t.programCounter + 1) }]) ∧
      stackLen u = stackLen t ∧ u.parameterPtr = 0) ∨
    (∃ fr, currentOp t = .ok .Ret ∧
      t.callStack.getLast? = some fr ∧
      u.callStack = t.callStack.dropLast ∧
      fr.function.frameSize ≤ stackLen t ∧
      stackLen u = stackLen t - fr.function.frameSize ∧
      u.programCounter = fr.retProgramCounter ∧
      u.parameterPtr = t.parameterPtr) ∨
    (∃ un ot m, currentOp t = .ok (.Par un ot m) ∧
      u.callStack = t.callStack ∧ stackLen u = stackLen t) ∨
    (u.callStack = t.callStack ∧ stackLen u = stackLen t ∧
      u.parameterPtr = t.parameterPtr ∧
      (∀ x, currentOp t ≠ .ok (.App x)) ∧
      (∀ x, currentOp t ≠ .ok (.Clf x)) ∧ currentOp t ≠ .ok .Ret) := by
  cases hop : currentOp t with
  | error e =>
    simp only [execute, hop, Prod.mk.injEq] at h
    exact Except.noConfusion h.1
  | ok op =>
    cases op with
    | Nop =>
      simp only [execute, hop, Prod.mk.injEq] at h
      have hT : u.callStack = t.callStack ∧ stackLen u = stackLen t ∧
          u.parameterPtr = t.parameterPtr := by
        rw [← h.2]
        exact ⟨rfl, rfl, rfl⟩
      exact Or.inr (Or.inr (Or.inr (Or.inr ⟨hT.1, hT.2.1, hT.2.2, by simp, by simp, by simp⟩)))
    | End x =>
      simp only [execute, hop] at h
      have hT : u.callStack = t.callStack ∧ stackLen u = stackLen t ∧
          u.parameterPtr = t.parameterPtr := by
        cases hg : getVal uwTy t x with
        | error e =>
          simp only [hg, Prod.mk.injEq] at h
          exact Except.noConfusion h.1
        | ok v =>
          simp only [hg, Prod.mk.injEq] at h
          rw [← h.2]
          exact ⟨rfl, rfl, rfl⟩
      exact Or.inr (Or.inr (Or.inr (Or.inr ⟨hT.1, hT.2.1, hT.2.2, by simp, by simp, by simp⟩)))
    | Slp x =>
      simp only [execute, hop] at h
      have hT : u.callStack = t.callStack ∧ stackLen u = stackLen t ∧
          u.parameterPtr = t.parameterPtr := by
        cases hg : getVal uwTy t x with
        | error e =>
          simp only [hg, Prod.mk.injEq] at h
          exact Except.noConfusion h.1
        | ok v =>
          simp only [hg, Prod.mk.injEq] at h
          rw [← h.2]
          exact ⟨rfl, rfl, rfl⟩
      exact Or.inr (Or.inr (Or.inr (Or.inr ⟨hT.1, hT.2.1, hT.2.2, by simp, by simp, by simp⟩)))
    | Go x =>
      simp only [execute, hop] at h
      have hT : u.callStack = t.callStack ∧ stackLen u = stackLen t ∧
          u.parameterPtr = t.parameterPtr := by
        cases hg : getVal uwTy t x with
        | error e =>
          simp only [hg, Prod.mk.injEq] at h
          exact Except.noConfusion h.1
        | ok v =>
          simp only [hg, Prod.mk.injEq] at h
          rw [← h.2]
          exact ⟨rfl, rfl, rfl⟩
      exact Or.inr (Or.inr (Or.inr (Or.inr ⟨hT.1, hT.2.1, hT.2.2, by simp, by simp, by simp⟩)))
    | Set bin ot =>
      simp only [execute, hop] at h
      have hT := pure_mem_arm t u r _ h (fun m' hm =>
        updateBin_shape ot.valTy ot.valTy t bin _ m' (valTy_size_lt ot) hm)
      exact Or.inr (Or.inr (Or.inr (Or.inr ⟨hT.1, hT.2.1, hT.2.2, by simp, by simp, by simp⟩)))
    | Cnv x y tOT uOT =>
      simp only [execute, hop] at h
      have hT := execCnv_arm tOT.valTy uOT.valTy t u r x y F
        (valTy_size_lt uOT) h
      exact Or.inr (Or.inr (Or.inr (Or.inr ⟨hT.1, hT.2.1, hT.2.2, by simp, by simp, by simp⟩)))
    | Add bin ot mode =>
      simp only [execute, hop] at h
      have hT := execBinArith_arm F .add ot.valTy ot.wideTy t u r bin mode
        (valTy_size_lt ot) (wideTy_size_lt ot) h
      exact Or.inr (Or.inr (Or.inr (Or.inr ⟨hT.1, hT.2.1, hT.2.2, by simp, by simp, by simp⟩)))
    | Sub bin ot mode =>
      simp only [execute, hop] at h
      have hT := execBinArith_arm F .sub ot.valTy ot.wideTy t u r bin mode
        (valTy_size_lt ot) (wideTy_size_lt ot) h
      exact Or.inr (Or.inr (Or.inr (Or.inr ⟨hT.1, hT.2.1, hT.2.2, by simp, by simp, by simp⟩)))
    | Mul bin ot mode =>
      simp only [execute, hop] at h
      have hT := execBinArith_arm F .mul ot.valTy ot.wideTy t u r bin mode
        (valTy_size_lt ot) (wideTy_size_lt ot) h
      exact Or.inr (Or.inr (Or.inr (Or.inr ⟨hT.1, hT.2.1, hT.2.2, by simp, by simp, by simp⟩)))
    | Div bin ot =>
      simp only [execute, hop] at h
      have hT := updateBinDivision_arm ot.valTy t u r bin _
        (valTy_size_lt ot) h
      exact Or.inr (Or.inr (Or.inr (Or.inr ⟨hT.1, hT.2.1, hT.2.2, by simp, by simp, by simp⟩)))
    | Mod bin ot =>
      simp only [execute, hop] at h
      have hT := updateBinDivision_arm ot.valTy t u r bin _
        (valTy_size_lt ot) h
      exact Or.inr (Or.inr (Or.inr (Or.inr ⟨hT.1, hT.2.1, hT.2.2, by simp, by simp, by simp⟩)))
    | Shl x y ot =>
      simp only [execute, hop] at h
      have hT : u.callStack = t.callStack ∧ stackLen u = stackLen t ∧
          u.parameterPtr = t.parameterPtr := by
        by_cases hfl : ot.valTy.isFloat = true
        · rw [if_pos hfl] at h
          simp only [Prod.mk.injEq] at h
          exact Except.noConfusion h.1
        · rw [if_neg hfl] at h
          exact execShift_arm ot.valTy t u r x y _ (valTy_size_lt ot) h
      exact Or.inr (Or.inr (Or.inr (Or.inr ⟨hT.1, hT.2.1, hT.2.2, by simp, by simp, by simp⟩)))
    | Shr x y ot =>
      simp only [execute, hop] at h
      have hT : u.callStack = t.callStack ∧ stackLen u = stackLen t ∧
          u.parameterPtr = t.parameterPtr := by
        by_cases hfl : ot.valTy.isFloat = true
        · rw [if_pos hfl] at h
          simp only [Prod.mk.injEq] at h
          exact Except.noConfusion h.1
        · rw [if_neg hfl] at h
          exact execShift_arm ot.valTy t u r x y _ (valTy_size_lt ot) h
      exact Or.inr (Or.inr (Or.inr (Or.inr ⟨hT.1, hT.2.1, hT.2.2, by simp, by simp, by simp⟩)))
    | And bin ot =>
      simp only [execute, hop] at h
      have hT : u.callStack = t.callStack ∧ stackLen u = stackLen t ∧
          u.parameterPtr = t.parameterPtr := by
        by_cases hfl : ot.valTy.isFloat = true
        · rw [if_pos hfl] at h
          simp only [Prod.mk.injEq] at h
          exact Except.noConfusion h.1
        · rw [if_neg hfl] at h
          exact pure_mem_arm t u r _ h (fun m' hm =>
            updateBin_shape ot.valTy ot.valTy t bin _ m' (valTy_size_lt ot) hm)
      exact Or.inr (Or.inr (Or.inr (Or.inr ⟨hT.1, hT.2.1, hT.2.2, by simp, by simp, by simp⟩)))
    | Or bin ot =>
      simp only [execute, hop] at h
      have hT : u.callStack = t.callStack ∧ stackLen u = stackLen t ∧
          u.parameterPtr = t.parameterPtr := by
        by_cases hfl : ot.valTy.isFloat = true
        · rw [if_pos hfl] at h
          simp only [Prod.mk.injEq] at h
          exact Except.noConfusion h.1
        · rw [if_neg hfl] at h
          exact pure_mem_arm t u r _ h (fun m' hm =>
            updateBin_shape ot.valTy ot.valTy t bin _ m' (valTy_size_lt ot) hm)
      exact Or.inr (Or.inr (Or.inr (Or.inr ⟨hT.1, hT.2.1, hT.2.2, by simp, by simp, by simp⟩)))
    | Xor bin ot =>
      simp only [execute, hop] at h
      have hT : u.callStack = t.callStack ∧ stackLen u = stackLen t ∧
          u.parameterPtr = t.parameterPtr := by
        by_cases hfl : ot.valTy.isFloat = true
        · rw [if_pos hfl] at h
          simp only [Prod.mk.injEq] at h
          exact Except.noConfusion h.1
        · rw [if_neg hfl] at h
          exact pure_mem_arm t u r _ h (fun m' hm =>
            updateBin_shape ot.valTy ot.valTy t bin _ m' (valTy_size_lt ot) hm)
      exact Or.inr (Or.inr (Or.inr (Or.inr ⟨hT.1, hT.2.1, hT.2.2, by simp, by simp, by simp⟩)))
    | Not un ot =>
      simp only [execute, hop] at h
      have hT : u.callStack = t.callStack ∧ stackLen u = stackLen t ∧
          u.parameterPtr = t.parameterPtr := by
        by_cases hfl : ot.valTy.isFloat = true
        · rw [if_pos hfl] at h
          simp only [Prod.mk.injEq] at h
          exact Except.noConfusion h.1
        · rw [if_neg hfl] at h
          exact pure_mem_arm t u r _ h (fun m' hm =>
            updateUn_shape ot.valTy ot.valTy t un _ m' (valTy_size_lt ot) hm)
      exact Or.inr (Or.inr (Or.inr (Or.inr ⟨hT.1, hT.2.1, hT.2.2, by simp, by simp, by simp⟩)))
    | Neg un ot mode =>
      simp only [execute, hop] at h
      have hT := execUnArith_arm F .neg ot.valTy ot.wideTy t u r un mode
        (valTy_size_lt ot) (wideTy_size_lt ot) h
      exact Or.inr (Or.inr (Or.inr (Or.inr ⟨hT.1, hT.2.1, hT.2.2, by simp, by simp, by simp⟩)))
    | Inc un ot mode =>
      simp only [execute, hop] at h
      have hT := execUnArith_arm F .inc ot.valTy ot.wideTy t u r un mode
        (valTy_size_lt ot) (wideTy_size_lt ot) h
      exact Or.inr (Or.inr (Or.inr (Or.inr ⟨hT.1, hT.2.1, hT.2.2, by simp, by simp, by simp⟩)))
    | Dec un ot mode =>
      simp only [execute, hop] at h
      have hT := execUnArith_arm F .dec ot.valTy ot.wideTy t u r un mode
        (valTy_size_lt ot) (wideTy_size_lt ot) h
      exact Or.inr (Or.inr (Or.inr (Or.inr ⟨hT.1, hT.2.1, hT.2.2, by simp, by simp, by simp⟩)))
    | Ift un ot =>
      simp only [execute, hop] at h
      have hT := condResult_arm t u r _ h
      exact Or.inr (Or.inr (Or.inr (Or.inr ⟨hT.1, hT.2.1, hT.2.2, by simp, by simp, by simp⟩)))
    | Iff un ot =>
      simp only [execute, hop] at h
      have hT := condResult_arm t u r _ h
      exact Or.inr (Or.inr (Or.inr (Or.inr ⟨hT.1, hT.2.1, hT.2.2, by simp, by simp, by simp⟩)))
    | Ife bin ot =>
      simp only [execute, hop] at h
      have hT := condResult_arm t u r _ h
      exact Or.inr (Or.inr (Or.inr (Or.inr ⟨hT.1, hT.2.1, hT.2.2, by simp, by simp, by simp⟩)))
    | Ifl bin ot =>
      simp only [execute, hop] at h
      have hT := condResult_arm t u r _ h
      exact Or.inr (Or.inr (Or.inr (Or.inr ⟨hT.1, hT.2.1, hT.2.2, by simp, by simp, by simp⟩)))
    | Ifg bin ot =>
      simp only [execute, hop] at h
      have hT := condResult_arm t u r _ h
      exact Or.inr (Or.inr (Or.inr (Or.inr ⟨hT.1, hT.2.1, hT.2.2, by simp, by simp, by simp⟩)))
    | Ine bin ot =>
      simp only [execute, hop] at h
      have hT := condResult_arm t u r _ h
      exact Or.inr (Or.inr (Or.inr (Or.inr ⟨hT.1, hT.2.1, hT.2.2, by simp, by simp, by simp⟩)))
    | Inl bin ot =>
      simp only [execute, hop] at h
      have hT := condResult_arm t u r _ h
      exact Or.inr (Or.inr (Or.inr (Or.inr ⟨hT.1, hT.2.1, hT.2.2, by simp, by simp, by simp⟩)))
    | Ing bin ot =>
      simp only [execute, hop] at h
      have hT := condResult_arm t u r _ h
      exact Or.inr (Or.inr (Or.inr (Or.inr ⟨hT.1, hT.2.1, hT.2.2, by simp, by simp, by simp⟩)))
    | Ifa bin ot =>
      simp only [execute, hop] at h
      have hT : u.callStack = t.callStack ∧ stackLen u = stackLen t ∧
          u.parameterPtr = t.parameterPtr := by
        by_cases hfl : ot.valTy.isFloat = true
        · rw [if_pos hfl] at h
          simp only [Prod.mk.injEq] at h
          exact Except.noConfusion h.1
        · rw [if_neg hfl] at h
          exact condResult_arm t u r _ h
      exact Or.inr (Or.inr (Or.inr (Or.inr ⟨hT.1, hT.2.1, hT.2.2, by simp, by simp, by simp⟩)))
    | Ifo bin ot =>
      simp only [execute, hop] at h
      have hT : u.callStack = t.callStack ∧ stackLen u = stackLen t ∧
          u.parameterPtr = t.parameterPtr := by
        by_cases hfl : ot.valTy.isFloat = true
        · rw [if_pos hfl] at h
          simp only [Prod.mk.injEq] at h
          exact Except.noConfusion h.1
        · rw [if_neg hfl] at h
          exact condResult_arm t u r _ h
      exact Or.inr (Or.inr (Or.inr (Or.inr ⟨hT.1, hT.2.1, hT.2.2, by simp, by simp, by simp⟩)))
    | Ifx bin ot =>
      simp only [execute, hop] at h
      have hT : u.callStack = t.callStack ∧ stackLen u = stackLen t ∧
          u.parameterPtr = t.parameterPtr := by
        by_cases hfl : ot.valTy.isFloat = true
        · rw [if_pos hfl] at h
          simp only [Prod.mk.injEq] at h
          exact Except.noConfusion h.1
        · rw [if_neg hfl] at h
          exact condResult_arm t u r _ h
      exact Or.inr (Or.inr (Or.inr (Or.inr ⟨hT.1, hT.2.1, hT.2.2, by simp, by simp, by simp⟩)))
    | Ina bin ot =>
      simp only [execute, hop] at h
      have hT : u.callStack = t.callStack ∧ stackLen u = stackLen t ∧
          u.parameterPtr = t.parameterPtr := by
        by_cases hfl : ot.valTy.isFloat = true
        · rw [if_pos hfl] at h
          simp only [Prod.mk.injEq] at h
          exact Except.noConfusion h.1
        · rw [if_neg hfl] at h
          exact condResult_arm t u r _ h
      exact Or.inr (Or.inr (Or.inr (Or.inr ⟨hT.1, hT.2.1, hT.2.2, by simp, by simp, by simp⟩)))
    | Ino bin ot =>
      simp only [execute, hop] at h
      have hT : u.callStack = t.callStack ∧ stackLen u = stackLen t ∧
          u.parameterPtr = t.parameterPtr := by
        by_cases hfl : ot.valTy.isFloat = true
        · rw [if_pos hfl] at h
          simp only [Prod.mk.injEq] at h
          exact Except.noConfusion h.1
        · rw [if_neg hfl] at h
          exact condResult_arm t u r _ h
      exact Or.inr (Or.inr (Or.inr (Or.inr ⟨hT.1, hT.2.1, hT.2.2, by simp, by simp, by simp⟩)))
    | Inx bin ot =>
      simp only [execute, hop] at h
      have hT : u.callStack = t.callStack ∧ stackLen u = stackLen t ∧
          u.parameterPtr = t.parameterPtr := by
        by_cases hfl : ot.valTy.isFloat = true
        · rw [if_pos hfl] at h
          simp only [Prod.mk.injEq] at h
          exact Except.noConfusion h.1
        · rw [if_neg hfl] at h
          exact condResult_arm t u r _ h
      exact Or.inr (Or.inr (Or.inr (Or.inr ⟨hT.1, hT.2.1, hT.2.2, by simp, by simp, by simp⟩)))
    | App x =>
      simp only [execute, hop] at h
      cases hg : getVal uwTy t x with
      | error e =>
        simp only [hg, Prod.mk.injEq] at h
        exact Except.noConfusion h.1
      | ok fid =>
        simp only [hg] at h
        obtain ⟨f, hf, hcs, hsl, hpp⟩ := appStep_arm t u r fid h
        exact Or.inl ⟨x, ⟨f, t.memory.stack.bytes.length, 0, 0⟩,
          rfl, hcs, rfl, hsl, hpp⟩
    | Par un ot m =>
      simp only [execute, hop] at h
      have hp := execPar_arm ot.valTy t u r un m (valTy_size_lt ot) h
      exact Or.inr (Or.inr (Or.inr (Or.inl ⟨un, ot, m, rfl, hp.1, hp.2⟩)))
    | Clf x =>
      simp only [execute, hop] at h
      cases hg : getVal uwTy t x with
      | error e =>
        simp only [hg, Prod.mk.injEq] at h
        exact Except.noConfusion h.1
      | ok ra =>
        simp only [hg] at h
        rcases hcl : clfStep t ra with ⟨cr, s'⟩
        rw [hcl] at h
        cases cr with
        | error e =>
          simp only [Prod.mk.injEq] at h
          exact Except.noConfusion h.1
        | ok v =>
          cases v
          simp only [Prod.mk.injEq] at h
          obtain ⟨fr, hl, hcs, hsl, hpp, hpc⟩ := clfStep_arm t s' ra hcl
          rw [← h.2]
          exact Or.inr (Or.inl ⟨x, fr, rfl, hl, ⟨ra, hcs⟩, hsl, hpp⟩)
    | Ret =>
      simp only [execute, hop] at h
      rcases hrt : retStep t with ⟨cr, s'⟩
      rw [hrt] at h
      cases cr with
      | error e =>
        simp only [Prod.mk.injEq] at h
        exact Except.noConfusion h.1
      | ok v =>
        cases v
        simp only [Prod.mk.injEq] at h
        obtain ⟨fr, hl, hcs, hle, hsl, hpc, hpp⟩ := retStep_arm t s' hrt
        rw [← h.2]
        exact Or.inr (Or.inr (Or.inl ⟨fr, rfl, hl, hcs, hle, hsl, hpc, hpp⟩))

end Ni

namespace Ni

/-- Frames are contiguous: each frame sits at the running base. -/
def Chained : Nat → List FunctionCall → Prop
  | _, [] => True
  | b, fr :: rest =>
      fr.baseAddress = b ∧ Chained (b + fr.function.frameSize) rest

/-- The address one past the last frame of a chained stack. -/
def chainEnd : Nat → List FunctionCall → Nat
  | b, [] => b
  | b, fr :: rest => chainEnd (b + fr.function.frameSize) rest

theorem chainEnd_append (b : Nat) (l : List FunctionCall)
    (fr : FunctionCall) :
    chainEnd b (l ++ [fr]) = chainEnd b l + fr.function.frameSize := by
  induction l generalizing b with
  | nil => rfl
  | cons a rest ih =>
    simp only [List.cons_append, chainEnd]
    exact ih _

theorem chained_append (b : Nat) (l : List FunctionCall)
    (fr : FunctionCall) :
    Chained b (l ++ [fr]) ↔
      Chained b l ∧ fr.baseAddress = chainEnd b l := by
  induction l generalizing b with
  | nil => simp [Chained, chainEnd]
  | cons a rest ih =>
    simp only [List.cons_append, Chained, chainEnd]
    show a.baseAddress = b ∧
        Chained (b + a.function.frameSize) (rest ++ [fr]) ↔
      (a.baseAddress = b ∧ Chained (b + a.function.frameSize) rest) ∧
        fr.baseAddress = chainEnd (b + a.function.frameSize) rest
    rw [ih (b + a.function.frameSize), and_assoc]

/-- Conditions on an intermediate step of the C3 round trip: no `Clf`
and no `Ret` executed while the frame under scrutiny (index `d`) is
the top of the stack, and no `Par` at all. -/
def MidCond (d : Nat) (t : State) : Prop :=
  (∀ x, currentOp t = .ok (.Clf x) → d + 1 < t.callStack.length) ∧
  (currentOp t = .ok .Ret → d + 1 < t.callStack.length) ∧
  (∀ un ot m, currentOp t ≠ .ok (.Par un ot m))

/-- A (possibly empty) sequence of successful `execute` steps whose
source states all satisfy `P`. -/
inductive Mid (F : FloatOps) (P : State → Prop) : State → State → Prop
  | refl (s : State) : Mid F P s s
  | step {s t u : State} (r : ExecutionSuccess) :
      Mid F P s t → P t → execute F t = (.ok r, u) → Mid F P s u

/-- Invariant carried across the intermediate sequence: a chained
stack whose page length is the chain end, at least `d + 1` frames, the
first `d + 1` frames untouched, and a zero parameter pointer. -/
def MidInv (d : Nat) (cs2 : List FunctionCall) (s : State) : Prop :=
  Chained 0 s.callStack ∧ stackLen s = chainEnd 0 s.callStack ∧
  d + 1 ≤ s.callStack.length ∧
  s.callStack.take (d + 1) = cs2 ∧
  s.parameterPtr = 0

theorem midInv_step (F : FloatOps) (d : Nat) (cs2 : List FunctionCall)
    (t u : State) (r : ExecutionSuccess) (ht : MidInv d cs2 t)
    (hp : MidCond d t) (h : execute F t = (.ok r, u)) :
    MidInv d cs2 u := by
  obtain ⟨hch, hend, hlen, htake, hptr⟩ := ht
  rcases execute_step_frames F t r u h with
    ⟨x, fr, hop, hcs, hbase, hsl, hpp⟩ |
    ⟨x, fr, hop, hlast, ⟨ra, hcs⟩, hsl, hpp⟩ |
    ⟨fr, hop, hlast, hcs, hle, hsl, hpc, hpp⟩ |
    ⟨un, ot, m, hop, hcs, hsl⟩ |
    ⟨hcs, hsl, hpp, -, -, -⟩
  · refine ⟨?_, ?_, ?_, ?_, ?_⟩
    · rw [hcs, chained_append]
      refine ⟨hch, ?_⟩
      rw [hbase]
      exact hend
    · rw [hcs, chainEnd_append, hsl, hend]
    · rw [hcs]
      simp only [List.length_append, List.length_cons, List.length_nil]
      omega
    · rw [hcs, List.take_append_of_le_length (by omega)]
      exact htake
    · rw [hpp]
      exact hptr
  · have hlt := hp.1 x hop
    have hsplit := getLast?_split _ _ hlast
    have hdll : t.callStack.dropLast.length = t.callStack.length - 1 :=
      List.length_dropLast _
    have h2 : Chained 0 (t.callStack.dropLast ++ [fr]) := by
      rw [← hsplit]
      exact hch
    rw [chained_append] at h2
    have h3 : chainEnd 0 t.callStack =
        chainEnd 0 t.callStack.dropLast + fr.function.frameSize := by
      conv_lhs => rw [hsplit]
      rw [chainEnd_append]
    refine ⟨?_, ?_, ?_, ?_, hpp⟩
    · rw [hcs, chained_append]
      exact ⟨h2.1, h2.2⟩
    · rw [hsl, hcs, chainEnd_append, hend, h3]
    · rw [hcs]
      simp only [List.length_append, List.length_cons, List.length_nil, hdll]
      omega
    · rw [hcs, List.take_append_of_le_length (by omega),
        List.dropLast_eq_take, List.take_take]
      have hmin : min (d + 1) (t.callStack.length - 1) = d + 1 := by omega
      rw [hmin]
      exact htake
  · have hlt := hp.2.1 hop
    have hsplit := getLast?_split _ _ hlast
    have hdll : t.callStack.dropLast.length = t.callStack.length - 1 :=
      List.length_dropLast _
    have h2 : Chained 0 (t.callStack.dropLast ++ [fr]) := by
      rw [← hsplit]
      exact hch
    rw [chained_append] at h2
    have h3 : chainEnd 0 t.callStack =
        chainEnd 0 t.callStack.dropLast + fr.function.frameSize := by
      conv_lhs => rw [hsplit]
      rw [chainEnd_append]
    refine ⟨?_, ?_, ?_, ?_, ?_⟩
    · rw [hcs]
      exact h2.1
    · rw [hsl, hcs, hend, h3]
      omega
    · rw [hcs, hdll]
      omega
    · rw [hcs, List.dropLast_eq_take, List.take_take]
      have hmin : min (d + 1) (t.callStack.length - 1) = d + 1 := by omega
      rw [hmin]
      exact htake
    · rw [hpp]
      exact hptr
  · exact absurd hop (hp.2.2 un ot m)
  · exact ⟨by rw [hcs]; exact hch, by rw [hsl, hcs]; exact hend,
      by rw [hcs]; exact hlen, by rw [hcs]; exact htake,
      by rw [hpp]; exact hptr⟩

theorem midInv_run (F : FloatOps) (d : Nat) (cs2 : List FunctionCall)
    (s2 s3 : State) (hmid : Mid F (MidCond d) s2 s3)
    (h2 : MidInv d cs2 s2) : MidInv d cs2 s3 := by
  induction hmid with
  | refl => exact h2
  | step r hm hp hex ih => exact midInv_step F d cs2 _ _ r ih hp hex

end Ni

namespace Ni

theorem step_app_facts (F : FloatOps) (t u : State) (r : ExecutionSuccess)
    (x : Operand) (h : execute F t = (.ok r, u))
    (hop : currentOp t = .ok (.App x)) :
    ∃ fr, u.callStack = t.callStack ++ [fr] ∧
      fr.baseAddress = stackLen t ∧
      stackLen u = stackLen t + fr.function.frameSize ∧
      u.parameterPtr = t.parameterPtr := by
  rcases execute_step_frames F t r u h with
    ⟨x', fr, hop', hcs, hbase, hsl, hpp⟩ | ⟨x', fr, hop', -⟩ |
    ⟨fr, hop', -⟩ | ⟨un, ot, m, hop', -⟩ | ⟨-, -, -, hNA, -, -⟩
  · exact ⟨fr, hcs, hbase, hsl, hpp⟩
  · exact absurd (hop.symm.trans hop') (by simp)
  · exact absurd (hop.symm.trans hop') (by simp)
  · exact absurd (hop.symm.trans hop') (by simp)
  · exact absurd hop (hNA x)

theorem step_clf_facts (F : FloatOps) (t u : State) (r : ExecutionSuccess)
    (x : Operand) (h : execute F t = (.ok r, u))
    (hop : currentOp t = .ok (.Clf x)) :
    ∃ fr ra, t.callStack.getLast? = some fr ∧
      u.callStack = t.callStack.dropLast ++
        [{ fr with retAddress := ra,
                   retProgramCounter := wrap32 (t.programCounter + 1) }] ∧
      stackLen u = stackLen t ∧ u.parameterPtr = 0 := by
  rcases execute_step_frames F t r u h with
    ⟨x', fr, hop', -⟩ | ⟨x', fr, hop', hlast, ⟨ra, hcs⟩, hsl, hpp⟩ |
    ⟨fr, hop', -⟩ | ⟨un, ot, m, hop', -⟩ | ⟨-, -, -, -, hNC, -⟩
  · exact absurd (hop.symm.trans hop') (by simp)
  · exact ⟨fr, ra, hlast, hcs, hsl, hpp⟩
  · exact absurd (hop.symm.trans hop') (by simp)
  · exact absurd (hop.symm.trans hop') (by simp)
  · exact absurd hop (hNC x)

theorem step_ret_facts (F : FloatOps) (t u : State) (r : ExecutionSuccess)
    (h : execute F t = (.ok r, u)) (hop : currentOp t = .ok .Ret) :
    ∃ fr, t.callStack.getLast? = some fr ∧
      u.callStack = t.callStack.dropLast ∧
      fr.function.frameSize ≤ stackLen t ∧
      stackLen u = stackLen t - fr.function.frameSize ∧
      u.programCounter = fr.retProgramCounter ∧
      u.parameterPtr = t.parameterPtr := by
  rcases execute_step_frames F t r u h with
    ⟨x', fr, hop', -⟩ | ⟨x', fr, hop', -⟩ |
    ⟨fr, hop', hlast, hcs, hle, hsl, hpc, hpp⟩ |
    ⟨un, ot, m, hop', -⟩ | ⟨-, -, -, -, -, hNR⟩
  · exact absurd (hop.symm.trans hop') (by simp)
  · exact absurd (hop.symm.trans hop') (by simp)
  · exact ⟨fr, hlast, hcs, hle, hsl, hpc, hpp⟩
  · exact absurd (hop.symm.trans hop') (by simp)
  · exact absurd hop hNR

/-- **C3** (call/return round trip, corrected): start from any state
with a chained call stack (`d` frames, stack length = chain end) about
to execute `App(f)`; execute the `App`, then the `Clf`, then any
sequence of successful steps that never runs `Clf` or `Ret` while the
pushed frame is on top and never runs `Par`, and end with the `Ret`
that pops that frame.  Then the stack page length equals its value
before the `App`, the program counter equals the caller's counter at
the `Clf` plus one, and `parameter_ptr` is zero.  Without the no-`Par`
condition the `parameter_ptr` conclusion fails (see the
counterexample): a `Par` after the `Clf` leaves the pointer advanced,
and nothing on the return path resets it. -/
theorem c3_call_return_roundtrip (F : FloatOps) (s0 s1 s2 s3 s4 : State)
    (fOp : Operand) (retOp : Operand) (r1 r2 r4 : ExecutionSuccess)
    (d : Nat) (hd : d = s0.callStack.length)
    (hch0 : Chained 0 s0.callStack)
    (hend0 : stackLen s0 = chainEnd 0 s0.callStack)
    (hop0 : currentOp s0 = .ok (.App fOp))
    (h01 : execute F s0 = (.ok r1, s1))
    (hop1 : currentOp s1 = .ok (.Clf retOp))
    (h12 : execute F s1 = (.ok r2, s2))
    (hmid : Mid F (MidCond d) s2 s3)
    (hop3 : currentOp s3 = .ok .Ret)
    (hlen3 : s3.callStack.length = d + 1)
    (h34 : execute F s3 = (.ok r4, s4)) :
    stackLen s4 = stackLen s0 ∧
    s4.programCounter = wrap32 (s1.programCounter + 1) ∧
    s4.parameterPtr = 0 := by
  subst hd
  obtain ⟨frA, hcs1, hbase1, hsl1, hpp1⟩ :=
    step_app_facts F s0 s1 r1 fOp h01 hop0
  have hch1 : Chained 0 s1.callStack := by
    rw [hcs1, chained_append]
    refine ⟨hch0, ?_⟩
    rw [hbase1]
    exact hend0
  have hend1 : stackLen s1 = chainEnd 0 s1.callStack := by
    rw [hsl1, hcs1, chainEnd_append, hend0]
  obtain ⟨fr2, ra2, hlast2, hcs2, hsl2, hpp2⟩ :=
    step_clf_facts F s1 s2 r2 retOp h12 hop1
  have hfr2 : fr2 = frA := by
    rw [hcs1, List.getLast?_concat] at hlast2
    simp only [Option.some.injEq] at hlast2
    exact hlast2.symm
  subst fr2
  have hcs2' : s2.callStack = s0.callStack ++
      [{ frA with retAddress := ra2,
                  retProgramCounter := wrap32 (s1.programCounter + 1) }] := by
    rw [hcs2, hcs1, List.dropLast_concat]
  have hch2 : Chained 0 s2.callStack := by
    rw [hcs2', chained_append]
    refine ⟨hch0, ?_⟩
    show frA.baseAddress = chainEnd 0 s0.callStack
    rw [hbase1]
    exact hend0
  have hend2 : stackLen s2 = chainEnd 0 s2.callStack := by
    rw [hsl2, hend1, hcs1, hcs2', chainEnd_append, chainEnd_append]
  have hlen2 : s2.callStack.length = s0.callStack.length + 1 := by
    rw [hcs2']
    simp
  have hinv2 : MidInv s0.callStack.length s2.callStack s2 :=
    ⟨hch2, hend2, by omega, List.take_of_length_le (by omega), hpp2⟩
  obtain ⟨hch3, hend3, hlen3', htake3, hptr3⟩ :=
    midInv_run F _ _ s2 s3 hmid hinv2
  have hcs3 : s3.callStack = s2.callStack := by
    rw [← htake3]
    exact (List.take_of_length_le (by rw [hlen3])).symm
  obtain ⟨fr4, hlast4, hcs4, hle4, hsl4, hpc4, hpp4⟩ :=
    step_ret_facts F s3 s4 r4 h34 hop3
  have hfr4 : fr4 =
      { frA with retAddress := ra2,
                 retProgramCounter := wrap32 (s1.programCounter + 1) } := by
    rw [hcs3, hcs2', List.getLast?_concat] at hlast4
    simp only [Option.some.injEq] at hlast4
    exact hlast4.symm
  subst hfr4
  have h3 : stackLen s3 = stackLen s0 + frA.function.frameSize := by
    rw [hend3, hcs3, hcs2', chainEnd_append, ← hend0]
  refine ⟨?_, ?_, ?_⟩
  · rw [hsl4, h3]
    show stackLen s0 + frA.function.frameSize - frA.function.frameSize =
      stackLen s0
    omega
  · rw [hpc4]
  · rw [hpp4]
    exact hptr3

end Ni

namespace Ni

/-- The post-state of one `execute` step. -/
def stepS (F : FloatOps) (s : State) : State := (execute F s).2

/-- Initial state of the C3 runs: `main` (frame size 0) is
`App(Val 1); Clf(Val 0); Nop`. -/
def c3s0 : State :=
  { functions := [⟨0, [.App (.Val 1), .Clf (.Val 0), .Nop]⟩, ⟨4, [.Ret]⟩]
    memory := ⟨⟨[], 65535, "stack"⟩, ⟨[], 65536, "heap"⟩⟩
    programCounter := 0
    callStack := [⟨⟨0, [.App (.Val 1), .Clf (.Val 0), .Nop]⟩, 0, 0, 0⟩]
    preparedCall := false
    parameterPtr := 0 }

def c3s1 : State := stepS dummyFloatOps c3s0

def c3s2 : State := stepS dummyFloatOps c3s1

def c3s4 : State := stepS dummyFloatOps c3s2

/-- Like `c3s0`, but the callee runs a `Par` (in `Emp` mode) before its
`Ret`. -/
def c3cs0 : State :=
  { functions := [⟨0, [.App (.Val 1), .Clf (.Val 0), .Nop]⟩,
                  ⟨4, [.Par ⟨.Val 7, none⟩ .U32 .Emp, .Ret]⟩]
    memory := ⟨⟨[], 65535, "stack"⟩, ⟨[], 65536, "heap"⟩⟩
    programCounter := 0
    callStack := [⟨⟨0, [.App (.Val 1), .Clf (.Val 0), .Nop]⟩, 0, 0, 0⟩]
    preparedCall := false
    parameterPtr := 0 }

def c3cs1 : State := stepS dummyFloatOps c3cs0

def c3cs2 : State := stepS dummyFloatOps c3cs1

def c3cs3 : State := stepS dummyFloatOps c3cs2

def c3cs4 : State := stepS dummyFloatOps c3cs3

/-- **C3 counterexample**: a run `App(1); Clf(0)` into a callee that
executes `Par(..., Emp); Ret` — every step succeeds and the final `Ret`
pops the frame the `App` pushed (the call stack is back to one frame).
The stack length and program counter conclusions hold, but
`parameter_ptr` ends at `4`, not `0`: the callee's `Par` advanced it
after the `Clf` reset it, so the original claim's "parameter_ptr has
been reset to zero for the next App" is false for this sequence. -/
theorem c3_counterexample :
    (execute dummyFloatOps c3cs0).1 = .ok .Ok ∧
    currentOp c3cs0 = .ok (.App (.Val 1)) ∧
    (execute dummyFloatOps c3cs1).1 = .ok .Ok ∧
    currentOp c3cs1 = .ok (.Clf (.Val 0)) ∧
    (execute dummyFloatOps c3cs2).1 = .ok .Ok ∧
    (execute dummyFloatOps c3cs3).1 = .ok .Ok ∧
    currentOp c3cs3 = .ok .Ret ∧
    c3cs3.callStack.length = c3cs0.callStack.length + 1 ∧
    c3cs4.callStack.length = c3cs0.callStack.length ∧
    stackLen c3cs4 = stackLen c3cs0 ∧
    c3cs4.programCounter = wrap32 (c3cs1.programCounter + 1) ∧
    c3cs4.parameterPtr = 4 ∧
    c3cs4.parameterPtr ≠ 0 := by
  decide

/-- **C3 witness**: the round trip `App(1); Clf(0); Ret` with an empty
intermediate sequence. -/
theorem c3_witness :
    stackLen c3s4 = stackLen c3s0 ∧
    c3s4.programCounter = wrap32 (c3s1.programCounter + 1) ∧
    c3s4.parameterPtr = 0 :=
  c3_call_return_roundtrip dummyFloatOps c3s0 c3s1 c3s2 c3s2 c3s4
    (.Val 1) (.Val 0) .Ok .Ok .Ok 1 (by rfl) ⟨rfl, trivial⟩ (by rfl)
    (by rfl) (by decide) (by rfl) (by decide) (Mid.refl c3s2) (by rfl)
    (by decide) (by decide)

end Ni
